import Mathlib

/-!
# Verification of the BuildlessTypeScript comment-scanner core

This development embeds, as executable Lean definitions, the `BUILDLESS`
additions to `src/compiler/scanner.ts`:

* `commentScan` — the delimiter classifier (a forward text walk that
  recognizes whitespace, line comments and block comments, and classifies
  every block-comment delimiter, emitting delimiter events);
* `createTSCommentScanner` — the comment-span cursor
  (`scanThroughLeafNode`, `scanTo`, `scanUntilNextSignificantChar`,
  `clone`, `getBlockCommentDelimiters`, `getTSCommentPositions`);
* `createTSSyntaxTracker` — the range classifier
  (`skipWhitespaceThenMarkRangeAsTS`, `getSyntaxRanges`);
* the relevant parts of the augmented token scanner (`skipTrivia`, `scan`).

Texts are modelled as lists of UTF-16 code units (`Text := List Nat`);
`charCodeAt` returns `none` where JavaScript's `charCodeAt` returns `NaN`
(all comparisons in the source are strict equalities against concrete code
points, so `NaN` behaves exactly like `none` here), and `codePointAt`
performs surrogate-pair combination the way `String.prototype.codePointAt`
does.  Loops are modelled with explicit fuel returning `Option`, with
`none` meaning "fuel exhausted"; sufficiency lemmas discharge the fuel.
-/

namespace Buildless

/-- Source text, as a list of UTF-16 code units. -/
abbrev Text := List Nat

/-- Code units of a string literal (all our concrete inputs are ASCII). -/
def strCodes (s : String) : Text := s.data.map Char.toNat

/-- `text.charCodeAt(p)`: `none` plays the role of JavaScript's `NaN`
(out-of-range read); every use in the source compares the result with a
concrete code unit, and `NaN` is equal to nothing, exactly like `none`. -/
def charCodeAt (text : Text) (p : Nat) : Option Nat := text.get? p

namespace CharacterCodes

def lineFeed : Nat := 0x0A
def carriageReturn : Nat := 0x0D
def lineSeparator : Nat := 0x2028
def paragraphSeparator : Nat := 0x2029
def nextLine : Nat := 0x85
def space : Nat := 0x20
def tab : Nat := 0x09
def verticalTab : Nat := 0x0B
def formFeed : Nat := 0x0C
def nonBreakingSpace : Nat := 0xA0
def ogham : Nat := 0x1680
def enQuad : Nat := 0x2000
def emQuad : Nat := 0x2001
def enSpace : Nat := 0x2002
def emSpace : Nat := 0x2003
def threePerEmSpace : Nat := 0x2004
def fourPerEmSpace : Nat := 0x2005
def sixPerEmSpace : Nat := 0x2006
def figureSpace : Nat := 0x2007
def punctuationSpace : Nat := 0x2008
def thinSpace : Nat := 0x2009
def hairSpace : Nat := 0x200A
def zeroWidthSpace : Nat := 0x200B
def narrowNoBreakSpace : Nat := 0x202F
def mathematicalSpace : Nat := 0x205F
def ideographicSpace : Nat := 0x3000
def byteOrderMark : Nat := 0xFEFF
def asterisk : Nat := 0x2A
def slash : Nat := 0x2F
def colon : Nat := 0x3A
def semicolon : Nat := 0x3B
def comma : Nat := 0x2C
def hash : Nat := 0x23
def exclamation : Nat := 0x21
def lessThan : Nat := 0x3C
def greaterThan : Nat := 0x3E
def equals : Nat := 0x3D
def bar : Nat := 0x7C
def question : Nat := 0x3F
def caret : Nat := 0x5E
def openParen : Nat := 0x28
def closeParen : Nat := 0x29
def openBracket : Nat := 0x5B
def closeBracket : Nat := 0x5D
def openBrace : Nat := 0x7B
def closeBrace : Nat := 0x7D
def plus : Nat := 0x2B
def minus : Nat := 0x2D
def dot : Nat := 0x2E
def percent : Nat := 0x25
def ampersand : Nat := 0x26
def tilde : Nat := 0x7E
def at_ : Nat := 0x40
def backslash : Nat := 0x5C
def backtick : Nat := 0x60
def doubleQuote : Nat := 0x22
def singleQuote : Nat := 0x27
def dollar : Nat := 0x24
def underscore : Nat := 0x5F
def _0 : Nat := 0x30
def _9 : Nat := 0x39
def a : Nat := 0x61
def z : Nat := 0x7A
def A : Nat := 0x41
def Z : Nat := 0x5A
def maxAsciiCharacter : Nat := 0x7F

end CharacterCodes

/-- `codePointAt`: surrogate-pair combination per `String.prototype.codePointAt`. -/
def codePointAt (text : Text) (p : Nat) : Option Nat :=
  match charCodeAt text p with
  | none => none
  | some c =>
    if 0xD800 ≤ c ∧ c ≤ 0xDBFF then
      match charCodeAt text (p + 1) with
      | some c2 =>
        if 0xDC00 ≤ c2 ∧ c2 ≤ 0xDFFF then
          some ((c - 0xD800) * 0x400 + (c2 - 0xDC00) + 0x10000)
        else some c
      | none => some c
    else some c

/-- `isLineBreak` from `scanner.ts` (on an optional code unit; `NaN` is no
line break). -/
def isLineBreak (ch : Option Nat) : Bool :=
  match ch with
  | none => false
  | some c =>
    c = CharacterCodes.lineFeed ∨ c = CharacterCodes.carriageReturn ∨
    c = CharacterCodes.lineSeparator ∨ c = CharacterCodes.paragraphSeparator

/-- `isWhiteSpaceSingleLine` from `scanner.ts`. -/
def isWhiteSpaceSingleLine (ch : Option Nat) : Bool :=
  match ch with
  | none => false
  | some c =>
    c = CharacterCodes.space ∨ c = CharacterCodes.tab ∨
    c = CharacterCodes.verticalTab ∨ c = CharacterCodes.formFeed ∨
    c = CharacterCodes.nonBreakingSpace ∨ c = CharacterCodes.nextLine ∨
    c = CharacterCodes.ogham ∨
    (CharacterCodes.enQuad ≤ c ∧ c ≤ CharacterCodes.zeroWidthSpace) ∨
    c = CharacterCodes.narrowNoBreakSpace ∨ c = CharacterCodes.mathematicalSpace ∨
    c = CharacterCodes.ideographicSpace ∨ c = CharacterCodes.byteOrderMark

/-- `isWhiteSpaceLike` from `scanner.ts`. -/
def isWhiteSpaceLike (ch : Option Nat) : Bool :=
  isWhiteSpaceSingleLine ch ∨ isLineBreak ch

/-- `isShebangTrivia` (the regex `^#!.*` merely requires the text to start
with `#!`).  `Debug.assert(pos === 0)` always holds at the call sites we
model, which pass `pos = 0`. -/
def isShebangTrivia (text : Text) : Bool :=
  charCodeAt text 0 = some CharacterCodes.hash ∧
  charCodeAt text 1 = some CharacterCodes.exclamation

/-- `scanShebangTrivia`: length of the match of `^#!.*` — two characters
plus everything up to (excluding) the first line terminator (a JavaScript
regex `.` matches any code unit except LF, CR, LS, PS). -/
def scanShebangTrivia (text : Text) : Nat :=
  2 + ((text.drop 2).takeWhile (fun c => ¬ isLineBreak (some c))).length

/-- `BlockCommentDelimiterType` from `scanner.ts`. -/
inductive BlockCommentDelimiterType where
  /-- A `/*` not followed by colons. -/
  | openNonTsComment
  /-- Just the `/*` part of `/*:` or `/*::`. -/
  | openTsCommentWithoutColons
  /-- Just the `:` part of `/*:`. -/
  | singleColonForOpenTsComment
  /-- Just the `::` part of `/*::`. -/
  | doubleColonForOpenTsComment
  /-- Any `*/`, even if it pertains to a non-TS comment. -/
  | close
  deriving DecidableEq, Repr

/-- A delimiter event: (position, kind), as handed to `onCommentDelimiter`. -/
abbrev DelimEvent := Nat × BlockCommentDelimiterType

/-- The inner colon-detection loop of the block-comment branch of
`commentScan` (`while (pos < end) { space → continue; colon → isTsComment =
true, break; otherwise break }`).  Returns the final `pos` and `isTsComment`.
The fuel is always called with `end_ - pos`, which exactly covers the loop
bound `pos < end_`. -/
def tsColonScan (text : Text) (end_ : Nat) : Nat → Nat → Nat × Bool
  | 0, pos => (pos, false)
  | fuel + 1, pos =>
    if pos < end_ then
      if charCodeAt text pos = some CharacterCodes.space then
        tsColonScan text end_ fuel (pos + 1)
      else if charCodeAt text pos = some CharacterCodes.colon then
        (pos, true)
      else
        (pos, false)
    else (pos, false)

/-- The colon-count computation of `commentScan` (and of `scan`/`skipTrivia`):
1, 2, or 3 (standing for "3 or more"), read with plain `charCodeAt`
lookahead that is *not* bounded by `end_`. -/
def colonCountAt (text : Text) (pos : Nat) : Nat :=
  if charCodeAt text (pos + 1) ≠ some CharacterCodes.colon then 1
  else if charCodeAt text (pos + 2) ≠ some CharacterCodes.colon then 2
  else 3

/-- The opaque block-comment body loop of `commentScan`
(`while (pos < end) { asterisk-slash → emit close, pos += 2, break; pos++ }`).
Returns the final `pos` and the events emitted (at most one `close`).
Called with fuel `end_ - pos`. -/
def blockBodyScan (text : Text) (end_ : Nat) : Nat → Nat → Nat × List DelimEvent
  | 0, pos => (pos, [])
  | fuel + 1, pos =>
    if pos < end_ then
      if charCodeAt text pos = some CharacterCodes.asterisk ∧
         charCodeAt text (pos + 1) = some CharacterCodes.slash then
        (pos + 2, [(pos, BlockCommentDelimiterType.close)])
      else blockBodyScan text end_ fuel (pos + 1)
    else (pos, [])

/-- The line-comment body loop of `commentScan`
(`while (pos < end) { line break → break; pos++ }`). Called with fuel
`end_ - pos`. -/
def lineCommentScan (text : Text) (end_ : Nat) : Nat → Nat → Nat
  | 0, pos => pos
  | fuel + 1, pos =>
    if pos < end_ then
      if isLineBreak (charCodeAt text pos) then pos
      else lineCommentScan text end_ fuel (pos + 1)
    else pos

/-- Is this code point one of the explicit whitespace `case`s of the
`commentScan` `switch` (note: unlike `isWhiteSpaceSingleLine`, the list in
`commentScan` does *not* include `nextLine`)? -/
def commentScanWhitespaceCase (c : Nat) : Bool :=
  c = CharacterCodes.tab ∨ c = CharacterCodes.verticalTab ∨
  c = CharacterCodes.formFeed ∨ c = CharacterCodes.space ∨
  c = CharacterCodes.nonBreakingSpace ∨ c = CharacterCodes.ogham ∨
  c = CharacterCodes.enQuad ∨ c = CharacterCodes.emQuad ∨
  c = CharacterCodes.enSpace ∨ c = CharacterCodes.emSpace ∨
  c = CharacterCodes.threePerEmSpace ∨ c = CharacterCodes.fourPerEmSpace ∨
  c = CharacterCodes.sixPerEmSpace ∨ c = CharacterCodes.figureSpace ∨
  c = CharacterCodes.punctuationSpace ∨ c = CharacterCodes.thinSpace ∨
  c = CharacterCodes.hairSpace ∨ c = CharacterCodes.zeroWidthSpace ∨
  c = CharacterCodes.narrowNoBreakSpace ∨ c = CharacterCodes.mathematicalSpace ∨
  c = CharacterCodes.ideographicSpace ∨ c = CharacterCodes.byteOrderMark

/-- One fuel-indexed unfolding of the `commentScan` loop from `scanner.ts`
(lines 3298–3443).  Returns the stop position together with the list of
delimiter events emitted (in emission order), or `none` on fuel
exhaustion.  `Debug.assertLessThan(pos, end)` in the shebang branch is
modelled from the spec: the spec's failure policy is "never raises;
unrecognized or malformed delimiter sequences degrade to ordinary text",
and `Debug` lives outside the sources under study, so the assertion is
modelled as a no-op. -/
def commentScanAux (text : Text) (end_ : Nat) (stopOnSignificantText : Bool) :
    Nat → Nat → Option (Nat × List DelimEvent)
  | 0, _ => none
  | fuel + 1, pos =>
    let ch := codePointAt text pos
    if pos ≥ end_ then some (pos, [])
    else if pos = 0 ∧ ch = some CharacterCodes.hash ∧ isShebangTrivia text then
      commentScanAux text end_ stopOnSignificantText fuel (scanShebangTrivia text)
    else
      match ch with
      | some c =>
        if c = CharacterCodes.lineFeed ∨ c = CharacterCodes.carriageReturn then
          commentScanAux text end_ stopOnSignificantText fuel (pos + 1)
        else if commentScanWhitespaceCase c then
          commentScanAux text end_ stopOnSignificantText fuel (pos + 1)
        else if c = CharacterCodes.asterisk then
          if charCodeAt text (pos + 1) = some CharacterCodes.slash then
            (commentScanAux text end_ stopOnSignificantText fuel (pos + 2)).map
              (fun r => (r.1, (pos, BlockCommentDelimiterType.close) :: r.2))
          else
            commentScanAux text end_ stopOnSignificantText fuel (pos + 1)
        else if c = CharacterCodes.slash then
          if charCodeAt text (pos + 1) = some CharacterCodes.slash then
            commentScanAux text end_ stopOnSignificantText fuel
              (lineCommentScan text end_ (end_ - (pos + 2)) (pos + 2))
          else if charCodeAt text (pos + 1) = some CharacterCodes.asterisk then
            let saveStartPos := pos
            let colonRes := tsColonScan text end_ (end_ - (pos + 2)) (pos + 2)
            let colonPos := colonRes.1
            if colonRes.2 ∧ colonCountAt text colonPos ≤ 2 then
              -- `/*:` or `/*::`: emit the two TS delimiters and continue
              (commentScanAux text end_ stopOnSignificantText fuel
                  (colonPos + colonCountAt text colonPos)).map
                (fun r =>
                  (r.1,
                    (saveStartPos, BlockCommentDelimiterType.openTsCommentWithoutColons) ::
                    (colonPos,
                      if colonCountAt text colonPos = 1 then
                        BlockCommentDelimiterType.singleColonForOpenTsComment
                      else BlockCommentDelimiterType.doubleColonForOpenTsComment) :: r.2))
            else
              -- plain block comment (including the demoted `/*:::` case)
              let bodyStart := if colonRes.2 then colonPos + 3 else colonPos
              let bodyRes := blockBodyScan text end_ (end_ - bodyStart) bodyStart
              (commentScanAux text end_ stopOnSignificantText fuel bodyRes.1).map
                (fun r =>
                  (r.1,
                    (saveStartPos, BlockCommentDelimiterType.openNonTsComment) ::
                    (bodyRes.2 ++ r.2)))
          else
            commentScanAux text end_ stopOnSignificantText fuel (pos + 1)
        else
          if stopOnSignificantText then some (pos, [])
          else commentScanAux text end_ stopOnSignificantText fuel (pos + 1)
      | none =>
        -- `ch` undefined: the switch's default case
        if stopOnSignificantText then some (pos, [])
        else commentScanAux text end_ stopOnSignificantText fuel (pos + 1)

/-- `commentScan(text, start, end, stopOnSignificantText)`, run with
sufficient fuel (`end - start + 1` bounds the number of loop iterations,
since every iteration either returns or strictly advances `pos`). -/
def commentScan (text : Text) (start end_ : Nat) (stopOnSignificantText : Bool) :
    Nat × List DelimEvent :=
  (commentScanAux text end_ stopOnSignificantText (end_ - start + 1) start).getD (start, [])

/-! ## The comment-span cursor (`createTSCommentScanner`) -/

/-- `BlockCommentDelimiterPositions`: a JavaScript `Map` from offsets to
delimiter kinds, modelled as an association list with `Map.prototype.set`
semantics (update in place if the key is present, else append). -/
abbrev DelimMap := List (Nat × BlockCommentDelimiterType)

/-- `map.set(k, v)` for a JavaScript `Map`. -/
def mapSet (m : DelimMap) (k : Nat) (v : BlockCommentDelimiterType) : DelimMap :=
  match m with
  | [] => [(k, v)]
  | (k', v') :: rest => if k' = k then (k, v) :: rest else (k', v') :: mapSet rest k v

/-- `map.get(k)` for a JavaScript `Map`. -/
def mapLookup (m : DelimMap) (k : Nat) : Option BlockCommentDelimiterType :=
  match m with
  | [] => none
  | (k', v') :: rest => if k' = k then some v' else mapLookup rest k

/-- `TsCommentScannerState` from `scanner.ts`. -/
inductive TsCommentScannerState where
  | notInComment
  | inBlockComment
  | inTSBlockComment
  deriving DecidableEq, Repr

/-- The per-cursor state of a `TsCommentScanner` (`pos` and `state`); the
cursor's local delimiter map (`delimiterPositions`) is passed separately
to the operations below, and the `Map` reference semantics of creation
and `clone()` is modelled by the heap layer further down
(`TsCommentScannerObj`). -/
structure TsCommentScanner where
  pos : Nat
  state : TsCommentScannerState
  deriving DecidableEq, Repr

/-- The state transition performed by `onCommentDelimiter` (the map write is
handled by `commitEvent` below). -/
def delimStateStep (s : TsCommentScannerState) (d : BlockCommentDelimiterType) :
    TsCommentScannerState :=
  match d with
  | BlockCommentDelimiterType.close => TsCommentScannerState.notInComment
  | BlockCommentDelimiterType.openTsCommentWithoutColons => TsCommentScannerState.inTSBlockComment
  | BlockCommentDelimiterType.openNonTsComment => TsCommentScannerState.inBlockComment
  | _ => s

/-- Folding `delimStateStep` over an event list (the events of one
`commentScan` call, processed in emission order). -/
def applyEventsState (s : TsCommentScannerState) (evs : List DelimEvent) :
    TsCommentScannerState :=
  evs.foldl (fun s e => delimStateStep s e.2) s

/-- The map write of `onCommentDelimiter` for one event. -/
def commitEvent (m : DelimMap) (e : DelimEvent) : DelimMap := mapSet m e.1 e.2

/-- The map writes of `onCommentDelimiter` over an event list. -/
def commitEvents (m : DelimMap) (evs : List DelimEvent) : DelimMap :=
  evs.foldl commitEvent m

/-- `createTSCommentScanner({text})` — the cursor part of the normal
creation (`pos = 0`, `state = notInComment`); its local map
`delimiterPositions = _delimiterPositions ?? new Map()` starts empty. -/
def createTSCommentScanner : TsCommentScanner :=
  { pos := 0, state := TsCommentScannerState.notInComment }

/-- `scanThroughLeafNode(node)`: returns the boolean result together with
the updated cursor and the cursor's delimiter map. -/
def scanThroughLeafNode (text : Text) (c : TsCommentScanner) (m : DelimMap)
    (nodePos nodeEnd : Nat) : Bool × TsCommentScanner × DelimMap :=
  if nodeEnd < c.pos then (false, c, m)
  else
    let r1 := commentScan text c.pos nodePos false
    let r2 := commentScan text nodePos nodeEnd true
    let st := applyEventsState (applyEventsState c.state r1.2) r2.2
    let m' := commitEvents (commitEvents m r1.2) r2.2
    (st = TsCommentScannerState.inTSBlockComment, { pos := nodeEnd, state := st }, m')

/-- `scanTo(end)`: returns the boolean result together with the updated
cursor and the cursor's delimiter map. -/
def scanTo (text : Text) (c : TsCommentScanner) (m : DelimMap) (end_ : Nat) :
    Bool × TsCommentScanner × DelimMap :=
  if end_ < c.pos then (false, c, m)
  else
    let r1 := commentScan text c.pos end_ true
    let st1 := applyEventsState c.state r1.2
    let allInTSComment := st1 = TsCommentScannerState.inTSBlockComment
    let r2 := commentScan text r1.1 end_ false
    let st2 := applyEventsState st1 r2.2
    let m' := commitEvents (commitEvents m r1.2) r2.2
    (allInTSComment ∧ r2.2 = [], { pos := end_, state := st2 }, m')

/-- `scanUntilNextSignificantChar(max)`: returns the boolean result together
with the updated cursor and the cursor's delimiter map.  (Note: the
source never assigns
`pos` in this function.) -/
def scanUntilNextSignificantChar (text : Text) (c : TsCommentScanner) (m : DelimMap)
    (max : Nat) : Bool × TsCommentScanner × DelimMap :=
  if max < c.pos then (false, c, m)
  else
    let r := commentScan text c.pos max true
    let st := applyEventsState c.state r.2
    let m' := commitEvents m r.2
    (st = TsCommentScannerState.inTSBlockComment, { pos := c.pos, state := st }, m')

/-- The delimiter events discovered by one `scanTo(end)` call starting at
position `pos` (its two `commentScan` passes, in order). -/
def scanToEvents (text : Text) (pos end_ : Nat) : List DelimEvent :=
  (commentScan text pos end_ true).2 ++
  (commentScan text (commentScan text pos end_ true).1 end_ false).2

/-- A reference to a `Map` object.  JavaScript `Map`s are mutable objects
passed by reference; the heap below gives every allocated map an index so
that aliasing (or its absence) between cursors is represented faithfully. -/
abbrev MapRef := Nat

/-- The `Map` objects allocated during a session, indexed by `MapRef`
(`new Map()` appends an empty map). -/
abbrev MapHeap := List DelimMap

/-- Dereference a map. -/
def heapGet (h : MapHeap) (r : MapRef) : DelimMap := (h.get? r).getD []

/-- Overwrite the map object behind a reference. -/
def heapSet (h : MapHeap) (r : MapRef) (m : DelimMap) : MapHeap := h.set r m

/-- The closure state of one `TsCommentScanner` object: the mutable `pos`
and `state`, the reference `delims` held by the local
`delimiterPositions`, and `arg` — the `_delimiterPositions` *parameter*
the scanner was constructed with (`none` when the optional argument was
omitted), which is what `clone()` passes on. -/
structure TsCommentScannerObj where
  pos : Nat
  state : TsCommentScannerState
  delims : MapRef
  arg : Option MapRef
  deriving DecidableEq, Repr

/-- `createTSCommentScanner({text}, _pos, _state, _delimiterPositions)`:
`delimiterPositions = _delimiterPositions ?? new Map()` — a fresh map is
allocated exactly when the optional argument is absent. -/
def createTSCommentScannerObj (pos : Nat) (state : TsCommentScannerState)
    (arg : Option MapRef) (h : MapHeap) : TsCommentScannerObj × MapHeap :=
  match arg with
  | some r => ({ pos := pos, state := state, delims := r, arg := arg }, h)
  | none => ({ pos := pos, state := state, delims := h.length, arg := arg }, h ++ [[]])

/-- `createTSCommentScanner(sourceFile)` — the normal creation, with the
optional arguments omitted, starting from an empty heap. -/
def newTSCommentScanner : TsCommentScannerObj × MapHeap :=
  createTSCommentScannerObj 0 TsCommentScannerState.notInComment none []

/-- `clone()` from `scanner.ts` line 3063:
`createTSCommentScanner({ text }, pos, state, _delimiterPositions)` — it
passes the current `pos` and `state` and the scanner's
`_delimiterPositions` *argument*, not the local `delimiterPositions`
map.  A clone of a normally created scanner (`arg = none`) therefore
allocates a fresh map instead of sharing the original's. -/
def TsCommentScannerObj.clone (c : TsCommentScannerObj) (h : MapHeap) :
    TsCommentScannerObj × MapHeap :=
  createTSCommentScannerObj c.pos c.state c.arg h

/-- `scanTo(end)` on a scanner object: runs `scanTo` on the cursor with
the map object its `delimiterPositions` references, and writes the
updated map back through that reference. -/
def scanToObj (text : Text) (c : TsCommentScannerObj) (h : MapHeap) (end_ : Nat) :
    Bool × TsCommentScannerObj × MapHeap :=
  let r := scanTo text { pos := c.pos, state := c.state } (heapGet h c.delims) end_
  (r.1, { c with pos := r.2.1.pos, state := r.2.1.state }, heapSet h c.delims r.2.2)

/-- `getBlockCommentDelimiters()` on a scanner object: reads the map its
local `delimiterPositions` references. -/
def getBlockCommentDelimitersObj (c : TsCommentScannerObj) (h : MapHeap) : DelimMap :=
  heapGet h c.delims

/-- `TsCommentPosition` from `scanner.ts`, with the fields of the
incrementally built `Partial<TsCommentPosition>` record kept as `Option`s
(`result.push(tsCommentPosition as TsCommentPosition)` is an unchecked
cast of the partial record). -/
structure TsCommentPosition where
  openPos : Option Nat
  colonPos : Option Nat
  closePos : Option Nat
  colonCount : Option Nat
  containedInnerOpeningBlockComment : Bool
  deriving DecidableEq, Repr

/-- The freshly reset pending record of `getTSCommentPositions`. -/
def emptyTsCommentPosition : TsCommentPosition :=
  { openPos := none, colonPos := none, closePos := none, colonCount := none,
    containedInnerOpeningBlockComment := false }

/-- The event-pairing loop of `getTSCommentPositions`, over the
offset-sorted delimiter list. -/
def buildSpans : List DelimEvent → TsCommentPosition → Bool → List TsCommentPosition
  | [], _, _ => []
  | (p, d) :: rest, cur, inTSComment =>
    if ¬ inTSComment ∧ d = BlockCommentDelimiterType.openTsCommentWithoutColons then
      buildSpans rest { cur with openPos := some p } true
    else if inTSComment ∧ d = BlockCommentDelimiterType.singleColonForOpenTsComment then
      buildSpans rest { cur with colonPos := some p, colonCount := some 1 } inTSComment
    else if inTSComment ∧ d = BlockCommentDelimiterType.doubleColonForOpenTsComment then
      buildSpans rest { cur with colonPos := some p, colonCount := some 2 } inTSComment
    else if inTSComment ∧ d = BlockCommentDelimiterType.openNonTsComment then
      buildSpans rest { cur with containedInnerOpeningBlockComment := true } inTSComment
    else if inTSComment ∧ d = BlockCommentDelimiterType.close then
      { cur with closePos := some p } :: buildSpans rest emptyTsCommentPosition false
    else
      buildSpans rest cur inTSComment

/-- `[...delimiterPositions].sort((a, b) => a.pos - b.pos)`: sorting the
map entries by offset (offsets are unique keys, so any sort agrees). -/
def sortedDelims (m : DelimMap) : List DelimEvent :=
  m.insertionSort (fun a b => a.1 ≤ b.1)

/-- `getTSCommentPositions()` over the cursor's delimiter map. -/
def getTSCommentPositions (m : DelimMap) : List TsCommentPosition :=
  buildSpans (sortedDelims m) emptyTsCommentPosition false

/-! ## The range classifier (`createTSSyntaxTracker`) -/

/-- `SyntaxRangeType` from `scanner.ts`. -/
inductive SyntaxRangeType where
  | typeScript
  | javaScript
  | whitespace
  deriving DecidableEq, Repr

/-- `SyntaxRange` from `scanner.ts`. -/
structure SyntaxRange where
  start : Nat
  end_ : Nat
  type : SyntaxRangeType
  deriving DecidableEq, Repr

/-- The two range lists accumulated by `createTSSyntaxTracker`. -/
structure TsSyntaxTracker where
  whitespaceSyntaxRanges : List SyntaxRange
  tsSyntaxRanges : List SyntaxRange
  deriving DecidableEq, Repr

/-- A fresh tracker. -/
def createTSSyntaxTracker : TsSyntaxTracker := ⟨[], []⟩

/-- `skipWhitespaceThenMarkRangeAsTS(start, end)`. -/
def skipWhitespaceThenMarkRangeAsTS (text : Text) (tr : TsSyntaxTracker)
    (start end_ : Nat) : TsSyntaxTracker :=
  let realStart := (commentScan text start end_ true).1
  let ws :=
    if start < realStart then
      tr.whitespaceSyntaxRanges ++ [⟨start, realStart, SyntaxRangeType.whitespace⟩]
    else tr.whitespaceSyntaxRanges
  let ts :=
    if realStart < end_ then
      tr.tsSyntaxRanges ++ [⟨realStart, end_, SyntaxRangeType.typeScript⟩]
    else tr.tsSyntaxRanges
  ⟨ws, ts⟩

/-- Folding a list of `(start, end)` declarations through
`skipWhitespaceThenMarkRangeAsTS`. -/
def markRanges (text : Text) (decls : List (Nat × Nat)) : TsSyntaxTracker :=
  decls.foldl (fun tr d => skipWhitespaceThenMarkRangeAsTS text tr d.1 d.2)
    createTSSyntaxTracker

/-- The inner merge loop of `getSyntaxRanges` (`end = Math.max(end,
ts[i].end); i++;` until the next recorded range is missing or starts past
`end`).  Takes the list starting at the current ts range; returns the
merged `end` and the remaining list. -/
def mergeTsRanges : List SyntaxRange → Nat → Nat × List SyntaxRange
  | [], e => (e, [])
  | t :: rest, e =>
    let e' := max e t.end_
    match rest with
    | [] => (e', [])
    | t2 :: _ => if t2.start > e' then (e', rest) else mergeTsRanges rest e'

/-- `Math.min(a?, b)` where `a? = none` stands for `Infinity`. -/
def minInf (a : Option Nat) (b : Nat) : Nat :=
  match a with
  | none => b
  | some a => min a b

/-- `pos >= whitespaceStart` where `whitespaceStart` may be `Infinity`. -/
def atOrPast (pos : Nat) (start? : Option Nat) : Bool :=
  match start? with
  | some w => pos ≥ w
  | none => false

/-- `whitespaceEnd < tsStart` where `tsStart` may be `Infinity`. -/
def ltInf (e : Nat) (start? : Option Nat) : Bool :=
  match start? with
  | some t => e < t
  | none => true

/-- One fuel-indexed unfolding of the `getSyntaxRanges` sweep loop, over
the state `(pos, remaining whitespace ranges, remaining ts ranges)`; both
lists are already sorted by `start`.  `none` means fuel exhaustion. -/
def syntaxRangesAux (len : Nat) :
    Nat → Nat → List SyntaxRange → List SyntaxRange → Option (List SyntaxRange)
  | 0, _, _, _ => none
  | fuel + 1, pos, wsL, tsL =>
    if pos < len then
      let wsStart? := wsL.head?.map SyntaxRange.start
      let tsStart? := tsL.head?.map SyntaxRange.start
      if tsStart? = some pos then
        match tsL with
        | [] => none
        | t :: rest =>
          let m := mergeTsRanges (t :: rest) t.end_
          -- first iteration: `end = max(-Infinity, ts[i].end) = ts[i].end`
          (syntaxRangesAux len fuel m.1 wsL m.2).map
            (fun l => ⟨t.start, m.1, SyntaxRangeType.typeScript⟩ :: l)
      else if atOrPast pos wsStart? then
        match wsL with
        | [] => none
        | w :: wsRest =>
          if ltInf w.end_ tsStart? then
            syntaxRangesAux len fuel (max pos w.end_) wsRest tsL
          else
            match tsL with
            | [] => none
            | t :: _ => syntaxRangesAux len fuel t.start wsL tsL
      else
        let e := minInf tsStart? (minInf wsStart? len)
        (syntaxRangesAux len fuel e wsL tsL).map
          (fun l => ⟨pos, e, SyntaxRangeType.javaScript⟩ :: l)
    else some []

instance : IsTotal DelimEvent (fun a b => a.1 ≤ b.1) := ⟨fun a b => Nat.le_total a.1 b.1⟩

instance : IsTrans DelimEvent (fun a b => a.1 ≤ b.1) := ⟨fun _ _ _ h1 h2 => le_trans h1 h2⟩

instance : IsTotal SyntaxRange (fun a b => a.start ≤ b.start) :=
  ⟨fun a b => Nat.le_total a.start b.start⟩

instance : IsTrans SyntaxRange (fun a b => a.start ≤ b.start) :=
  ⟨fun _ _ _ h1 h2 => le_trans h1 h2⟩

/-- Stable sort by `start` (`.sort((a, b) => a.start - b.start)`). -/
def sortRanges (l : List SyntaxRange) : List SyntaxRange :=
  l.insertionSort (fun a b => a.start ≤ b.start)

/-- A fuel budget that (under the reachable-state invariants) strictly
exceeds the sweep measure, see `syntaxRangesAux_sufficient` below. -/
def syntaxRangesFuel (len : Nat) (wsL tsL : List SyntaxRange) : Nat :=
  let C := len + (tsL.map (fun r => r.start + r.end_)).sum
             + (wsL.map (fun r => r.start + r.end_)).sum + 1
  2 * C * tsL.length + C * wsL.length + C + 1

/-- `getSyntaxRanges()`: sorts both recorded lists and runs the sweep. -/
def getSyntaxRanges (text : Text) (tr : TsSyntaxTracker) : Option (List SyntaxRange) :=
  let wsL := sortRanges tr.whitespaceSyntaxRanges
  let tsL := sortRanges tr.tsSyntaxRanges
  syntaxRangesAux text.length (syntaxRangesFuel text.length wsL tsL) 0 wsL tsL

/-- Whether offset `p` lies inside the half-open range `r`. -/
def inSyntaxRange (p : Nat) (r : SyntaxRange) : Bool :=
  decide (r.start ≤ p ∧ p < r.end_)

/-- How many times offset `p` is covered by the emitted ranges `l`
(counted with multiplicity) plus the recorded whitespace gaps `wall`
(counted as a set: one region of skipped whitespace). -/
def coverageCount (l wall : List SyntaxRange) (p : Nat) : Nat :=
  l.countP (inSyntaxRange p) + (if wall.any (inSyntaxRange p) then 1 else 0)

/-- The first significant offset of a declaration, as
`skipWhitespaceThenMarkRangeAsTS` computes it. -/
def declRealStart (text : Text) (d : Nat × Nat) : Nat :=
  (commentScan text d.1 d.2 true).1


/-! ## The augmented token scanner (`scan`) and `skipTrivia` -/

set_option maxHeartbeats 1600000 in
/-- The token kinds (`SyntaxKind`) producible by the modelled fragment of
`scan()`.  Each keyword `SyntaxKind` is represented as `keyword` applied
to the keyword's text (the map `textToKeywordObj` is injective, so this
is a faithful rendering of the keyword kinds). -/
inductive Token where
  | unknown
  | endOfFile
  | nonTextFileMarker
  | identifier
  | keyword (kw : List Nat)
  | exclamation
  | exclamationEquals
  | exclamationEqualsEquals
  | percent
  | percentEquals
  | ampersand
  | ampersandAmpersand
  | ampersandAmpersandEquals
  | ampersandEquals
  | openParen
  | closeParen
  | asterisk
  | asteriskEquals
  | asteriskAsterisk
  | asteriskAsteriskEquals
  | plus
  | plusPlus
  | plusEquals
  | comma
  | minus
  | minusMinus
  | minusEquals
  | dot
  | dotDotDot
  | slash
  | slashEquals
  | colon
  | semicolon
  | lessThan
  | lessThanLessThan
  | lessThanLessThanEquals
  | lessThanEquals
  | equals
  | equalsEquals
  | equalsEqualsEquals
  | equalsGreaterThan
  | greaterThan
  | question
  | questionDot
  | questionQuestion
  | questionQuestionEquals
  | openBracket
  | closeBracket
  | caret
  | caretEquals
  | openBrace
  | closeBrace
  | bar
  | barBar
  | barBarEquals
  | barEquals
  | tilde
  | atSign
  deriving Repr

/-- An injective code of a token kind, used to give `Token` a decidable
equality whose implementation is linear rather than a quadratic case
split. -/
def Token.code : Token → Nat × List Nat
  | .unknown => (0, [])
  | .endOfFile => (1, [])
  | .nonTextFileMarker => (2, [])
  | .identifier => (3, [])
  | .keyword kw => (4, kw)
  | .exclamation => (5, [])
  | .exclamationEquals => (6, [])
  | .exclamationEqualsEquals => (7, [])
  | .percent => (8, [])
  | .percentEquals => (9, [])
  | .ampersand => (10, [])
  | .ampersandAmpersand => (11, [])
  | .ampersandAmpersandEquals => (12, [])
  | .ampersandEquals => (13, [])
  | .openParen => (14, [])
  | .closeParen => (15, [])
  | .asterisk => (16, [])
  | .asteriskEquals => (17, [])
  | .asteriskAsterisk => (18, [])
  | .asteriskAsteriskEquals => (19, [])
  | .plus => (20, [])
  | .plusPlus => (21, [])
  | .plusEquals => (22, [])
  | .comma => (23, [])
  | .minus => (24, [])
  | .minusMinus => (25, [])
  | .minusEquals => (26, [])
  | .dot => (27, [])
  | .dotDotDot => (28, [])
  | .slash => (29, [])
  | .slashEquals => (30, [])
  | .colon => (31, [])
  | .semicolon => (32, [])
  | .lessThan => (33, [])
  | .lessThanLessThan => (34, [])
  | .lessThanLessThanEquals => (35, [])
  | .lessThanEquals => (36, [])
  | .equals => (37, [])
  | .equalsEquals => (38, [])
  | .equalsEqualsEquals => (39, [])
  | .equalsGreaterThan => (40, [])
  | .greaterThan => (41, [])
  | .question => (42, [])
  | .questionDot => (43, [])
  | .questionQuestion => (44, [])
  | .questionQuestionEquals => (45, [])
  | .openBracket => (46, [])
  | .closeBracket => (47, [])
  | .caret => (48, [])
  | .caretEquals => (49, [])
  | .openBrace => (50, [])
  | .closeBrace => (51, [])
  | .bar => (52, [])
  | .barBar => (53, [])
  | .barBarEquals => (54, [])
  | .barEquals => (55, [])
  | .tilde => (56, [])
  | .atSign => (57, [])

/-- Decoding of `Token.code`. -/
def Token.ofCode (c : Nat × List Nat) : Token :=
  if c.1 = 0 then .unknown
  else if c.1 = 1 then .endOfFile
  else if c.1 = 2 then .nonTextFileMarker
  else if c.1 = 3 then .identifier
  else if c.1 = 4 then .keyword c.2
  else if c.1 = 5 then .exclamation
  else if c.1 = 6 then .exclamationEquals
  else if c.1 = 7 then .exclamationEqualsEquals
  else if c.1 = 8 then .percent
  else if c.1 = 9 then .percentEquals
  else if c.1 = 10 then .ampersand
  else if c.1 = 11 then .ampersandAmpersand
  else if c.1 = 12 then .ampersandAmpersandEquals
  else if c.1 = 13 then .ampersandEquals
  else if c.1 = 14 then .openParen
  else if c.1 = 15 then .closeParen
  else if c.1 = 16 then .asterisk
  else if c.1 = 17 then .asteriskEquals
  else if c.1 = 18 then .asteriskAsterisk
  else if c.1 = 19 then .asteriskAsteriskEquals
  else if c.1 = 20 then .plus
  else if c.1 = 21 then .plusPlus
  else if c.1 = 22 then .plusEquals
  else if c.1 = 23 then .comma
  else if c.1 = 24 then .minus
  else if c.1 = 25 then .minusMinus
  else if c.1 = 26 then .minusEquals
  else if c.1 = 27 then .dot
  else if c.1 = 28 then .dotDotDot
  else if c.1 = 29 then .slash
  else if c.1 = 30 then .slashEquals
  else if c.1 = 31 then .colon
  else if c.1 = 32 then .semicolon
  else if c.1 = 33 then .lessThan
  else if c.1 = 34 then .lessThanLessThan
  else if c.1 = 35 then .lessThanLessThanEquals
  else if c.1 = 36 then .lessThanEquals
  else if c.1 = 37 then .equals
  else if c.1 = 38 then .equalsEquals
  else if c.1 = 39 then .equalsEqualsEquals
  else if c.1 = 40 then .equalsGreaterThan
  else if c.1 = 41 then .greaterThan
  else if c.1 = 42 then .question
  else if c.1 = 43 then .questionDot
  else if c.1 = 44 then .questionQuestion
  else if c.1 = 45 then .questionQuestionEquals
  else if c.1 = 46 then .openBracket
  else if c.1 = 47 then .closeBracket
  else if c.1 = 48 then .caret
  else if c.1 = 49 then .caretEquals
  else if c.1 = 50 then .openBrace
  else if c.1 = 51 then .closeBrace
  else if c.1 = 52 then .bar
  else if c.1 = 53 then .barBar
  else if c.1 = 54 then .barBarEquals
  else if c.1 = 55 then .barEquals
  else if c.1 = 56 then .tilde
  else if c.1 = 57 then .atSign
  else .unknown

instance : DecidableEq Token := fun a b =>
  if h : a.code = b.code then
    isTrue (by
      have ha : Token.ofCode a.code = a := by cases a <;> rfl
      have hb : Token.ofCode b.code = b := by cases b <;> rfl
      rw [← ha, ← hb, h])
  else isFalse (fun hab => h (by rw [hab]))

/-- The names of `textToKeywordObj` from `scanner.ts` (values are the
corresponding keyword `SyntaxKind`s, rendered as `Token.keyword name`). -/
def keywordNames : List (List Nat) := [
  strCodes "abstract", strCodes "accessor", strCodes "any",
  strCodes "as", strCodes "asserts", strCodes "assert",
  strCodes "bigint", strCodes "boolean", strCodes "break",
  strCodes "case", strCodes "catch", strCodes "class",
  strCodes "continue", strCodes "const", strCodes "constructor",
  strCodes "debugger", strCodes "declare", strCodes "default",
  strCodes "delete", strCodes "do", strCodes "else",
  strCodes "enum", strCodes "export", strCodes "extends",
  strCodes "false", strCodes "finally", strCodes "for",
  strCodes "from", strCodes "function", strCodes "get",
  strCodes "if", strCodes "implements", strCodes "import",
  strCodes "in", strCodes "infer", strCodes "instanceof",
  strCodes "interface", strCodes "intrinsic", strCodes "is",
  strCodes "keyof", strCodes "let", strCodes "module",
  strCodes "namespace", strCodes "never", strCodes "new",
  strCodes "null", strCodes "number", strCodes "object",
  strCodes "package", strCodes "private", strCodes "protected",
  strCodes "public", strCodes "override", strCodes "out",
  strCodes "readonly", strCodes "require", strCodes "global",
  strCodes "return", strCodes "satisfies", strCodes "set",
  strCodes "static", strCodes "string", strCodes "super",
  strCodes "switch", strCodes "symbol", strCodes "this",
  strCodes "throw", strCodes "true", strCodes "try",
  strCodes "type", strCodes "typeof", strCodes "undefined",
  strCodes "unique", strCodes "unknown", strCodes "using",
  strCodes "var", strCodes "void", strCodes "while",
  strCodes "with", strCodes "yield", strCodes "async",
  strCodes "await", strCodes "of"
]

/-- `isDigit` on an optional code unit (`isDigit(NaN)` is false). -/
def isDigitOpt (ch : Option Nat) : Bool :=
  match ch with
  | some c => CharacterCodes._0 ≤ c ∧ c ≤ CharacterCodes._9
  | none => false

/-- The ASCII arm of `isIdentifierStart` (the unicode arm, for code
points above `maxAsciiCharacter`, needs the unicode identifier tables and
is outside the modelled fragment; its callers below return `none`
instead of consulting it). -/
def identStart (c : Nat) : Bool :=
  (CharacterCodes.A ≤ c ∧ c ≤ CharacterCodes.Z) ∨
  (CharacterCodes.a ≤ c ∧ c ≤ CharacterCodes.z) ∨
  c = CharacterCodes.dollar ∨ c = CharacterCodes.underscore

/-- The ASCII arm of `isIdentifierPart` (Standard variant: no JSX `-`/`:`
identifier parts). -/
def identPart (c : Nat) : Bool :=
  identStart c ∨ (CharacterCodes._0 ≤ c ∧ c ≤ CharacterCodes._9)

/-- `isConflictMarkerTrivia(text, pos)` (`mergeConflictMarkerLength` is
7, the length of a marker such as seven `<`). -/
def isConflictMarkerTrivia (text : Text) (pos : Nat) : Bool :=
  if pos = 0 ∨ isLineBreak (charCodeAt text (pos - 1)) then
    let ch := charCodeAt text pos
    if pos + 7 < text.length then
      ((List.range 7).all (fun i => charCodeAt text (pos + i) = ch)) ∧
      (ch = some CharacterCodes.equals ∨
        charCodeAt text (pos + 7) = some CharacterCodes.space)
    else false
  else false

/-- The `<`/`>` loop of `scanConflictMarkerTrivia`: consume to the end of
the line.  Called with fuel `text.length - pos`. -/
def conflictMarkerLineScan (text : Text) : Nat → Nat → Nat
  | 0, pos => pos
  | fuel + 1, pos =>
    if pos < text.length ∧ ¬ isLineBreak (charCodeAt text pos) then
      conflictMarkerLineScan text fuel (pos + 1)
    else pos

/-- The `|`/`=` loop of `scanConflictMarkerTrivia`: consume up to the
start of the next `=======` or `>>>>>>>` marker. -/
def conflictMarkerEqScan (text : Text) (ch : Option Nat) : Nat → Nat → Nat
  | 0, pos => pos
  | fuel + 1, pos =>
    if pos < text.length then
      let cur := charCodeAt text pos
      if (cur = some CharacterCodes.equals ∨ cur = some CharacterCodes.greaterThan) ∧
          cur ≠ ch ∧ isConflictMarkerTrivia text pos then pos
      else conflictMarkerEqScan text ch fuel (pos + 1)
    else pos

/-- `scanConflictMarkerTrivia(text, pos)` (the `error` callback only
reports a diagnostic). -/
def scanConflictMarkerTrivia (text : Text) (pos : Nat) : Nat :=
  let ch := charCodeAt text pos
  if ch = some CharacterCodes.lessThan ∨ ch = some CharacterCodes.greaterThan then
    conflictMarkerLineScan text (text.length - pos) pos
  else
    conflictMarkerEqScan text ch (text.length - pos) pos

/-- The closing loop of a block comment in `scan`/`skipTrivia`
(`while (pos < end) { asterisk-slash → pos += 2, break; pos++ }`; the
line-break bookkeeping inside the `scan` version only sets token flags).
Called with fuel `end_ - pos`. -/
def blockCloseScan (text : Text) (end_ : Nat) : Nat → Nat → Nat
  | 0, pos => pos
  | fuel + 1, pos =>
    if pos < end_ then
      if charCodeAt text pos = some CharacterCodes.asterisk ∧
          charCodeAt text (pos + 1) = some CharacterCodes.slash then pos + 2
      else blockCloseScan text end_ fuel (pos + 1)
    else pos

/-- The loop of `scanIdentifier` after the start character: advance while
`isIdentifierPart`.  Returns the stop offset; `none` when a code point
above `maxAsciiCharacter` or a backslash escape would require the
unicode tables / `scanIdentifierParts` (outside the modelled fragment).
Called with fuel `end_ - pos + 1`. -/
def identScan (text : Text) (end_ : Nat) : Nat → Nat → Option Nat
  | 0, _ => none
  | fuel + 1, pos =>
    if pos < end_ then
      match codePointAt text pos with
      | some c =>
        if c > CharacterCodes.maxAsciiCharacter then none
        else if identPart c then identScan text end_ fuel (pos + 1)
        else if c = CharacterCodes.backslash then none
        else some pos
      | none => some pos
    else some pos

/-- `text.substring(a, b)`. -/
def tokenText (text : Text) (a b : Nat) : List Nat :=
  (text.drop a).take (b - a)

/-- `getIdentifierToken()`: keywords are 2–12 characters long, start with
a lowercase letter, and are found in `textToKeyword`. -/
def getIdentifierToken (value : List Nat) : Token :=
  if 2 ≤ value.length ∧ value.length ≤ 12 then
    match value with
    | c :: _ =>
      if CharacterCodes.a ≤ c ∧ c ≤ CharacterCodes.z then
        if value ∈ keywordNames then Token.keyword value else Token.identifier
      else Token.identifier
    | [] => Token.identifier
  else Token.identifier

/-- One call of the augmented `scan()`, with the scanner configuration
the claims are about fixed: `skipTrivia = true`, `languageVariant =
Standard` (no JSX), `inJSDocType = 0` (no `asteriskSeen` handling),
`shouldSkipNonBeginningHash` irrelevant, and `end = end_`.  Returns
`some (tokenStart, newPos, token)` for the next token; `none` when the
scan enters a part of the scanner outside the modelled fragment (string,
template and numeric literals, unicode/escape identifiers, private
identifiers) or runs out of fuel.  Diagnostics, comment directives and
token flags (including `enteringTSComment`, which is set at a marker
opener and cleared again at a directly scanned `*/`) do not influence
which tokens are produced and are not tracked. -/
def scanAux (text : Text) (end_ : Nat) : Nat → Nat → Option (Nat × Nat × Token)
  | 0, _ => none
  | fuel + 1, pos =>
    if pos ≥ end_ then some (pos, pos, Token.endOfFile)
    else
      let cp := codePointAt text pos
      if pos = 0 ∧ (text.take 256).contains 0xFFFD then
        some (pos, end_, Token.nonTextFileMarker)
      else if pos = 0 ∧ cp = some CharacterCodes.hash ∧ isShebangTrivia text then
        scanAux text end_ fuel (scanShebangTrivia text)
      else if cp = some CharacterCodes.lineFeed ∨
          cp = some CharacterCodes.carriageReturn then
        scanAux text end_ fuel (pos + 1)
      else if (match cp with
          | some c => commentScanWhitespaceCase c
          | none => false) then
        scanAux text end_ fuel (pos + 1)
      else if cp = some CharacterCodes.exclamation then
        if charCodeAt text (pos + 1) = some CharacterCodes.equals then
          if charCodeAt text (pos + 2) = some CharacterCodes.equals then
            some (pos, pos + 3, Token.exclamationEqualsEquals)
          else some (pos, pos + 2, Token.exclamationEquals)
        else some (pos, pos + 1, Token.exclamation)
      else if cp = some CharacterCodes.doubleQuote ∨
          cp = some CharacterCodes.singleQuote ∨
          cp = some CharacterCodes.backtick then
        none
      else if cp = some CharacterCodes.percent then
        if charCodeAt text (pos + 1) = some CharacterCodes.equals then
          some (pos, pos + 2, Token.percentEquals)
        else some (pos, pos + 1, Token.percent)
      else if cp = some CharacterCodes.ampersand then
        if charCodeAt text (pos + 1) = some CharacterCodes.ampersand then
          if charCodeAt text (pos + 2) = some CharacterCodes.equals then
            some (pos, pos + 3, Token.ampersandAmpersandEquals)
          else some (pos, pos + 2, Token.ampersandAmpersand)
        else if charCodeAt text (pos + 1) = some CharacterCodes.equals then
          some (pos, pos + 2, Token.ampersandEquals)
        else some (pos, pos + 1, Token.ampersand)
      else if cp = some CharacterCodes.openParen then
        some (pos, pos + 1, Token.openParen)
      else if cp = some CharacterCodes.closeParen then
        some (pos, pos + 1, Token.closeParen)
      else if cp = some CharacterCodes.asterisk then
        if charCodeAt text (pos + 1) = some CharacterCodes.slash then
          scanAux text end_ fuel (pos + 2)
        else if charCodeAt text (pos + 1) = some CharacterCodes.equals then
          some (pos, pos + 2, Token.asteriskEquals)
        else if charCodeAt text (pos + 1) = some CharacterCodes.asterisk then
          if charCodeAt text (pos + 2) = some CharacterCodes.equals then
            some (pos, pos + 3, Token.asteriskAsteriskEquals)
          else some (pos, pos + 2, Token.asteriskAsterisk)
        else some (pos, pos + 1, Token.asterisk)
      else if cp = some CharacterCodes.plus then
        if charCodeAt text (pos + 1) = some CharacterCodes.plus then
          some (pos, pos + 2, Token.plusPlus)
        else if charCodeAt text (pos + 1) = some CharacterCodes.equals then
          some (pos, pos + 2, Token.plusEquals)
        else some (pos, pos + 1, Token.plus)
      else if cp = some CharacterCodes.comma then
        some (pos, pos + 1, Token.comma)
      else if cp = some CharacterCodes.minus then
        if charCodeAt text (pos + 1) = some CharacterCodes.minus then
          some (pos, pos + 2, Token.minusMinus)
        else if charCodeAt text (pos + 1) = some CharacterCodes.equals then
          some (pos, pos + 2, Token.minusEquals)
        else some (pos, pos + 1, Token.minus)
      else if cp = some CharacterCodes.dot then
        if isDigitOpt (charCodeAt text (pos + 1)) then none
        else if charCodeAt text (pos + 1) = some CharacterCodes.dot ∧
            charCodeAt text (pos + 2) = some CharacterCodes.dot then
          some (pos, pos + 3, Token.dotDotDot)
        else some (pos, pos + 1, Token.dot)
      else if cp = some CharacterCodes.slash then
        if charCodeAt text (pos + 1) = some CharacterCodes.slash then
          scanAux text end_ fuel
            (lineCommentScan text end_ (end_ - (pos + 2)) (pos + 2))
        else if charCodeAt text (pos + 1) = some CharacterCodes.asterisk then
          let colonRes := tsColonScan text end_ (end_ - (pos + 2)) (pos + 2)
          if colonRes.2 then
            if colonCountAt text colonRes.1 = 1 then
              scanAux text end_ fuel colonRes.1
            else if colonCountAt text colonRes.1 = 2 then
              scanAux text end_ fuel (colonRes.1 + 2)
            else
              scanAux text end_ fuel
                (blockCloseScan text end_ (end_ - (colonRes.1 + 3)) (colonRes.1 + 3))
          else
            scanAux text end_ fuel
              (blockCloseScan text end_ (end_ - colonRes.1) colonRes.1)
        else if charCodeAt text (pos + 1) = some CharacterCodes.equals then
          some (pos, pos + 2, Token.slashEquals)
        else some (pos, pos + 1, Token.slash)
      else if isDigitOpt cp then
        none
      else if cp = some CharacterCodes.colon then
        some (pos, pos + 1, Token.colon)
      else if cp = some CharacterCodes.semicolon then
        some (pos, pos + 1, Token.semicolon)
      else if cp = some CharacterCodes.lessThan then
        if isConflictMarkerTrivia text pos then
          scanAux text end_ fuel (scanConflictMarkerTrivia text pos)
        else if charCodeAt text (pos + 1) = some CharacterCodes.lessThan then
          if charCodeAt text (pos + 2) = some CharacterCodes.equals then
            some (pos, pos + 3, Token.lessThanLessThanEquals)
          else some (pos, pos + 2, Token.lessThanLessThan)
        else if charCodeAt text (pos + 1) = some CharacterCodes.equals then
          some (pos, pos + 2, Token.lessThanEquals)
        else some (pos, pos + 1, Token.lessThan)
      else if cp = some CharacterCodes.equals then
        if isConflictMarkerTrivia text pos then
          scanAux text end_ fuel (scanConflictMarkerTrivia text pos)
        else if charCodeAt text (pos + 1) = some CharacterCodes.equals then
          if charCodeAt text (pos + 2) = some CharacterCodes.equals then
            some (pos, pos + 3, Token.equalsEqualsEquals)
          else some (pos, pos + 2, Token.equalsEquals)
        else if charCodeAt text (pos + 1) = some CharacterCodes.greaterThan then
          some (pos, pos + 2, Token.equalsGreaterThan)
        else some (pos, pos + 1, Token.equals)
      else if cp = some CharacterCodes.greaterThan then
        if isConflictMarkerTrivia text pos then
          scanAux text end_ fuel (scanConflictMarkerTrivia text pos)
        else some (pos, pos + 1, Token.greaterThan)
      else if cp = some CharacterCodes.question then
        if charCodeAt text (pos + 1) = some CharacterCodes.dot ∧
            ¬ isDigitOpt (charCodeAt text (pos + 2)) then
          some (pos, pos + 2, Token.questionDot)
        else if charCodeAt text (pos + 1) = some CharacterCodes.question then
          if charCodeAt text (pos + 2) = some CharacterCodes.equals then
            some (pos, pos + 3, Token.questionQuestionEquals)
          else some (pos, pos + 2, Token.questionQuestion)
        else some (pos, pos + 1, Token.question)
      else if cp = some CharacterCodes.openBracket then
        some (pos, pos + 1, Token.openBracket)
      else if cp = some CharacterCodes.closeBracket then
        some (pos, pos + 1, Token.closeBracket)
      else if cp = some CharacterCodes.caret then
        if charCodeAt text (pos + 1) = some CharacterCodes.equals then
          some (pos, pos + 2, Token.caretEquals)
        else some (pos, pos + 1, Token.caret)
      else if cp = some CharacterCodes.openBrace then
        some (pos, pos + 1, Token.openBrace)
      else if cp = some CharacterCodes.bar then
        if isConflictMarkerTrivia text pos then
          scanAux text end_ fuel (scanConflictMarkerTrivia text pos)
        else if charCodeAt text (pos + 1) = some CharacterCodes.bar then
          if charCodeAt text (pos + 2) = some CharacterCodes.equals then
            some (pos, pos + 3, Token.barBarEquals)
          else some (pos, pos + 2, Token.barBar)
        else if charCodeAt text (pos + 1) = some CharacterCodes.equals then
          some (pos, pos + 2, Token.barEquals)
        else some (pos, pos + 1, Token.bar)
      else if cp = some CharacterCodes.closeBrace then
        some (pos, pos + 1, Token.closeBrace)
      else if cp = some CharacterCodes.tilde then
        some (pos, pos + 1, Token.tilde)
      else if cp = some CharacterCodes.at_ then
        some (pos, pos + 1, Token.atSign)
      else if cp = some CharacterCodes.backslash ∨ cp = some CharacterCodes.hash then
        none
      else
        match cp with
        | some c =>
          if c > CharacterCodes.maxAsciiCharacter then none
          else if identStart c then
            match identScan text end_ (end_ - pos) (pos + 1) with
            | none => none
            | some stop =>
              some (pos, stop, getIdentifierToken (tokenText text pos stop))
          else if isWhiteSpaceSingleLine (some c) then
            scanAux text end_ fuel (pos + 1)
          else if isLineBreak (some c) then
            scanAux text end_ fuel (pos + 1)
          else some (pos, pos + 1, Token.unknown)
        | none => some (pos, pos + 1, Token.unknown)

/-- `scan()` on the whole text (`end = text.length`); the fuel
`text.length + 2` exceeds the number of loop iterations (every `continue`
advances `pos`, and a `continue` only happens while `pos < end`). -/
def scan (text : Text) (pos : Nat) : Option (Nat × Nat × Token) :=
  scanAux text text.length (text.length + 2) pos

/-- `skipTrivia(text, pos)` with the default optional arguments
(`stopAfterLineBreak`, `stopAtComments` and `inJSDoc` all falsy, so
`canConsumeStar` stays false throughout), for a natural-number `pos`
(`positionIsSynthesized` is false).  Fuel-indexed loop; `none` = out of
fuel. -/
def skipTriviaAux (text : Text) : Nat → Nat → Option Nat
  | 0, _ => none
  | fuel + 1, pos =>
    match charCodeAt text pos with
    | none => some pos
    | some c =>
      if c = CharacterCodes.carriageReturn then
        if charCodeAt text (pos + 1) = some CharacterCodes.lineFeed then
          skipTriviaAux text fuel (pos + 2)
        else skipTriviaAux text fuel (pos + 1)
      else if c = CharacterCodes.lineFeed then
        skipTriviaAux text fuel (pos + 1)
      else if c = CharacterCodes.tab ∨ c = CharacterCodes.verticalTab ∨
          c = CharacterCodes.formFeed ∨ c = CharacterCodes.space then
        skipTriviaAux text fuel (pos + 1)
      else if c = CharacterCodes.slash then
        if charCodeAt text (pos + 1) = some CharacterCodes.slash then
          skipTriviaAux text fuel
            (lineCommentScan text text.length (text.length - (pos + 2)) (pos + 2))
        else if charCodeAt text (pos + 1) = some CharacterCodes.asterisk then
          let colonRes := tsColonScan text text.length
            (text.length - (pos + 2)) (pos + 2)
          if colonRes.2 then
            if colonCountAt text colonRes.1 = 1 then
              some colonRes.1
            else if colonCountAt text colonRes.1 = 2 then
              skipTriviaAux text fuel (colonRes.1 + 2)
            else
              skipTriviaAux text fuel
                (blockCloseScan text text.length
                  (text.length - (colonRes.1 + 3)) (colonRes.1 + 3))
          else
            skipTriviaAux text fuel
              (blockCloseScan text text.length
                (text.length - colonRes.1) colonRes.1)
        else some pos
      else if c = CharacterCodes.lessThan ∨ c = CharacterCodes.bar ∨
          c = CharacterCodes.equals ∨ c = CharacterCodes.greaterThan then
        if isConflictMarkerTrivia text pos then
          skipTriviaAux text fuel (scanConflictMarkerTrivia text pos)
        else some pos
      else if c = CharacterCodes.hash then
        if pos = 0 ∧ isShebangTrivia text then
          skipTriviaAux text fuel (scanShebangTrivia text)
        else some pos
      else if c = CharacterCodes.asterisk then
        if charCodeAt text (pos + 1) = some CharacterCodes.slash then
          skipTriviaAux text fuel (pos + 2)
        else some pos
      else
        if c > CharacterCodes.maxAsciiCharacter ∧ isWhiteSpaceLike (some c) then
          skipTriviaAux text fuel (pos + 1)
        else some pos

/-- `skipTrivia(text, pos)`; the fuel `text.length + 1` exceeds the
number of loop iterations. -/
def skipTriviaF (text : Text) (pos : Nat) : Option Nat :=
  skipTriviaAux text (text.length + 1) pos

/-- Repeated `scan()` calls from an offset: the next `n` tokens (each as
`(tokenStart, endPos, token)`), stopping after an `endOfFile` token. -/
def scanSeq (text : Text) : Nat → Nat → Option (List (Nat × Nat × Token))
  | 0, _ => none
  | n + 1, pos =>
    match scan text pos with
    | none => none
    | some (ts, p2, tok) =>
      if tok = Token.endOfFile then some [(ts, p2, tok)]
      else (scanSeq text n p2).map (fun l => (ts, p2, tok) :: l)

/-! ## Delimiter maps reachable from a session of scans -/

/-- The delimiter map produced by an arbitrary sequence of `commentScan`
calls (each entry is `(start, end, stopOnSignificantText)`) committing
their events in order into one map — every public cursor operation
commits the events of one or two such calls into the cursor's local map
(which starts out empty, whether freshly allocated or explicitly
supplied at creation), so any reachable delimiter map is `buildMap` of
some call list. -/
def buildMap (text : Text) (calls : List (Nat × Nat × Bool)) : DelimMap :=
  calls.foldl (fun m c => commitEvents m (commentScan text c.1 c.2.1 c.2.2).2) []

/-- What the text must look like at the offset of each delimiter event kind
(`commentScan` only ever emits an event when it has just read these
characters). -/
def EventOk (text : Text) (e : DelimEvent) : Prop :=
  match e.2 with
  | BlockCommentDelimiterType.close =>
      charCodeAt text e.1 = some CharacterCodes.asterisk ∧
      charCodeAt text (e.1 + 1) = some CharacterCodes.slash
  | BlockCommentDelimiterType.openNonTsComment =>
      charCodeAt text e.1 = some CharacterCodes.slash ∧
      charCodeAt text (e.1 + 1) = some CharacterCodes.asterisk
  | BlockCommentDelimiterType.openTsCommentWithoutColons =>
      charCodeAt text e.1 = some CharacterCodes.slash ∧
      charCodeAt text (e.1 + 1) = some CharacterCodes.asterisk
  | BlockCommentDelimiterType.singleColonForOpenTsComment =>
      charCodeAt text e.1 = some CharacterCodes.colon ∧
      charCodeAt text (e.1 + 1) ≠ some CharacterCodes.colon
  | BlockCommentDelimiterType.doubleColonForOpenTsComment =>
      charCodeAt text e.1 = some CharacterCodes.colon ∧
      charCodeAt text (e.1 + 1) = some CharacterCodes.colon ∧
      charCodeAt text (e.1 + 2) ≠ some CharacterCodes.colon

/-- The text window between a marker opener `/*` at `a` and its colon at
`c`: the opener characters, then spaces only, then the colon. -/
def OpenTsWindow (text : Text) (a c : Nat) : Prop :=
  charCodeAt text a = some CharacterCodes.slash ∧
  charCodeAt text (a + 1) = some CharacterCodes.asterisk ∧
  a + 2 ≤ c ∧
  (∀ j, a + 2 ≤ j → j < c → charCodeAt text j = some CharacterCodes.space) ∧
  charCodeAt text c = some CharacterCodes.colon

/-- The invariant of every reachable delimiter map: all entries are
text-consistent, and every marker-opener entry has a colon entry in the
same map at the other end of its window. -/
def MapOk (text : Text) (m : DelimMap) : Prop :=
  (∀ k v, mapLookup m k = some v → EventOk text (k, v)) ∧
  (∀ a, mapLookup m a = some BlockCommentDelimiterType.openTsCommentWithoutColons →
    ∃ c, OpenTsWindow text a c ∧
      (mapLookup m c = some BlockCommentDelimiterType.singleColonForOpenTsComment ∨
       mapLookup m c = some BlockCommentDelimiterType.doubleColonForOpenTsComment))

/-- All four incremental fields of an emitted span are populated. -/
def SpanPopulated (s : TsCommentPosition) : Prop :=
  s.openPos.isSome ∧ s.colonPos.isSome ∧ s.colonCount.isSome ∧ s.closePos.isSome

/-! ## Concrete example inputs -/

/-- The scenario input `/*: number */`. -/
def exMarker1 : Text := strCodes "/*: number */"

/-- The scenario input `/** @x *//*:: y */`. -/
def exJsdocMarker : Text := strCodes "/** @x *//*:: y */"

/-- A text whose offsets 5–7 are spaces, all other offsets significant. -/
def exTrackerText : Text := strCodes "abcde   xyzabcdefgh"

/-- A shebang text: the shebang scan from offset 0 runs to the line break
at offset 4 regardless of any smaller declared range end. -/
def exShebang : Text := strCodes "#!ab\nY"

/-- A double-marker comment whose content ends in `*`: `/*::a **/`. -/
def exDoubleStar : Text := strCodes "/*::a **/"

/-- The same text with the marker wrapper replaced by spaces, keeping all
offsets: `    a *  `. -/
def exDoubleStarUnwrapped : Text := strCodes "    a *  "

/-- A single-marker comment whose content ends in `*`: `/*: a**/`. -/
def exSingleStar : Text := strCodes "/*: a**/"

/-- A double-marker comment `/*:: x*/`. -/
def exDoubleX : Text := strCodes "/*:: x*/"

/-- The body `a*` of the single-marker comment in `exSingleStar`, as a
text of its own. -/
def exSingleStarBody : Text := strCodes "a*"

/-! # Theorems -/

/-! ## Progress and termination of `commentScan` (C9 backbone) -/

/-- The line-comment loop never moves backwards. -/
theorem lineCommentScan_ge (text : Text) (end_ : Nat) :
    ∀ fuel pos, pos ≤ lineCommentScan text end_ fuel pos := by
  intro fuel
  induction fuel with
  | zero => intro pos; simp [lineCommentScan]
  | succ n ih =>
    intro pos
    simp only [lineCommentScan]
    split
    · split
      · exact le_refl _
      · exact le_trans (Nat.le_succ pos) (ih (pos + 1))
    · exact le_refl _

/-- The colon-detection loop never moves backwards. -/
theorem tsColonScan_ge (text : Text) (end_ : Nat) :
    ∀ fuel pos, pos ≤ (tsColonScan text end_ fuel pos).1 := by
  intro fuel
  induction fuel with
  | zero => intro pos; simp [tsColonScan]
  | succ n ih =>
    intro pos
    simp only [tsColonScan]
    split
    · split
      · exact le_trans (Nat.le_succ pos) (ih (pos + 1))
      · split
        · exact le_refl _
        · exact le_refl _
    · exact le_refl _

/-- The opaque block-comment body loop never moves backwards. -/
theorem blockBodyScan_ge (text : Text) (end_ : Nat) :
    ∀ fuel pos, pos ≤ (blockBodyScan text end_ fuel pos).1 := by
  intro fuel
  induction fuel with
  | zero => intro pos; simp [blockBodyScan]
  | succ n ih =>
    intro pos
    simp only [blockBodyScan]
    split
    · split
      · exact Nat.le_add_right pos 2
      · exact le_trans (Nat.le_succ pos) (ih (pos + 1))
    · exact le_refl _

/-- The shebang always has length at least 2. -/
theorem scanShebangTrivia_ge_two (text : Text) : 2 ≤ scanShebangTrivia text := by
  simp [scanShebangTrivia]

/-- Fuel sufficiency and progress for the `commentScan` loop: with fuel at
least `end + 1 - pos` the loop completes (each iteration either returns or
strictly advances the position), the stop offset is at least the start
offset, and with `stopOnSignificantText = false` the whole range up to
`end` is consumed. -/
theorem commentScanAux_some (text : Text) (end_ : Nat) (stop : Bool) :
    ∀ fuel pos, end_ - pos + 1 ≤ fuel →
      ∃ stopPos evs,
        commentScanAux text end_ stop fuel pos = some (stopPos, evs) ∧
        pos ≤ stopPos ∧ (stop = false → end_ ≤ stopPos) := by
  intro fuel
  induction fuel with
  | zero =>
    intro pos h
    exact absurd h (by omega)
  | succ n ih =>
    intro pos hfuel
    by_cases hend : pos ≥ end_
    · refine ⟨pos, [], ?_, le_refl _, fun _ => hend⟩
      simp only [commentScanAux]
      rw [if_pos hend]
    · push_neg at hend
      have step : ∀ pos', pos < pos' →
          ∃ stopPos evs,
            commentScanAux text end_ stop n pos' = some (stopPos, evs) ∧
            pos' ≤ stopPos ∧ (stop = false → end_ ≤ stopPos) := by
        intro pos' hlt
        exact ih pos' (by omega)
      simp only [commentScanAux]
      rw [if_neg (by omega)]
      by_cases hsheb : pos = 0 ∧ codePointAt text pos = some CharacterCodes.hash ∧
          isShebangTrivia text
      · rw [if_pos hsheb]
        have h2 := scanShebangTrivia_ge_two text
        obtain ⟨sp, evs, heq, hge, hstop⟩ := step (scanShebangTrivia text) (by omega)
        exact ⟨sp, evs, heq, by omega, hstop⟩
      · rw [if_neg hsheb]
        match hch : codePointAt text pos with
        | none =>
          cases stop with
          | false =>
            obtain ⟨sp, evs, heq, hge, hstop⟩ := step (pos + 1) (by omega)
            exact ⟨sp, evs, by simpa using heq, by omega, hstop⟩
          | true => exact ⟨pos, [], by simp, le_refl _, by simp⟩
        | some c =>
          simp only
          by_cases h1 : c = CharacterCodes.lineFeed ∨ c = CharacterCodes.carriageReturn
          · rw [if_pos h1]
            obtain ⟨sp, evs, heq, hge, hstop⟩ := step (pos + 1) (by omega)
            exact ⟨sp, evs, heq, by omega, hstop⟩
          · rw [if_neg h1]
            by_cases h2 : commentScanWhitespaceCase c = true
            · rw [if_pos h2]
              obtain ⟨sp, evs, heq, hge, hstop⟩ := step (pos + 1) (by omega)
              exact ⟨sp, evs, heq, by omega, hstop⟩
            · rw [if_neg h2]
              by_cases h3 : c = CharacterCodes.asterisk
              · rw [if_pos h3]
                by_cases h4 : charCodeAt text (pos + 1) = some CharacterCodes.slash
                · rw [if_pos h4]
                  obtain ⟨sp, evs, heq, hge, hstop⟩ := step (pos + 2) (by omega)
                  refine ⟨sp, (pos, BlockCommentDelimiterType.close) :: evs, ?_, by omega, hstop⟩
                  rw [heq]; rfl
                · rw [if_neg h4]
                  obtain ⟨sp, evs, heq, hge, hstop⟩ := step (pos + 1) (by omega)
                  exact ⟨sp, evs, heq, by omega, hstop⟩
              · rw [if_neg h3]
                by_cases h5 : c = CharacterCodes.slash
                · rw [if_pos h5]
                  by_cases h6 : charCodeAt text (pos + 1) = some CharacterCodes.slash
                  · rw [if_pos h6]
                    have hlc := lineCommentScan_ge text end_ (end_ - (pos + 2)) (pos + 2)
                    obtain ⟨sp, evs, heq, hge, hstop⟩ :=
                      step (lineCommentScan text end_ (end_ - (pos + 2)) (pos + 2)) (by omega)
                    exact ⟨sp, evs, heq, by omega, hstop⟩
                  · rw [if_neg h6]
                    by_cases h7 : charCodeAt text (pos + 1) = some CharacterCodes.asterisk
                    · rw [if_pos h7]
                      have hcolon := tsColonScan_ge text end_ (end_ - (pos + 2)) (pos + 2)
                      by_cases h8 : (tsColonScan text end_ (end_ - (pos + 2)) (pos + 2)).2 = true ∧
                          colonCountAt text (tsColonScan text end_ (end_ - (pos + 2)) (pos + 2)).1 ≤ 2
                      · rw [if_pos h8]
                        have hcc : 1 ≤ colonCountAt text
                            (tsColonScan text end_ (end_ - (pos + 2)) (pos + 2)).1 := by
                          unfold colonCountAt
                          split <;> [omega; (split <;> omega)]
                        obtain ⟨sp, evs, heq, hge, hstop⟩ :=
                          step ((tsColonScan text end_ (end_ - (pos + 2)) (pos + 2)).1 +
                            colonCountAt text (tsColonScan text end_ (end_ - (pos + 2)) (pos + 2)).1)
                            (by omega)
                        refine ⟨sp, (pos, BlockCommentDelimiterType.openTsCommentWithoutColons) ::
                          ((tsColonScan text end_ (end_ - (pos + 2)) (pos + 2)).1,
                            if colonCountAt text
                                (tsColonScan text end_ (end_ - (pos + 2)) (pos + 2)).1 = 1 then
                              BlockCommentDelimiterType.singleColonForOpenTsComment
                            else BlockCommentDelimiterType.doubleColonForOpenTsComment) :: evs,
                          ?_, by omega, hstop⟩
                        rw [heq]; rfl
                      · rw [if_neg h8]
                        have hbody := blockBodyScan_ge text end_
                          (end_ - (if (tsColonScan text end_ (end_ - (pos + 2)) (pos + 2)).2 then
                            (tsColonScan text end_ (end_ - (pos + 2)) (pos + 2)).1 + 3
                          else (tsColonScan text end_ (end_ - (pos + 2)) (pos + 2)).1))
                          (if (tsColonScan text end_ (end_ - (pos + 2)) (pos + 2)).2 then
                            (tsColonScan text end_ (end_ - (pos + 2)) (pos + 2)).1 + 3
                          else (tsColonScan text end_ (end_ - (pos + 2)) (pos + 2)).1)
                        have hbs : pos + 2 ≤
                            (if (tsColonScan text end_ (end_ - (pos + 2)) (pos + 2)).2 then
                              (tsColonScan text end_ (end_ - (pos + 2)) (pos + 2)).1 + 3
                            else (tsColonScan text end_ (end_ - (pos + 2)) (pos + 2)).1) := by
                          split <;> omega
                        obtain ⟨sp, evs, heq, hge, hstop⟩ :=
                          step (blockBodyScan text end_
                            (end_ - (if (tsColonScan text end_ (end_ - (pos + 2)) (pos + 2)).2 then
                              (tsColonScan text end_ (end_ - (pos + 2)) (pos + 2)).1 + 3
                            else (tsColonScan text end_ (end_ - (pos + 2)) (pos + 2)).1))
                            (if (tsColonScan text end_ (end_ - (pos + 2)) (pos + 2)).2 then
                              (tsColonScan text end_ (end_ - (pos + 2)) (pos + 2)).1 + 3
                            else (tsColonScan text end_ (end_ - (pos + 2)) (pos + 2)).1)).1
                            (by omega)
                        refine ⟨sp, (pos, BlockCommentDelimiterType.openNonTsComment) ::
                          ((blockBodyScan text end_
                            (end_ - (if (tsColonScan text end_ (end_ - (pos + 2)) (pos + 2)).2 then
                              (tsColonScan text end_ (end_ - (pos + 2)) (pos + 2)).1 + 3
                            else (tsColonScan text end_ (end_ - (pos + 2)) (pos + 2)).1))
                            (if (tsColonScan text end_ (end_ - (pos + 2)) (pos + 2)).2 then
                              (tsColonScan text end_ (end_ - (pos + 2)) (pos + 2)).1 + 3
                            else (tsColonScan text end_ (end_ - (pos + 2)) (pos + 2)).1)).2 ++ evs),
                          ?_, by omega, hstop⟩
                        rw [heq]; rfl
                    · rw [if_neg h7]
                      obtain ⟨sp, evs, heq, hge, hstop⟩ := step (pos + 1) (by omega)
                      exact ⟨sp, evs, heq, by omega, hstop⟩
                · rw [if_neg h5]
                  cases stop with
                  | false =>
                    obtain ⟨sp, evs, heq, hge, hstop⟩ := step (pos + 1) (by omega)
                    exact ⟨sp, evs, by simpa using heq, by omega, hstop⟩
                  | true => exact ⟨pos, [], by simp, le_refl _, by simp⟩

/-- C9: for every text and all bounds `start ≤ end`, `commentScan`
terminates — the fuel `end - start + 1` (one unit per loop iteration, since
each iteration either returns or strictly advances the position) always
completes with a result — it never signals an error (the model has no
error outcome other than fuel exhaustion, which this theorem excludes; the
`Debug.assertLessThan` in the shebang branch is modelled from the spec as
non-raising, see `commentScanAux`), and it returns the offset at which
scanning stopped: an offset at or past `start`, and at or past `end`
whenever `stopOnSignificantText` is false.  Malformed or unrecognized
delimiter sequences take the ordinary-text (`pos++`) paths of the loop and
are covered by the same bound. -/
theorem commentScan_terminates (text : Text) (start end_ : Nat) (stop : Bool)
    (_h : start ≤ end_) :
    ∃ stopPos evs,
      commentScanAux text end_ stop (end_ - start + 1) start = some (stopPos, evs) ∧
      commentScan text start end_ stop = (stopPos, evs) ∧
      start ≤ stopPos ∧ (stop = false → end_ ≤ stopPos) := by
  obtain ⟨sp, evs, heq, hge, hstop⟩ :=
    commentScanAux_some text end_ stop (end_ - start + 1) start (le_refl _)
  exact ⟨sp, evs, heq, by simp [commentScan, heq], hge, hstop⟩

/-- Witness for C9 at a concrete input. -/
theorem commentScan_terminates_witness :
    (0 : Nat) ≤ 13 ∧
    ∃ stopPos evs,
      commentScanAux exMarker1 13 true (13 - 0 + 1) 0 = some (stopPos, evs) ∧
      commentScan exMarker1 0 13 true = (stopPos, evs) ∧
      0 ≤ stopPos ∧ (true = false → 13 ≤ stopPos) :=
  ⟨by omega, commentScan_terminates exMarker1 0 13 true (by omega)⟩

/-! ## The single-marker scenario (C7) -/

/-- C7 counterexample: scanning the whole of `/*: number */` and replaying
the delimiter map does *not* produce a span with `colonPos = 3` and
`close = 12` — the recorded span is `{open 0, colonCount 1, colonPos 2,
close 11}` (the colon of `/*:` is at offset 2, and the `close` delimiter is
recorded at the offset of the `*` of `*/`, which is 11). -/
theorem tsCommentPositions_marker1_not_spec :
    (getTSCommentPositions (scanTo exMarker1 createTSCommentScanner [] 13).2.2).map
      (fun s => (s.openPos, s.colonCount, s.colonPos, s.closePos)) ≠
    [(some 0, some 1, some 3, some 12)] := by
  decide

/-- C7 amended: for the input `/*: number */` scanned in full,
`getTSCommentPositions` returns exactly one span, with `open = 0`,
`colonCount = 1`, `colonPos = 2` (the offset of the colon itself) and
`close = 11` (the offset at which the closing `*/` starts). -/
theorem tsCommentPositions_marker1 :
    getTSCommentPositions (scanTo exMarker1 createTSCommentScanner [] 13).2.2 =
    [{ openPos := some 0, colonPos := some 2, closePos := some 11,
       colonCount := some 1, containedInnerOpeningBlockComment := false }] := by
  decide

/-! ## The JSDoc-then-marker scenario (C8) -/

/-- C8 counterexample: for `/** @x *//*:: y */` scanned in full, the single
recorded span does *not* have `containedInnerOpeningBlockComment = true`:
the JSDoc comment closes (its `close` delimiter is at offset 7) before the
marker comment opens at offset 9, so no opener is recorded *inside* the
marked comment. -/
theorem tsCommentPositions_jsdoc_not_spec :
    (getTSCommentPositions (scanTo exJsdocMarker createTSCommentScanner [] 18).2.2).map
      (fun s => s.containedInnerOpeningBlockComment) ≠ [true] := by
  decide

/-- C8 amended: for `/** @x *//*:: y */` scanned in full,
`getTSCommentPositions` returns a single span whose
`containedInnerOpeningBlockComment` is `false` and whose `close` offset is
16, where the final `*/` starts. -/
theorem tsCommentPositions_jsdoc :
    getTSCommentPositions (scanTo exJsdocMarker createTSCommentScanner [] 18).2.2 =
    [{ openPos := some 9, colonPos := some 11, closePos := some 16,
       colonCount := some 2, containedInnerOpeningBlockComment := false }] := by
  decide

/-! ## `scanUntilNextSignificantChar` (C5) -/

/-- C5 counterexample: on the text `"  x"` (two spaces then a significant
character at offset 2), `scanUntilNextSignificantChar(3)` on a fresh cursor
leaves the cursor position at 0 — it does *not* advance it to the first
significant character, although the delimiter scan stops there. -/
theorem scanUntilNextSignificantChar_not_advancing :
    (scanUntilNextSignificantChar (strCodes "  x") createTSCommentScanner [] 3).2.1.pos = 0 ∧
    (commentScan (strCodes "  x") 0 3 true).1 = 2 ∧ (0 : Nat) ≠ 2 := by
  decide

/-- C5 amended: for every cursor and every `max` at or past the current
position, `scanUntilNextSignificantChar(max)` scans from the current
position past whitespace and comments only (up to the first significant
character or `max`), records the delimiter events it sees in the cursor's map
and folds them into the mode, and returns whether that stopping point lies
inside a marker (TS) comment — but it leaves the cursor position
unchanged. -/
theorem scanUntilNextSignificantChar_spec (text : Text) (c : TsCommentScanner)
    (m : DelimMap) (max : Nat) (h : c.pos ≤ max) :
    scanUntilNextSignificantChar text c m max =
      (decide (applyEventsState c.state (commentScan text c.pos max true).2 =
         TsCommentScannerState.inTSBlockComment),
       { pos := c.pos,
         state := applyEventsState c.state (commentScan text c.pos max true).2 },
       commitEvents m (commentScan text c.pos max true).2) := by
  unfold scanUntilNextSignificantChar
  rw [if_neg (by omega)]

/-! ## Event lists of a `commentScan` call: ordering and bounds -/

/-- The opaque body loop: start bound, and its event is a single `close`
whose offset is two before the final position. -/
theorem blockBodyScan_spec (text : Text) (end_ : Nat) :
    ∀ fuel pos, pos ≤ (blockBodyScan text end_ fuel pos).1 ∧
      ((blockBodyScan text end_ fuel pos).2 = [] ∨
        ∃ q, (blockBodyScan text end_ fuel pos).2 = [(q, BlockCommentDelimiterType.close)] ∧
          pos ≤ q ∧ (blockBodyScan text end_ fuel pos).1 = q + 2) := by
  intro fuel
  induction fuel with
  | zero => intro pos; simp [blockBodyScan]
  | succ n ih =>
    intro pos
    simp only [blockBodyScan]
    split
    · split
      · exact ⟨Nat.le_add_right pos 2, Or.inr ⟨pos, rfl, le_refl _, rfl⟩⟩
      · obtain ⟨h1, h2⟩ := ih (pos + 1)
        refine ⟨by omega, ?_⟩
        rcases h2 with h2 | ⟨q, hq, hge, hend⟩
        · exact Or.inl h2
        · exact Or.inr ⟨q, hq, by omega, hend⟩
    · simp

/-- Keys of the events of one `commentScan` call are bounded below by the
start position, bounded above (strictly) by the stop position, and strictly
increasing in emission order; the stop position is at or past the start. -/
theorem commentScanAux_events (text : Text) (end_ : Nat) (stop : Bool) :
    ∀ fuel pos sp evs, commentScanAux text end_ stop fuel pos = some (sp, evs) →
      pos ≤ sp ∧ (∀ e ∈ evs, pos ≤ e.1 ∧ e.1 < sp) ∧
      evs.Pairwise (fun a b => a.1 < b.1) := by
  intro fuel
  induction fuel with
  | zero => intro pos sp evs h; simp [commentScanAux] at h
  | succ n ih =>
    intro pos sp evs h
    have weaken : ∀ pos', commentScanAux text end_ stop n pos' = some (sp, evs) →
        pos ≤ pos' →
        pos ≤ sp ∧ (∀ e ∈ evs, pos ≤ e.1 ∧ e.1 < sp) ∧
        evs.Pairwise (fun a b => a.1 < b.1) := by
      intro pos' hrec hle
      obtain ⟨hm, hb, hp⟩ := ih pos' sp evs hrec
      exact ⟨by omega, fun e he => ⟨by have := (hb e he).1; omega, (hb e he).2⟩, hp⟩
    simp only [commentScanAux] at h
    by_cases hend : pos ≥ end_
    · rw [if_pos hend] at h
      simp only [Option.some.injEq, Prod.mk.injEq] at h
      obtain ⟨h1, h2⟩ := h
      subst h1; subst h2; simp
    · rw [if_neg hend] at h
      by_cases hsheb : pos = 0 ∧ codePointAt text pos = some CharacterCodes.hash ∧
          isShebangTrivia text
      · rw [if_pos hsheb] at h
        exact weaken _ h (by have := hsheb.1; omega)
      · rw [if_neg hsheb] at h
        match hch : codePointAt text pos with
        | none =>
          rw [hch] at h
          cases stop with
          | false => exact weaken _ (by simpa using h) (by omega)
          | true =>
            simp only [if_true, Option.some.injEq, Prod.mk.injEq] at h
            obtain ⟨h1, h2⟩ := h
            subst h1
            subst h2
            simp
        | some c =>
          rw [hch] at h
          simp only at h
          by_cases h1 : c = CharacterCodes.lineFeed ∨ c = CharacterCodes.carriageReturn
          · rw [if_pos h1] at h
            exact weaken _ h (by omega)
          · rw [if_neg h1] at h
            by_cases h2 : commentScanWhitespaceCase c = true
            · rw [if_pos h2] at h
              exact weaken _ h (by omega)
            · rw [if_neg h2] at h
              by_cases h3 : c = CharacterCodes.asterisk
              · rw [if_pos h3] at h
                by_cases h4 : charCodeAt text (pos + 1) = some CharacterCodes.slash
                · rw [if_pos h4] at h
                  match hrec : commentScanAux text end_ stop n (pos + 2) with
                  | none => rw [hrec] at h; simp at h
                  | some r =>
                    rw [hrec] at h
                    simp only [Option.map_some', Option.some.injEq, Prod.mk.injEq] at h
                    obtain ⟨hsp, hevs⟩ := h
                    obtain ⟨hm, hb, hp⟩ := ih _ _ _ hrec
                    subst hsp
                    rw [← hevs]
                    refine ⟨by omega, ?_, ?_⟩
                    · intro e he
                      rcases List.mem_cons.mp he with he | he
                      · subst he; exact ⟨le_refl _, by omega⟩
                      · exact ⟨by have := (hb e he).1; omega, (hb e he).2⟩
                    · refine List.pairwise_cons.mpr ⟨?_, hp⟩
                      intro e he
                      have := (hb e he).1
                      omega
                · rw [if_neg h4] at h
                  exact weaken _ h (by omega)
              · rw [if_neg h3] at h
                by_cases h5 : c = CharacterCodes.slash
                · rw [if_pos h5] at h
                  by_cases h6 : charCodeAt text (pos + 1) = some CharacterCodes.slash
                  · rw [if_pos h6] at h
                    have hlc := lineCommentScan_ge text end_ (end_ - (pos + 2)) (pos + 2)
                    exact weaken _ h (by omega)
                  · rw [if_neg h6] at h
                    by_cases h7 : charCodeAt text (pos + 1) = some CharacterCodes.asterisk
                    · rw [if_pos h7] at h
                      set cres := tsColonScan text end_ (end_ - (pos + 2)) (pos + 2) with hcres
                      have hcge : pos + 2 ≤ cres.1 := tsColonScan_ge text end_ _ _
                      by_cases h8 : cres.2 = true ∧ colonCountAt text cres.1 ≤ 2
                      · rw [if_pos h8] at h
                        match hrec : commentScanAux text end_ stop n
                            (cres.1 + colonCountAt text cres.1) with
                        | none => rw [hrec] at h; simp at h
                        | some r =>
                          rw [hrec] at h
                          simp only [Option.map_some', Option.some.injEq, Prod.mk.injEq] at h
                          obtain ⟨hsp, hevs⟩ := h
                          obtain ⟨hm, hb, hp⟩ := ih _ _ _ hrec
                          have hcc : 1 ≤ colonCountAt text cres.1 := by
                            unfold colonCountAt
                            split <;> [omega; (split <;> omega)]
                          subst hsp
                          rw [← hevs]
                          refine ⟨by omega, ?_, ?_⟩
                          · intro e he
                            rcases List.mem_cons.mp he with he | he
                            · subst he; exact ⟨le_refl _, by omega⟩
                            rcases List.mem_cons.mp he with he | he
                            · subst he
                              refine ⟨by omega, ?_⟩
                              show cres.1 < r.1
                              omega
                            · exact ⟨by have := (hb e he).1; omega, (hb e he).2⟩
                          · refine List.pairwise_cons.mpr ⟨?_, List.pairwise_cons.mpr ⟨?_, hp⟩⟩
                            · intro e he
                              rcases List.mem_cons.mp he with he | he
                              · subst he
                                show pos < cres.1
                                omega
                              · have := (hb e he).1
                                show pos < e.1
                                omega
                            · intro e he
                              have := (hb e he).1
                              show cres.1 < e.1
                              omega
                      · rw [if_neg h8] at h
                        set bodyStart := (if cres.2 = true then cres.1 + 3 else cres.1)
                          with hbodyStart
                        have hbs : pos + 2 ≤ bodyStart := by
                          rw [hbodyStart]; split <;> omega
                        set bres := blockBodyScan text end_ (end_ - bodyStart) bodyStart
                          with hbres
                        obtain ⟨hbge, hbev⟩ := blockBodyScan_spec text end_
                          (end_ - bodyStart) bodyStart
                        rw [← hbres] at hbge hbev
                        match hrec : commentScanAux text end_ stop n bres.1 with
                        | none => rw [hrec] at h; simp at h
                        | some r =>
                          rw [hrec] at h
                          simp only [Option.map_some', Option.some.injEq, Prod.mk.injEq] at h
                          obtain ⟨hsp, hevs⟩ := h
                          obtain ⟨hm, hb, hp⟩ := ih _ _ _ hrec
                          subst hsp
                          rw [← hevs]
                          refine ⟨by omega, ?_, ?_⟩
                          · intro e he
                            rcases List.mem_cons.mp he with he | he
                            · subst he; exact ⟨le_refl _, by omega⟩
                            rcases List.mem_append.mp he with he | he
                            · rcases hbev with hnil | ⟨q, hq, hqge, hqend⟩
                              · rw [hnil] at he; simp at he
                              · rw [hq] at he
                                simp only [List.mem_singleton] at he
                                subst he
                                exact ⟨by omega, by simp only; omega⟩
                            · exact ⟨by have := (hb e he).1; omega, (hb e he).2⟩
                          · refine List.pairwise_cons.mpr ⟨?_, List.pairwise_append.mpr
                              ⟨?_, hp, ?_⟩⟩
                            · intro e he
                              rcases List.mem_append.mp he with he | he
                              · rcases hbev with hnil | ⟨q, hq, hqge, hqend⟩
                                · rw [hnil] at he; simp at he
                                · rw [hq] at he
                                  simp only [List.mem_singleton] at he
                                  subst he
                                  show pos < q
                                  omega
                              · have := (hb e he).1
                                show pos < e.1
                                omega
                            · rcases hbev with hnil | ⟨q, hq, hqge, hqend⟩
                              · rw [hnil]; simp
                              · rw [hq]
                                refine List.pairwise_singleton ..
                            · intro a ha b hbm
                              rcases hbev with hnil | ⟨q, hq, hqge, hqend⟩
                              · rw [hnil] at ha; simp at ha
                              · rw [hq] at ha
                                simp only [List.mem_singleton] at ha
                                subst ha
                                have := (hb b hbm).1
                                show q < b.1
                                omega
                    · rw [if_neg h7] at h
                      exact weaken _ h (by omega)
                · rw [if_neg h5] at h
                  cases stop with
                  | false => exact weaken _ (by simpa using h) (by omega)
                  | true =>
                    simp only [if_true, Option.some.injEq, Prod.mk.injEq] at h
                    obtain ⟨hh1, hh2⟩ := h
                    subst hh1
                    subst hh2
                    simp

/-- `commentScan` with `end ≤ start` returns immediately: no events, no
movement. -/
theorem commentScan_of_le (text : Text) (start end_ : Nat) (stop : Bool)
    (h : end_ ≤ start) : commentScan text start end_ stop = (start, []) := by
  have h0 : end_ - start = 0 := Nat.sub_eq_zero_of_le h
  have hge : start ≥ end_ := h
  simp [commentScan, h0, commentScanAux, hge]

/-- The events of a completed `commentScan` call have pairwise-distinct,
strictly increasing keys within `[start, stop)`. -/
theorem commentScan_events (text : Text) (start end_ : Nat) (stop : Bool)
    (h : start ≤ end_) :
    start ≤ (commentScan text start end_ stop).1 ∧
    (∀ e ∈ (commentScan text start end_ stop).2,
      start ≤ e.1 ∧ e.1 < (commentScan text start end_ stop).1) ∧
    (commentScan text start end_ stop).2.Pairwise (fun a b => a.1 < b.1) := by
  obtain ⟨sp, evs, heq, hcs, hge, hstop⟩ := commentScan_terminates text start end_ stop h
  rw [hcs]
  exact commentScanAux_events text end_ stop _ start sp evs heq

/-! ## JavaScript `Map.set` lemmas -/

/-- Setting a key to the value it already has leaves the map unchanged. -/
theorem mapSet_of_lookup (m : DelimMap) (k : Nat) (v : BlockCommentDelimiterType)
    (h : mapLookup m k = some v) : mapSet m k v = m := by
  induction m with
  | nil => simp [mapLookup] at h
  | cons e rest ih =>
    obtain ⟨k', v'⟩ := e
    by_cases hk : k' = k
    · subst hk
      simp [mapLookup] at h
      simp [mapSet, h]
    · simp only [mapLookup, if_neg hk] at h
      simp [mapSet, if_neg hk, ih h]

/-- Looking up the key just written. -/
theorem mapLookup_mapSet_self (m : DelimMap) (k : Nat) (v : BlockCommentDelimiterType) :
    mapLookup (mapSet m k v) k = some v := by
  induction m with
  | nil => simp [mapSet, mapLookup]
  | cons e rest ih =>
    obtain ⟨k', v'⟩ := e
    by_cases hk : k' = k
    · subst hk
      simp [mapSet, mapLookup]
    · simp [mapSet, if_neg hk, mapLookup, if_neg hk, ih]

/-- Writes to other keys do not affect a lookup. -/
theorem mapLookup_mapSet_ne (m : DelimMap) (k k' : Nat) (v : BlockCommentDelimiterType)
    (h : k' ≠ k) : mapLookup (mapSet m k' v) k = mapLookup m k := by
  induction m with
  | nil => simp [mapSet, mapLookup, if_neg h]
  | cons e rest ih =>
    obtain ⟨k'', v''⟩ := e
    by_cases hk : k'' = k'
    · subst hk
      simp [mapSet, mapLookup, if_neg h]
    · simp only [mapSet, if_neg hk, mapLookup]
      by_cases hk2 : k'' = k
      · simp [if_pos hk2]
      · simp [if_neg hk2, ih]

/-- Committing events whose keys avoid `k` does not affect a lookup at `k`. -/
theorem commitEvents_lookup_notmem (evs : List DelimEvent) :
    ∀ (m : DelimMap) (k : Nat), (∀ e ∈ evs, e.1 ≠ k) →
      mapLookup (commitEvents m evs) k = mapLookup m k := by
  induction evs with
  | nil => intro m k _; rfl
  | cons e rest ih =>
    intro m k hne
    have : mapLookup (commitEvents (commitEvent m e) rest) k = mapLookup (commitEvent m e) k :=
      ih (commitEvent m e) k (fun e' he' => hne e' (List.mem_cons_of_mem e he'))
    calc mapLookup (commitEvents m (e :: rest)) k
        = mapLookup (commitEvent m e) k := this
      _ = mapLookup m k := mapLookup_mapSet_ne m k e.1 e.2 (hne e (List.mem_cons_self e rest))

/-- After committing a key-distinct event list, every event's key maps to
its value. -/
theorem commitEvents_lookup_mem (evs : List DelimEvent) :
    ∀ (m : DelimMap), evs.Pairwise (fun a b => a.1 ≠ b.1) →
      ∀ e ∈ evs, mapLookup (commitEvents m evs) e.1 = some e.2 := by
  induction evs with
  | nil => intro m _ e he; simp at he
  | cons e0 rest ih =>
    intro m hpw e he
    obtain ⟨hhead, htail⟩ := List.pairwise_cons.mp hpw
    rcases List.mem_cons.mp he with he | he
    · subst he
      have : mapLookup (commitEvents (commitEvent m e) rest) e.1 =
          mapLookup (commitEvent m e) e.1 :=
        commitEvents_lookup_notmem rest (commitEvent m e) e.1
          (fun e' he' => (hhead e' he').symm)
      calc mapLookup (commitEvents m (e :: rest)) e.1
          = mapLookup (commitEvent m e) e.1 := this
        _ = some e.2 := mapLookup_mapSet_self m e.1 e.2
    · exact ih (commitEvent m e0) htail e he

/-- Recommitting a key-distinct event list is the identity. -/
theorem commitEvents_idem (evs : List DelimEvent) :
    ∀ (m : DelimMap), evs.Pairwise (fun a b => a.1 ≠ b.1) →
      commitEvents (commitEvents m evs) evs = commitEvents m evs := by
  induction evs with
  | nil => intro m _; rfl
  | cons e rest ih =>
    intro m hpw
    obtain ⟨hhead, htail⟩ := List.pairwise_cons.mp hpw
    show commitEvents (commitEvent (commitEvents (commitEvent m e) rest) e) rest =
      commitEvents (commitEvent m e) rest
    have hlk : mapLookup (commitEvents (commitEvent m e) rest) e.1 = some e.2 := by
      have : mapLookup (commitEvents (commitEvent m e) rest) e.1 =
          mapLookup (commitEvent m e) e.1 :=
        commitEvents_lookup_notmem rest (commitEvent m e) e.1
          (fun e' he' => (hhead e' he').symm)
      rw [this]
      exact mapLookup_mapSet_self m e.1 e.2
    rw [show commitEvent (commitEvents (commitEvent m e) rest) e =
        commitEvents (commitEvent m e) rest from
      mapSet_of_lookup _ e.1 e.2 hlk]
    exact ih (commitEvent m e) htail

/-! ## State replay lemmas -/

/-- Folding an event list over the cursor mode is either constant in the
initial mode (some event overwrites it) or the identity (no event touches
it). -/
theorem applyEventsState_const_or_id (evs : List DelimEvent) :
    (∀ s s', applyEventsState s evs = applyEventsState s' evs) ∨
    (∀ s, applyEventsState s evs = s) := by
  induction evs with
  | nil => exact Or.inr (fun s => rfl)
  | cons e rest ih =>
    obtain ⟨p, d⟩ := e
    cases d with
    | close =>
      exact Or.inl (fun s s' => by simp [applyEventsState, List.foldl_cons, delimStateStep])
    | openTsCommentWithoutColons =>
      exact Or.inl (fun s s' => by simp [applyEventsState, List.foldl_cons, delimStateStep])
    | openNonTsComment =>
      exact Or.inl (fun s s' => by simp [applyEventsState, List.foldl_cons, delimStateStep])
    | singleColonForOpenTsComment =>
      rcases ih with ih | ih
      · exact Or.inl (fun s s' => by
          simp only [applyEventsState, List.foldl_cons, delimStateStep]
          exact ih s s')
      · exact Or.inr (fun s => by
          simp only [applyEventsState, List.foldl_cons, delimStateStep]
          exact ih s)
    | doubleColonForOpenTsComment =>
      rcases ih with ih | ih
      · exact Or.inl (fun s s' => by
          simp only [applyEventsState, List.foldl_cons, delimStateStep]
          exact ih s s')
      · exact Or.inr (fun s => by
          simp only [applyEventsState, List.foldl_cons, delimStateStep]
          exact ih s)

/-- Replaying an event list over a mode it already produced is the
identity. -/
theorem applyEventsState_idem (s : TsCommentScannerState) (evs : List DelimEvent) :
    applyEventsState (applyEventsState s evs) evs = applyEventsState s evs := by
  rcases applyEventsState_const_or_id evs with h | h
  · exact h _ s
  · rw [h, h]

/-! ## Idempotence of `scanThroughLeafNode` and `scanTo` (C6) -/

/-- C6 counterexample: on `/*:: x*/`, `scanTo(6)` followed by a second
`scanTo(6)` with the same bound returns `true` the second time (the cursor
sits inside the marker comment), not `false` — although the second call is
a no-op on the cursor and its delimiter map. -/
theorem scanTo_repeat_returns_true :
    (scanTo exDoubleX
      (scanTo exDoubleX createTSCommentScanner [] 6).2.1
      (scanTo exDoubleX createTSCommentScanner [] 6).2.2 6).1 = true ∧
    (scanTo exDoubleX
      (scanTo exDoubleX createTSCommentScanner [] 6).2.1
      (scanTo exDoubleX createTSCommentScanner [] 6).2.2 6).2.1 =
      (scanTo exDoubleX createTSCommentScanner [] 6).2.1 ∧
    (scanTo exDoubleX
      (scanTo exDoubleX createTSCommentScanner [] 6).2.1
      (scanTo exDoubleX createTSCommentScanner [] 6).2.2 6).2.2 =
      (scanTo exDoubleX createTSCommentScanner [] 6).2.2 := by
  decide

/-- C6 amended: (i) `scanThroughLeafNode` with a node ending strictly before
the cursor is a complete no-op returning `false`; (ii) so is `scanTo` with a
bound strictly before the cursor; (iii) `scanTo` with the bound equal to the
cursor position leaves position, mode and map unchanged, returning the
current marker-comment membership (not necessarily `false`); (iv) repeating
`scanThroughLeafNode` on the same well-formed node is a no-op on position,
mode and delimiter map, and returns the same value as the first call — again
the current marker-comment membership rather than `false`. -/
theorem scanAdvance_idempotent :
    (∀ (text : Text) (c : TsCommentScanner) (m : DelimMap) (nodePos nodeEnd : Nat),
      nodeEnd < c.pos → scanThroughLeafNode text c m nodePos nodeEnd = (false, c, m)) ∧
    (∀ (text : Text) (c : TsCommentScanner) (m : DelimMap) (end_ : Nat),
      end_ < c.pos → scanTo text c m end_ = (false, c, m)) ∧
    (∀ (text : Text) (c : TsCommentScanner) (m : DelimMap),
      scanTo text c m c.pos =
        (decide (c.state = TsCommentScannerState.inTSBlockComment), c, m)) ∧
    (∀ (text : Text) (c : TsCommentScanner) (m : DelimMap) (nodePos nodeEnd : Nat),
      nodePos ≤ nodeEnd →
      scanThroughLeafNode text
        (scanThroughLeafNode text c m nodePos nodeEnd).2.1
        (scanThroughLeafNode text c m nodePos nodeEnd).2.2 nodePos nodeEnd =
      scanThroughLeafNode text c m nodePos nodeEnd) := by
  refine ⟨?_, ?_, ?_, ?_⟩
  · intro text c m nodePos nodeEnd h
    unfold scanThroughLeafNode
    rw [if_pos h]
  · intro text c m end_ h
    unfold scanTo
    rw [if_pos h]
  · intro text c m
    unfold scanTo
    rw [if_neg (by omega)]
    simp only [commentScan_of_le text c.pos c.pos true (le_refl _)]
    simp [commentScan_of_le text c.pos c.pos false (le_refl _), applyEventsState, commitEvents]
  · intro text c m nodePos nodeEnd hnode
    by_cases hlt : nodeEnd < c.pos
    · have hfe : scanThroughLeafNode text c m nodePos nodeEnd = (false, c, m) := by
        unfold scanThroughLeafNode
        rw [if_pos hlt]
      rw [hfe]
      exact hfe
    · push_neg at hlt
      obtain ⟨hge2, hbnd2, hpw2⟩ := commentScan_events text nodePos nodeEnd true hnode
      have hkeys : (commentScan text nodePos nodeEnd true).2.Pairwise
          (fun a b => a.1 ≠ b.1) :=
        hpw2.imp (fun hab => Nat.ne_of_lt hab)
      set S := applyEventsState
        (applyEventsState c.state (commentScan text c.pos nodePos false).2)
        (commentScan text nodePos nodeEnd true).2 with hS
      set M := commitEvents
        (commitEvents m (commentScan text c.pos nodePos false).2)
        (commentScan text nodePos nodeEnd true).2 with hM
      have hfe : scanThroughLeafNode text c m nodePos nodeEnd =
          (decide (S = TsCommentScannerState.inTSBlockComment),
           { pos := nodeEnd, state := S }, M) := by
        unfold scanThroughLeafNode
        rw [if_neg (by omega)]
      rw [hfe]
      show scanThroughLeafNode text { pos := nodeEnd, state := S } M nodePos nodeEnd = _
      have h1 : applyEventsState S (commentScan text nodePos nodeEnd true).2 = S := by
        rw [hS]
        exact applyEventsState_idem _ _
      have h2 : commitEvents M (commentScan text nodePos nodeEnd true).2 = M := by
        rw [hM]
        exact commitEvents_idem _ _ hkeys
      unfold scanThroughLeafNode
      rw [if_neg (show ¬ nodeEnd < ({ pos := nodeEnd, state := S } :
        TsCommentScanner).pos from Nat.lt_irrefl nodeEnd)]
      show (decide (applyEventsState
          (applyEventsState S (commentScan text nodeEnd nodePos false).2)
          (commentScan text nodePos nodeEnd true).2 =
            TsCommentScannerState.inTSBlockComment),
        ({ pos := nodeEnd,
           state := applyEventsState
             (applyEventsState S (commentScan text nodeEnd nodePos false).2)
             (commentScan text nodePos nodeEnd true).2 } : TsCommentScanner),
        commitEvents (commitEvents M (commentScan text nodeEnd nodePos false).2)
          (commentScan text nodePos nodeEnd true).2) = _
      rw [commentScan_of_le text nodeEnd nodePos false hnode]
      show (decide (applyEventsState (applyEventsState S [])
          (commentScan text nodePos nodeEnd true).2 =
            TsCommentScannerState.inTSBlockComment),
        ({ pos := nodeEnd,
           state := applyEventsState (applyEventsState S [])
             (commentScan text nodePos nodeEnd true).2 } : TsCommentScanner),
        commitEvents (commitEvents M [])
          (commentScan text nodePos nodeEnd true).2) = _
      rw [show applyEventsState S [] = S from rfl,
          show commitEvents M [] = M from rfl, h1, h2]

/-- Witness for C6's amended theorem, applying all four components at
concrete inputs. -/
theorem scanAdvance_idempotent_witness :
    scanThroughLeafNode (strCodes "ab") { pos := 2, state := TsCommentScannerState.notInComment }
      [] 0 1 = (false, { pos := 2, state := TsCommentScannerState.notInComment }, []) ∧
    scanTo (strCodes "ab") { pos := 2, state := TsCommentScannerState.notInComment } [] 1 =
      (false, { pos := 2, state := TsCommentScannerState.notInComment }, []) ∧
    scanTo (strCodes "ab") { pos := 2, state := TsCommentScannerState.notInComment } []
      ({ pos := 2, state := TsCommentScannerState.notInComment } : TsCommentScanner).pos =
      (decide (({ pos := 2, state := TsCommentScannerState.notInComment } :
          TsCommentScanner).state = TsCommentScannerState.inTSBlockComment),
        { pos := 2, state := TsCommentScannerState.notInComment }, []) ∧
    scanThroughLeafNode exDoubleX
      (scanThroughLeafNode exDoubleX createTSCommentScanner [] 0 6).2.1
      (scanThroughLeafNode exDoubleX createTSCommentScanner [] 0 6).2.2 0 6 =
    scanThroughLeafNode exDoubleX createTSCommentScanner [] 0 6 :=
  ⟨scanAdvance_idempotent.1 (strCodes "ab") _ [] 0 1 (by decide),
   scanAdvance_idempotent.2.1 (strCodes "ab") _ [] 1 (by decide),
   scanAdvance_idempotent.2.2.1 (strCodes "ab") _ [],
   scanAdvance_idempotent.2.2.2 exDoubleX createTSCommentScanner [] 0 6 (by decide)⟩

/-! ## Clone sharing (C4) -/

/-- `commitEvents` over a concatenation. -/
theorem commitEvents_append (m : DelimMap) (a b : List DelimEvent) :
    commitEvents m (a ++ b) = commitEvents (commitEvents m a) b :=
  List.foldl_append ..

/-- The two event lists of one `scanTo` have pairwise-distinct keys. -/
theorem scanToEvents_keys (text : Text) (pos end_ : Nat) (h : pos ≤ end_) :
    (scanToEvents text pos end_).Pairwise (fun a b => a.1 ≠ b.1) := by
  obtain ⟨hge1, hbnd1, hpw1⟩ := commentScan_events text pos end_ true h
  unfold scanToEvents
  by_cases h2 : (commentScan text pos end_ true).1 ≤ end_
  · obtain ⟨hge2, hbnd2, hpw2⟩ :=
      commentScan_events text (commentScan text pos end_ true).1 end_ false h2
    refine List.pairwise_append.mpr
      ⟨hpw1.imp (fun hab => Nat.ne_of_lt hab),
       hpw2.imp (fun hab => Nat.ne_of_lt hab), ?_⟩
    intro a ha b hb
    have h1 := (hbnd1 a ha).2
    have h3 := (hbnd2 b hb).1
    omega
  · push_neg at h2
    rw [commentScan_of_le text (commentScan text pos end_ true).1 end_ false (by omega)]
    simpa using hpw1.imp (fun hab => Nat.ne_of_lt hab)

/-- C4: code bug.  `clone()` (line 3063) passes the optional constructor
parameter `_delimiterPositions` — `undefined` for a scanner created
normally, with the fourth argument omitted — instead of the local
`delimiterPositions` (`_delimiterPositions ?? new Map()`), so the clone
allocates a fresh `Map` rather than sharing the original's: the two
cursors hold different map references, the events the clone discovers
while scanning the whole of `/*: number */` land only in the clone's
map, and the original's `getBlockCommentDelimiters()` and
`getTSCommentPositions()` still see an empty record — contradicting the
claimed (and, per the source's own comment "This is a shared value that
all clones share and mutate", intended) sharing. -/
theorem clone_fresh_map_invisible :
    newTSCommentScanner.1.delims = 0 ∧
    newTSCommentScanner.2 = [[]] ∧
    (newTSCommentScanner.1.clone newTSCommentScanner.2).1.delims = 1 ∧
    (newTSCommentScanner.1.clone newTSCommentScanner.2).1.pos =
      newTSCommentScanner.1.pos ∧
    (newTSCommentScanner.1.clone newTSCommentScanner.2).1.state =
      newTSCommentScanner.1.state ∧
    getBlockCommentDelimitersObj
      ((newTSCommentScanner.1.clone newTSCommentScanner.2).1)
      ((scanToObj exMarker1
        ((newTSCommentScanner.1.clone newTSCommentScanner.2).1)
        ((newTSCommentScanner.1.clone newTSCommentScanner.2).2) 13).2.2) =
      [(0, BlockCommentDelimiterType.openTsCommentWithoutColons),
       (2, BlockCommentDelimiterType.singleColonForOpenTsComment),
       (11, BlockCommentDelimiterType.close)] ∧
    getBlockCommentDelimitersObj newTSCommentScanner.1
      ((scanToObj exMarker1
        ((newTSCommentScanner.1.clone newTSCommentScanner.2).1)
        ((newTSCommentScanner.1.clone newTSCommentScanner.2).2) 13).2.2) = [] ∧
    getTSCommentPositions
      (getBlockCommentDelimitersObj newTSCommentScanner.1
        ((scanToObj exMarker1
          ((newTSCommentScanner.1.clone newTSCommentScanner.2).1)
          ((newTSCommentScanner.1.clone newTSCommentScanner.2).2) 13).2.2)) = [] := by
  decide

/-- Witness for C5's amended theorem at a concrete input. -/
theorem scanUntilNextSignificantChar_spec_witness :
    (createTSCommentScanner.pos ≤ 3) ∧
    scanUntilNextSignificantChar (strCodes "  x") createTSCommentScanner [] 3 =
      (decide (applyEventsState createTSCommentScanner.state
         (commentScan (strCodes "  x") createTSCommentScanner.pos 3 true).2 =
         TsCommentScannerState.inTSBlockComment),
       { pos := createTSCommentScanner.pos,
         state := applyEventsState createTSCommentScanner.state
           (commentScan (strCodes "  x") createTSCommentScanner.pos 3 true).2 },
       commitEvents [] (commentScan (strCodes "  x") createTSCommentScanner.pos 3 true).2) :=
  ⟨by decide,
   scanUntilNextSignificantChar_spec (strCodes "  x") createTSCommentScanner [] 3 (by decide)⟩

/-! ## Text-consistency of emitted events (C10) -/

/-- A below-surrogate code point read by `codePointAt` is the code unit
itself. -/
theorem codePointAt_low (text : Text) (p c : Nat) (h : codePointAt text p = some c)
    (hc : c < 0xD800) : charCodeAt text p = some c := by
  unfold codePointAt at h
  match hcc : charCodeAt text p with
  | none => rw [hcc] at h; exact absurd h (by simp)
  | some c0 =>
    rw [hcc] at h
    simp only at h
    split at h
    · rename_i hsur
      match hcc2 : charCodeAt text (p + 1) with
      | none =>
        rw [hcc2] at h
        simp only [Option.some.injEq] at h
        omega
      | some c2 =>
        rw [hcc2] at h
        simp only at h
        split at h
        · simp only [Option.some.injEq] at h
          omega
        · simp only [Option.some.injEq] at h
          omega
    · simp only [Option.some.injEq] at h
      exact congrArg some h

/-- When the colon-detection loop reports a colon, the skipped window is
all spaces and the stop offset holds a colon. -/
theorem tsColonScan_spec (text : Text) (end_ : Nat) :
    ∀ fuel pos, (tsColonScan text end_ fuel pos).2 = true →
      (∀ j, pos ≤ j → j < (tsColonScan text end_ fuel pos).1 →
        charCodeAt text j = some CharacterCodes.space) ∧
      charCodeAt text (tsColonScan text end_ fuel pos).1 = some CharacterCodes.colon := by
  intro fuel
  induction fuel with
  | zero => intro pos h; simp [tsColonScan] at h
  | succ n ih =>
    intro pos h
    simp only [tsColonScan] at h ⊢
    split at h
    · split at h
      · rename_i hsp
        obtain ⟨hw, hc⟩ := ih (pos + 1) (by rw [← h])
        rw [if_pos (by assumption), if_pos hsp]
        refine ⟨?_, hc⟩
        intro j hj1 hj2
        by_cases hj : j = pos
        · subst hj; exact hsp
        · exact hw j (by omega) hj2
      · split at h
        · rename_i hnsp hcol
          rw [if_pos (by assumption), if_neg hnsp, if_pos hcol]
          exact ⟨fun j hj1 hj2 => absurd (by omega : pos < pos) (lt_irrefl pos), hcol⟩
        · simp at h
    · simp at h

/-- Events of the opaque body loop are text-consistent `close`s. -/
theorem blockBodyScan_chars (text : Text) (end_ : Nat) :
    ∀ fuel pos q d, (q, d) ∈ (blockBodyScan text end_ fuel pos).2 →
      d = BlockCommentDelimiterType.close ∧
      charCodeAt text q = some CharacterCodes.asterisk ∧
      charCodeAt text (q + 1) = some CharacterCodes.slash := by
  intro fuel
  induction fuel with
  | zero => intro pos q d h; simp [blockBodyScan] at h
  | succ n ih =>
    intro pos q d h
    simp only [blockBodyScan] at h
    split at h
    · split at h
      · rename_i hstar
        simp only [List.mem_singleton, Prod.mk.injEq] at h
        obtain ⟨h1, h2⟩ := h
        subst h1; subst h2
        exact ⟨rfl, hstar.1, hstar.2⟩
      · exact ih (pos + 1) q d h
    · simp at h

/-- Every event of a completed `commentScan` call is text-consistent, and
every marker-opener event comes with its window colon event in the same
list. -/
theorem commentScanAux_eventOk (text : Text) (end_ : Nat) (stop : Bool) :
    ∀ fuel pos sp evs, commentScanAux text end_ stop fuel pos = some (sp, evs) →
      (∀ e ∈ evs, EventOk text e) ∧
      (∀ a, (a, BlockCommentDelimiterType.openTsCommentWithoutColons) ∈ evs →
        ∃ c, OpenTsWindow text a c ∧
          (((c, BlockCommentDelimiterType.singleColonForOpenTsComment) ∈ evs) ∨
           ((c, BlockCommentDelimiterType.doubleColonForOpenTsComment) ∈ evs))) := by
  intro fuel
  induction fuel with
  | zero => intro pos sp evs h; simp [commentScanAux] at h
  | succ n ih =>
    intro pos sp evs h
    simp only [commentScanAux] at h
    by_cases hend : pos ≥ end_
    · rw [if_pos hend] at h
      simp only [Option.some.injEq, Prod.mk.injEq] at h
      obtain ⟨h1, h2⟩ := h
      subst h1; subst h2
      simp
    · rw [if_neg hend] at h
      by_cases hsheb : pos = 0 ∧ codePointAt text pos = some CharacterCodes.hash ∧
          isShebangTrivia text
      · rw [if_pos hsheb] at h
        exact ih _ _ _ h
      · rw [if_neg hsheb] at h
        match hch : codePointAt text pos with
        | none =>
          rw [hch] at h
          cases stop with
          | false => exact ih _ _ _ (by simpa using h)
          | true =>
            simp only [if_true, Option.some.injEq, Prod.mk.injEq] at h
            obtain ⟨h1, h2⟩ := h
            subst h1; subst h2
            simp
        | some c =>
          rw [hch] at h
          simp only at h
          by_cases h1 : c = CharacterCodes.lineFeed ∨ c = CharacterCodes.carriageReturn
          · rw [if_pos h1] at h
            exact ih _ _ _ h
          · rw [if_neg h1] at h
            by_cases h2 : commentScanWhitespaceCase c = true
            · rw [if_pos h2] at h
              exact ih _ _ _ h
            · rw [if_neg h2] at h
              by_cases h3 : c = CharacterCodes.asterisk
              · rw [if_pos h3] at h
                by_cases h4 : charCodeAt text (pos + 1) = some CharacterCodes.slash
                · rw [if_pos h4] at h
                  match hrec : commentScanAux text end_ stop n (pos + 2) with
                  | none => rw [hrec] at h; simp at h
                  | some r =>
                    rw [hrec] at h
                    simp only [Option.map_some', Option.some.injEq, Prod.mk.injEq] at h
                    obtain ⟨hsp, hevs⟩ := h
                    obtain ⟨hok, hpair⟩ := ih _ _ _ hrec
                    subst hsp
                    rw [← hevs]
                    constructor
                    · intro e he
                      rcases List.mem_cons.mp he with he | he
                      · subst he
                        exact ⟨codePointAt_low text pos _ (h3 ▸ hch) (by decide), h4⟩
                      · exact hok e he
                    · intro a ha
                      rcases List.mem_cons.mp ha with ha | ha
                      · exact absurd (Prod.mk.injEq .. ▸ ha).2 (by decide)
                      · obtain ⟨c', hw, hc'⟩ := hpair a ha
                        exact ⟨c', hw, hc'.imp (List.mem_cons_of_mem _) (List.mem_cons_of_mem _)⟩
                · rw [if_neg h4] at h
                  exact ih _ _ _ h
              · rw [if_neg h3] at h
                by_cases h5 : c = CharacterCodes.slash
                · rw [if_pos h5] at h
                  by_cases h6 : charCodeAt text (pos + 1) = some CharacterCodes.slash
                  · rw [if_pos h6] at h
                    exact ih _ _ _ h
                  · rw [if_neg h6] at h
                    by_cases h7 : charCodeAt text (pos + 1) = some CharacterCodes.asterisk
                    · rw [if_pos h7] at h
                      set cres := tsColonScan text end_ (end_ - (pos + 2)) (pos + 2) with hcres
                      have hcge : pos + 2 ≤ cres.1 := tsColonScan_ge text end_ _ _
                      by_cases h8 : cres.2 = true ∧ colonCountAt text cres.1 ≤ 2
                      · rw [if_pos h8] at h
                        obtain ⟨hwin, hcolchar⟩ := tsColonScan_spec text end_
                          (end_ - (pos + 2)) (pos + 2) h8.1
                        rw [← hcres] at hwin hcolchar
                        have hwindow : OpenTsWindow text pos cres.1 :=
                          ⟨codePointAt_low text pos _ (h5 ▸ hch) (by decide), h7, hcge,
                           fun j hj1 hj2 => hwin j hj1 hj2, hcolchar⟩
                        match hrec : commentScanAux text end_ stop n
                            (cres.1 + colonCountAt text cres.1) with
                        | none => rw [hrec] at h; simp at h
                        | some r =>
                          rw [hrec] at h
                          simp only [Option.map_some', Option.some.injEq, Prod.mk.injEq] at h
                          obtain ⟨hsp, hevs⟩ := h
                          obtain ⟨hok, hpair⟩ := ih _ _ _ hrec
                          subst hsp
                          rw [← hevs]
                          have hcc1 : colonCountAt text cres.1 = 1 ∨
                              colonCountAt text cres.1 = 2 := by
                            have : 1 ≤ colonCountAt text cres.1 := by
                              unfold colonCountAt
                              split <;> [omega; (split <;> omega)]
                            omega
                          constructor
                          · intro e he
                            rcases List.mem_cons.mp he with he | he
                            · subst he
                              exact ⟨codePointAt_low text pos _ (h5 ▸ hch) (by decide), h7⟩
                            rcases List.mem_cons.mp he with he | he
                            · subst he
                              rcases hcc1 with hcc | hcc
                              · rw [if_pos hcc]
                                refine ⟨hcolchar, ?_⟩
                                unfold colonCountAt at hcc
                                by_cases hcol1 : charCodeAt text (cres.1 + 1) =
                                    some CharacterCodes.colon
                                · rw [if_neg (by simpa using hcol1)] at hcc
                                  split at hcc <;> omega
                                · exact hcol1
                              · rw [if_neg (by omega)]
                                unfold colonCountAt at hcc
                                by_cases hcol1 : charCodeAt text (cres.1 + 1) =
                                    some CharacterCodes.colon
                                · rw [if_neg (by simpa using hcol1)] at hcc
                                  by_cases hcol2 : charCodeAt text (cres.1 + 2) =
                                      some CharacterCodes.colon
                                  · rw [if_neg (by simpa using hcol2)] at hcc
                                    omega
                                  · exact ⟨hcolchar, hcol1, hcol2⟩
                                · rw [if_pos hcol1] at hcc
                                  omega
                            · exact hok e he
                          · intro a ha
                            rcases List.mem_cons.mp ha with ha | ha
                            · have ha1 : a = pos := (Prod.mk.injEq .. ▸ ha).1
                              subst ha1
                              refine ⟨cres.1, hwindow, ?_⟩
                              rcases hcc1 with hcc | hcc
                              · left
                                rw [if_pos hcc]
                                exact List.mem_cons_of_mem _ (List.mem_cons_self _ _)
                              · right
                                rw [if_neg (by omega)]
                                exact List.mem_cons_of_mem _ (List.mem_cons_self _ _)
                            rcases List.mem_cons.mp ha with ha | ha
                            · exact absurd (Prod.mk.injEq .. ▸ ha).2 (by split <;> decide)
                            · obtain ⟨c', hw, hc'⟩ := hpair a ha
                              exact ⟨c', hw, hc'.imp
                                (fun hm => List.mem_cons_of_mem _ (List.mem_cons_of_mem _ hm))
                                (fun hm => List.mem_cons_of_mem _ (List.mem_cons_of_mem _ hm))⟩
                      · rw [if_neg h8] at h
                        set bodyStart := (if cres.2 = true then cres.1 + 3 else cres.1)
                          with hbodyStart
                        set bres := blockBodyScan text end_ (end_ - bodyStart) bodyStart
                          with hbres
                        match hrec : commentScanAux text end_ stop n bres.1 with
                        | none => rw [hrec] at h; simp at h
                        | some r =>
                          rw [hrec] at h
                          simp only [Option.map_some', Option.some.injEq, Prod.mk.injEq] at h
                          obtain ⟨hsp, hevs⟩ := h
                          obtain ⟨hok, hpair⟩ := ih _ _ _ hrec
                          subst hsp
                          rw [← hevs]
                          constructor
                          · intro e he
                            rcases List.mem_cons.mp he with he | he
                            · subst he
                              exact ⟨codePointAt_low text pos _ (h5 ▸ hch) (by decide), h7⟩
                            rcases List.mem_append.mp he with he | he
                            · obtain ⟨hd, hc1, hc2⟩ :=
                                blockBodyScan_chars text end_ (end_ - bodyStart)
                                  bodyStart e.1 e.2 (by rw [← hbres]; exact he)
                              show EventOk text (e.1, e.2)
                              rw [hd]
                              exact ⟨hc1, hc2⟩
                            · exact hok e he
                          · intro a ha
                            rcases List.mem_cons.mp ha with ha | ha
                            · exact absurd (Prod.mk.injEq .. ▸ ha).2 (by decide)
                            rcases List.mem_append.mp ha with ha | ha
                            · have := (blockBodyScan_chars text end_ (end_ - bodyStart)
                                bodyStart a BlockCommentDelimiterType.openTsCommentWithoutColons
                                (by rw [← hbres]; exact ha)).1
                              exact absurd this (by decide)
                            · obtain ⟨c', hw, hc'⟩ := hpair a ha
                              refine ⟨c', hw, hc'.imp ?_ ?_⟩
                              · intro hm
                                exact List.mem_cons_of_mem _ (List.mem_append_right _ hm)
                              · intro hm
                                exact List.mem_cons_of_mem _ (List.mem_append_right _ hm)
                    · rw [if_neg h7] at h
                      exact ih _ _ _ h
                · rw [if_neg h5] at h
                  cases stop with
                  | false => exact ih _ _ _ (by simpa using h)
                  | true =>
                    simp only [if_true, Option.some.injEq, Prod.mk.injEq] at h
                    obtain ⟨hh1, hh2⟩ := h
                    subst hh1; subst hh2
                    simp

/-- A lookup hit after a commit comes from the committed events or from the
previous map. -/
theorem lookup_commitEvents_cases (evs : List DelimEvent) :
    ∀ (m : DelimMap) (k : Nat) (v : BlockCommentDelimiterType),
      mapLookup (commitEvents m evs) k = some v →
      (k, v) ∈ evs ∨ mapLookup m k = some v := by
  induction evs with
  | nil => intro m k v h; exact Or.inr h
  | cons e rest ih =>
    intro m k v h
    rcases ih (commitEvent m e) k v h with hm | hm
    · exact Or.inl (List.mem_cons_of_mem e hm)
    · unfold commitEvent at hm
      by_cases hk : e.1 = k
      · subst hk
        rw [mapLookup_mapSet_self] at hm
        left
        have hv : v = e.2 := by
          have := Option.some.injEq e.2 v ▸ hm
          exact this.symm
        rw [show (e.1, v) = e from Prod.ext rfl hv]
        exact List.mem_cons_self e rest
      · right
        rw [mapLookup_mapSet_ne m k e.1 e.2 hk] at hm
        exact hm

/-- A lookup hit is a member of the association list. -/
theorem mem_of_mapLookup (m : DelimMap) (k : Nat) (v : BlockCommentDelimiterType)
    (h : mapLookup m k = some v) : (k, v) ∈ m := by
  induction m with
  | nil => simp [mapLookup] at h
  | cons e rest ih =>
    obtain ⟨k', v'⟩ := e
    by_cases hk : k' = k
    · subst hk
      simp [mapLookup] at h
      rw [h]
      exact List.mem_cons_self _ _
    · simp only [mapLookup, if_neg hk] at h
      exact List.mem_cons_of_mem _ (ih h)

/-- On a key-distinct association list, membership gives the lookup. -/
theorem mapLookup_of_mem_nodup :
    ∀ (m : DelimMap), m.Pairwise (fun a b => a.1 ≠ b.1) →
      ∀ (k : Nat) (v : BlockCommentDelimiterType),
        (k, v) ∈ m → mapLookup m k = some v := by
  intro m
  induction m with
  | nil => intro _ k v h; simp at h
  | cons e rest ih =>
    intro hnd k v h
    obtain ⟨hhead, htail⟩ := List.pairwise_cons.mp hnd
    rcases List.mem_cons.mp h with heq1 | hmem1
    · rw [← heq1]
      simp [mapLookup]
    · obtain ⟨k', v'⟩ := e
      have hk : k' ≠ k := by
        have := hhead (k, v) hmem1
        simpa using this
      simp only [mapLookup, if_neg hk]
      exact ih htail k v hmem1

/-- Members of `mapSet m k v` are members of `m` or the new entry. -/
theorem mem_mapSet (m : DelimMap) (k : Nat) (v : BlockCommentDelimiterType) :
    ∀ e ∈ mapSet m k v, e ∈ m ∨ e = (k, v) := by
  induction m with
  | nil => intro e he; simp [mapSet] at he; exact Or.inr he
  | cons f rest ih =>
    intro e he
    obtain ⟨k', v'⟩ := f
    by_cases hk : k' = k
    · subst hk
      simp only [mapSet, if_pos rfl] at he
      rcases List.mem_cons.mp he with he | he
      · exact Or.inr he
      · exact Or.inl (List.mem_cons_of_mem _ he)
    · simp only [mapSet, if_neg hk] at he
      rcases List.mem_cons.mp he with he | he
      · exact Or.inl (he ▸ List.mem_cons_self _ _)
      · rcases ih e he with h | h
        · exact Or.inl (List.mem_cons_of_mem _ h)
        · exact Or.inr h

/-- `mapSet` preserves key-distinctness. -/
theorem mapSet_keys_pairwise (m : DelimMap) (k : Nat) (v : BlockCommentDelimiterType)
    (hnd : m.Pairwise (fun a b => a.1 ≠ b.1)) :
    (mapSet m k v).Pairwise (fun a b => a.1 ≠ b.1) := by
  induction m with
  | nil => simp [mapSet]
  | cons e rest ih =>
    obtain ⟨hhead, htail⟩ := List.pairwise_cons.mp hnd
    obtain ⟨k', v'⟩ := e
    by_cases hk : k' = k
    · subst hk
      simp only [mapSet, if_pos rfl]
      exact List.pairwise_cons.mpr ⟨fun e he => hhead e he, htail⟩
    · simp only [mapSet, if_neg hk]
      refine List.pairwise_cons.mpr ⟨?_, ih htail⟩
      intro e he
      rcases mem_mapSet rest k v e he with h | h
      · exact hhead e h
      · rw [h]
        exact hk

/-- `commitEvents` preserves key-distinctness. -/
theorem commitEvents_keys_pairwise (evs : List DelimEvent) :
    ∀ (m : DelimMap), m.Pairwise (fun a b => a.1 ≠ b.1) →
      (commitEvents m evs).Pairwise (fun a b => a.1 ≠ b.1) := by
  induction evs with
  | nil => intro m h; exact h
  | cons e rest ih =>
    intro m h
    exact ih (commitEvent m e) (mapSet_keys_pairwise m e.1 e.2 h)

/-- Every reachable delimiter map is a key-distinct association list. -/
theorem buildMap_keys_pairwise (text : Text) (calls : List (Nat × Nat × Bool)) :
    (buildMap text calls).Pairwise (fun a b => a.1 ≠ b.1) := by
  suffices h : ∀ (cs : List (Nat × Nat × Bool)) (m : DelimMap),
      m.Pairwise (fun a b => a.1 ≠ b.1) →
      (cs.foldl (fun m c => commitEvents m (commentScan text c.1 c.2.1 c.2.2).2) m).Pairwise
        (fun a b => a.1 ≠ b.1) by
    exact h calls [] (by simp)
  intro cs
  induction cs with
  | nil => intro m h; exact h
  | cons c rest ih =>
    intro m h
    exact ih _ (commitEvents_keys_pairwise _ m h)

/-- The events of any `commentScan` call (including degenerate bounds) are
text-consistent, come with window colons for each marker opener, and have
strictly increasing keys. -/
theorem commentScan_call_spec (text : Text) (start end_ : Nat) (stop : Bool) :
    (∀ e ∈ (commentScan text start end_ stop).2, EventOk text e) ∧
    (∀ a, (a, BlockCommentDelimiterType.openTsCommentWithoutColons) ∈
        (commentScan text start end_ stop).2 →
      ∃ c, OpenTsWindow text a c ∧
        (((c, BlockCommentDelimiterType.singleColonForOpenTsComment) ∈
            (commentScan text start end_ stop).2) ∨
         ((c, BlockCommentDelimiterType.doubleColonForOpenTsComment) ∈
            (commentScan text start end_ stop).2))) ∧
    (commentScan text start end_ stop).2.Pairwise (fun a b => a.1 < b.1) := by
  by_cases h : start ≤ end_
  · obtain ⟨sp, evs, heq, hcs, hge, hstop⟩ := commentScan_terminates text start end_ stop h
    rw [hcs]
    obtain ⟨hok, hpair⟩ := commentScanAux_eventOk text end_ stop _ start sp evs heq
    obtain ⟨hm, hb, hpw⟩ := commentScanAux_events text end_ stop _ start sp evs heq
    exact ⟨hok, hpair, hpw⟩
  · rw [commentScan_of_le text start end_ stop (by omega)]
    simp

/-- One commit of a `commentScan` call's events preserves `MapOk`. -/
theorem MapOk_commit (text : Text) (m : DelimMap) (start end_ : Nat) (stop : Bool)
    (h : MapOk text m) :
    MapOk text (commitEvents m (commentScan text start end_ stop).2) := by
  obtain ⟨hok, hpair, hpw⟩ := commentScan_call_spec text start end_ stop
  have hkeys : (commentScan text start end_ stop).2.Pairwise (fun a b => a.1 ≠ b.1) :=
    hpw.imp (fun hab => Nat.ne_of_lt hab)
  constructor
  · intro k v hkv
    rcases lookup_commitEvents_cases _ m k v hkv with hm | hm
    · exact hok (k, v) hm
    · exact h.1 k v hm
  · intro a ha
    rcases lookup_commitEvents_cases _ m a _ ha with hm | hm
    · obtain ⟨c, hw, hc⟩ := hpair a hm
      refine ⟨c, hw, ?_⟩
      rcases hc with hc | hc
      · exact Or.inl (commitEvents_lookup_mem _ m hkeys _ hc)
      · exact Or.inr (commitEvents_lookup_mem _ m hkeys _ hc)
    · obtain ⟨c, hw, hc⟩ := h.2 a hm
      by_cases htouch : ∃ v', (c, v') ∈ (commentScan text start end_ stop).2
      · obtain ⟨v', hv'⟩ := htouch
        have hlk : mapLookup (commitEvents m (commentScan text start end_ stop).2) c =
            some v' := commitEvents_lookup_mem _ m hkeys _ hv'
        have hvok := hok (c, v') hv'
        have hcol : charCodeAt text c = some CharacterCodes.colon := hw.2.2.2.2
        refine ?_
        cases v' with
        | close =>
          exact absurd (hvok.1.symm.trans hcol) (by decide)
        | openNonTsComment =>
          exact absurd (hvok.1.symm.trans hcol) (by decide)
        | openTsCommentWithoutColons =>
          exact absurd (hvok.1.symm.trans hcol) (by decide)
        | singleColonForOpenTsComment => exact ⟨c, hw, Or.inl hlk⟩
        | doubleColonForOpenTsComment => exact ⟨c, hw, Or.inr hlk⟩
      · push_neg at htouch
        have hnm : ∀ e ∈ (commentScan text start end_ stop).2, e.1 ≠ c := by
          intro e he heq
          have hmem : (e.1, e.2) ∈ (commentScan text start end_ stop).2 := he
          rw [heq] at hmem
          exact htouch e.2 hmem
        refine ⟨c, hw, ?_⟩
        rw [commitEvents_lookup_notmem _ m c hnm]
        exact hc

/-- Every reachable delimiter map satisfies `MapOk`. -/
theorem MapOk_buildMap (text : Text) (calls : List (Nat × Nat × Bool)) :
    MapOk text (buildMap text calls) := by
  suffices h : ∀ (cs : List (Nat × Nat × Bool)) (m : DelimMap), MapOk text m →
      MapOk text
        (cs.foldl (fun m c => commitEvents m (commentScan text c.1 c.2.1 c.2.2).2) m) by
    exact h calls []
      ⟨fun k v hkv => by simp [mapLookup] at hkv,
       fun a ha => by simp [mapLookup] at ha⟩
  intro cs
  induction cs with
  | nil => intro m h; exact h
  | cons c rest ih =>
    intro m h
    exact ih _ (MapOk_commit text m c.1 c.2.1 c.2.2 h)

/-- No text-consistent event can sit strictly between a marker opener and
its window colon. -/
theorem no_event_in_window (text : Text) (a c b : Nat)
    (v : BlockCommentDelimiterType) (hw : OpenTsWindow text a c)
    (hok : EventOk text (b, v)) (h1 : a < b) (h2 : b < c) : False := by
  obtain ⟨hsl, hast, hle, hsp, hcol⟩ := hw
  have hchar : charCodeAt text b = some CharacterCodes.asterisk ∨
      charCodeAt text b = some CharacterCodes.slash ∨
      charCodeAt text b = some CharacterCodes.colon := by
    cases v with
    | close => exact Or.inl hok.1
    | openNonTsComment => exact Or.inr (Or.inl hok.1)
    | openTsCommentWithoutColons => exact Or.inr (Or.inl hok.1)
    | singleColonForOpenTsComment => exact Or.inr (Or.inr hok.1)
    | doubleColonForOpenTsComment => exact Or.inr (Or.inr hok.1)
  by_cases hb : b = a + 1
  · subst hb
    rcases hchar with hch | hch | hch
    · -- a close `*/` at `a + 1` would need `/` at `a + 2`, which is a space
      -- or the colon
      cases v with
      | close =>
        have hsl2 := hok.2
        by_cases hc2 : a + 1 + 1 = c
        · rw [hc2] at hsl2
          rw [hsl2] at hcol
          simp only [Option.some.injEq] at hcol
          exact absurd hcol (by decide)
        · have hspc := hsp (a + 1 + 1) (by omega) (by omega)
          rw [hspc] at hsl2
          simp only [Option.some.injEq] at hsl2
          exact absurd hsl2 (by decide)
      | openNonTsComment =>
        rw [hok.1] at hast
        simp only [Option.some.injEq] at hast
        exact absurd hast (by decide)
      | openTsCommentWithoutColons =>
        rw [hok.1] at hast
        simp only [Option.some.injEq] at hast
        exact absurd hast (by decide)
      | singleColonForOpenTsComment =>
        rw [hok.1] at hast
        simp only [Option.some.injEq] at hast
        exact absurd hast (by decide)
      | doubleColonForOpenTsComment =>
        rw [hok.1] at hast
        simp only [Option.some.injEq] at hast
        exact absurd hast (by decide)
    · rw [hch] at hast
      simp only [Option.some.injEq] at hast
      exact absurd hast (by decide)
    · rw [hch] at hast
      simp only [Option.some.injEq] at hast
      exact absurd hast (by decide)
  · have hbs : charCodeAt text b = some CharacterCodes.space :=
      hsp b (by omega) h2
    rcases hchar with hch | hch | hch <;>
      (rw [hch] at hbs
       simp only [Option.some.injEq] at hbs
       exact absurd hbs (by decide))

/-- The sorted delimiter list of a key-distinct map: strictly increasing
keys and membership equivalent to map membership. -/
theorem sortedDelims_spec (m : DelimMap) (hnd : m.Pairwise (fun a b => a.1 ≠ b.1)) :
    (sortedDelims m).Pairwise (fun a b => a.1 < b.1) ∧
    (∀ e : DelimEvent, e ∈ sortedDelims m ↔ e ∈ m) := by
  have hperm : List.Perm (sortedDelims m) m := List.perm_insertionSort _ m
  have hsorted : (sortedDelims m).Pairwise (fun a b => a.1 ≤ b.1) :=
    List.sorted_insertionSort _ m
  have hne : (sortedDelims m).Pairwise (fun a b => a.1 ≠ b.1) :=
    (hperm.pairwise_iff (fun h => h.symm)).mpr hnd
  constructor
  · exact (hsorted.and hne).imp (fun h => lt_of_le_of_ne h.1 h.2)
  · exact fun e => hperm.mem_iff

/-- Processing a sorted, key-distinct, window-consistent event list emits
only fully populated spans. -/
theorem buildSpans_populated (L : List DelimEvent) :
    ∀ (cur : TsCommentPosition) (inTS : Bool),
      L.Pairwise (fun a b => a.1 < b.1) →
      (∀ a, (a, BlockCommentDelimiterType.openTsCommentWithoutColons) ∈ L →
        ∃ c, a < c ∧
          (((c, BlockCommentDelimiterType.singleColonForOpenTsComment) ∈ L) ∨
           ((c, BlockCommentDelimiterType.doubleColonForOpenTsComment) ∈ L)) ∧
          (∀ e ∈ L, a < e.1 → c ≤ e.1)) →
      (inTS = true → cur.openPos.isSome ∧
        (cur.colonPos.isSome ∧ cur.colonCount.isSome ∨
          (∃ c ct, L.head? = some (c, ct) ∧
            (ct = BlockCommentDelimiterType.singleColonForOpenTsComment ∨
             ct = BlockCommentDelimiterType.doubleColonForOpenTsComment)))) →
      ∀ s ∈ buildSpans L cur inTS, SpanPopulated s := by
  induction L with
  | nil => intro cur inTS _ _ _ s hs; simp [buildSpans] at hs
  | cons e rest ih =>
    intro cur inTS hpw hpartner hinv s hs
    obtain ⟨p, d⟩ := e
    obtain ⟨hhead, htail⟩ := List.pairwise_cons.mp hpw
    have hpartner' : ∀ a,
        (a, BlockCommentDelimiterType.openTsCommentWithoutColons) ∈ rest →
        ∃ c, a < c ∧
          (((c, BlockCommentDelimiterType.singleColonForOpenTsComment) ∈ rest) ∨
           ((c, BlockCommentDelimiterType.doubleColonForOpenTsComment) ∈ rest)) ∧
          (∀ e' ∈ rest, a < e'.1 → c ≤ e'.1) := by
      intro a ha
      obtain ⟨c, hac, hcol, hmin⟩ := hpartner a (List.mem_cons_of_mem _ ha)
      have hpa : p < a := hhead _ ha
      refine ⟨c, hac, ?_, fun e' he' ha' => hmin e' (List.mem_cons_of_mem _ he') ha'⟩
      rcases hcol with hcol | hcol
      · rcases List.mem_cons.mp hcol with hcol | hcol
        · exact absurd (congrArg Prod.fst hcol) (by simp only; omega)
        · exact Or.inl hcol
      · rcases List.mem_cons.mp hcol with hcol | hcol
        · exact absurd (congrArg Prod.fst hcol) (by simp only; omega)
        · exact Or.inr hcol
    simp only [buildSpans] at hs
    by_cases b1 : ¬ inTS = true ∧ d = BlockCommentDelimiterType.openTsCommentWithoutColons
    · rw [if_pos b1] at hs
      obtain ⟨c, hac, hcol, hmin⟩ := hpartner p (by rw [b1.2]; exact List.mem_cons_self _ _)
      have hcrest : ((c, BlockCommentDelimiterType.singleColonForOpenTsComment) ∈ rest ∧
            (rest.head? = some (c, BlockCommentDelimiterType.singleColonForOpenTsComment))) ∨
          ((c, BlockCommentDelimiterType.doubleColonForOpenTsComment) ∈ rest ∧
            (rest.head? = some (c, BlockCommentDelimiterType.doubleColonForOpenTsComment))) := by
        have hhd : ∀ ct, (c, ct) ∈ rest → rest.head? = some (c, ct) := by
          intro ct hm
          match rest, hm with
          | e0 :: rest', hm =>
            rcases List.mem_cons.mp hm with hm | hm
            · rw [← hm]; rfl
            · have h1 : e0.1 < c := (List.pairwise_cons.mp htail).1 _ hm
              have h2 : c ≤ e0.1 :=
                hmin e0 (List.mem_cons_of_mem _ (List.mem_cons_self _ _))
                  (hhead e0 (List.mem_cons_self _ _))
              omega
        rcases hcol with hcol | hcol
        · rcases List.mem_cons.mp hcol with hcol | hcol
          · exact absurd (congrArg Prod.fst hcol) (by simp only; omega)
          · exact Or.inl ⟨hcol, hhd _ hcol⟩
        · rcases List.mem_cons.mp hcol with hcol | hcol
          · exact absurd (congrArg Prod.fst hcol) (by simp only; omega)
          · exact Or.inr ⟨hcol, hhd _ hcol⟩
      refine ih _ true htail hpartner' ?_ s hs
      intro _
      refine ⟨by simp, ?_⟩
      right
      rcases hcrest with ⟨_, hhd⟩ | ⟨_, hhd⟩
      · exact ⟨c, _, hhd, Or.inl rfl⟩
      · exact ⟨c, _, hhd, Or.inr rfl⟩
    · rw [if_neg b1] at hs
      by_cases b2 : inTS = true ∧ d = BlockCommentDelimiterType.singleColonForOpenTsComment
      · rw [if_pos b2] at hs
        refine ih _ inTS htail hpartner' ?_ s hs
        intro hts
        exact ⟨(hinv hts).1, Or.inl ⟨by simp, by simp⟩⟩
      · rw [if_neg b2] at hs
        by_cases b3 : inTS = true ∧ d = BlockCommentDelimiterType.doubleColonForOpenTsComment
        · rw [if_pos b3] at hs
          refine ih _ inTS htail hpartner' ?_ s hs
          intro hts
          exact ⟨(hinv hts).1, Or.inl ⟨by simp, by simp⟩⟩
        · rw [if_neg b3] at hs
          by_cases b4 : inTS = true ∧ d = BlockCommentDelimiterType.openNonTsComment
          · rw [if_pos b4] at hs
            refine ih _ inTS htail hpartner' ?_ s hs
            intro hts
            obtain ⟨ho, hdisj⟩ := hinv hts
            refine ⟨by simpa using ho, ?_⟩
            rcases hdisj with hdisj | hdisj
            · exact Or.inl ⟨by simpa using hdisj.1, by simpa using hdisj.2⟩
            · obtain ⟨c, ct, hhd, hct⟩ := hdisj
              have : (p, d) = (c, ct) := by
                have := hhd
                simp only [List.head?_cons, Option.some.injEq] at this
                exact this
              have hdct : d = ct := (Prod.mk.injEq .. ▸ this).2
              rcases hct with hct | hct <;> rw [hct] at hdct <;>
                exact absurd (b4.2.symm.trans hdct) (by decide)
          · rw [if_neg b4] at hs
            by_cases b5 : inTS = true ∧ d = BlockCommentDelimiterType.close
            · rw [if_pos b5] at hs
              rcases List.mem_cons.mp hs with hs | hs
              · obtain ⟨ho, hdisj⟩ := hinv b5.1
                have hcp : cur.colonPos.isSome ∧ cur.colonCount.isSome := by
                  rcases hdisj with hdisj | hdisj
                  · exact hdisj
                  · obtain ⟨c, ct, hhd, hct⟩ := hdisj
                    have : (p, d) = (c, ct) := by
                      simp only [List.head?_cons, Option.some.injEq] at hhd
                      exact hhd
                    have hdct : d = ct := (Prod.mk.injEq .. ▸ this).2
                    rcases hct with hct | hct <;> rw [hct] at hdct <;>
                      exact absurd (b5.2.symm.trans hdct) (by decide)
                rw [hs]
                exact ⟨by simpa using ho, by simpa using hcp.1,
                  by simpa using hcp.2, by simp⟩
              · exact ih _ false htail hpartner' (by simp) s hs
            · rw [if_neg b5] at hs
              refine ih _ inTS htail hpartner' ?_ s hs
              intro hts
              obtain ⟨ho, hdisj⟩ := hinv hts
              refine ⟨ho, ?_⟩
              rcases hdisj with hdisj | hdisj
              · exact Or.inl hdisj
              · obtain ⟨c, ct, hhd, hct⟩ := hdisj
                have heq : (p, d) = (c, ct) := by
                  simp only [List.head?_cons, Option.some.injEq] at hhd
                  exact hhd
                have hdct : d = ct := (Prod.mk.injEq .. ▸ heq).2
                rcases hct with hct | hct
                · rw [hct] at hdct
                  exact absurd ⟨hts, hdct⟩ b2
                · rw [hct] at hdct
                  exact absurd ⟨hts, hdct⟩ b3

/-- C10: in every delimiter map reachable by a session of `commentScan`
calls, each `openTsCommentWithoutColons` entry is followed, at a strictly
later offset and before any `close` of its region, by a
`singleColonForOpenTsComment` or `doubleColonForOpenTsComment` entry; and
consequently every record returned by `getTSCommentPositions()` is fully
populated — `open`, `colonPos`, `colonCount` and `close` are all defined,
so the unchecked cast from the partial record is safe. -/
theorem delimMap_spans_populated (text : Text) (calls : List (Nat × Nat × Bool)) :
    (∀ a, mapLookup (buildMap text calls) a =
        some BlockCommentDelimiterType.openTsCommentWithoutColons →
      ∃ c, a < c ∧
        (mapLookup (buildMap text calls) c =
            some BlockCommentDelimiterType.singleColonForOpenTsComment ∨
         mapLookup (buildMap text calls) c =
            some BlockCommentDelimiterType.doubleColonForOpenTsComment) ∧
        (∀ b, a < b → b ≤ c →
          mapLookup (buildMap text calls) b ≠ some BlockCommentDelimiterType.close)) ∧
    (∀ s ∈ getTSCommentPositions (buildMap text calls), SpanPopulated s) := by
  have hMapOk := MapOk_buildMap text calls
  have hnd := buildMap_keys_pairwise text calls
  constructor
  · intro a ha
    obtain ⟨c, hw, hc⟩ := hMapOk.2 a ha
    refine ⟨c, by have := hw.2.2.1; omega, hc, ?_⟩
    intro b hb1 hb2 hcl
    have hok := hMapOk.1 b BlockCommentDelimiterType.close hcl
    by_cases hbc : b = c
    · subst hbc
      have h1 : charCodeAt text b = some CharacterCodes.asterisk := hok.1
      have h2 : charCodeAt text b = some CharacterCodes.colon := hw.2.2.2.2
      rw [h1] at h2
      simp only [Option.some.injEq] at h2
      exact absurd h2 (by decide)
    · exact no_event_in_window text a c b BlockCommentDelimiterType.close hw hok hb1
        (by omega)
  · obtain ⟨hLpw, hLmem⟩ := sortedDelims_spec (buildMap text calls) hnd
    have hpartner : ∀ a,
        (a, BlockCommentDelimiterType.openTsCommentWithoutColons) ∈
          sortedDelims (buildMap text calls) →
        ∃ c, a < c ∧
          (((c, BlockCommentDelimiterType.singleColonForOpenTsComment) ∈
              sortedDelims (buildMap text calls)) ∨
           ((c, BlockCommentDelimiterType.doubleColonForOpenTsComment) ∈
              sortedDelims (buildMap text calls))) ∧
          (∀ e ∈ sortedDelims (buildMap text calls), a < e.1 → c ≤ e.1) := by
      intro a haL
      have ham : (a, BlockCommentDelimiterType.openTsCommentWithoutColons) ∈
          buildMap text calls := (hLmem _).mp haL
      have hal : mapLookup (buildMap text calls) a =
          some BlockCommentDelimiterType.openTsCommentWithoutColons :=
        mapLookup_of_mem_nodup _ hnd _ _ ham
      obtain ⟨c, hw, hc⟩ := hMapOk.2 a hal
      refine ⟨c, by have := hw.2.2.1; omega, ?_, ?_⟩
      · rcases hc with hc | hc
        · exact Or.inl ((hLmem _).mpr (mem_of_mapLookup _ _ _ hc))
        · exact Or.inr ((hLmem _).mpr (mem_of_mapLookup _ _ _ hc))
      · intro e he hae
        by_contra hec
        push_neg at hec
        have hem : (e.1, e.2) ∈ buildMap text calls := (hLmem _).mp he
        have hel : mapLookup (buildMap text calls) e.1 = some e.2 :=
          mapLookup_of_mem_nodup _ hnd _ _ hem
        have hok := hMapOk.1 e.1 e.2 hel
        exact no_event_in_window text a c e.1 e.2 hw hok hae (by omega)
    exact buildSpans_populated (sortedDelims (buildMap text calls))
      emptyTsCommentPosition false hLpw hpartner (by simp)

/-- Witness for C10 at a concrete session over `/*:: x*/`. -/
theorem delimMap_spans_populated_witness :
    mapLookup (buildMap exDoubleX [(0, 8, true), (5, 8, false)]) 0 =
      some BlockCommentDelimiterType.openTsCommentWithoutColons ∧
    (∃ c, 0 < c ∧
      (mapLookup (buildMap exDoubleX [(0, 8, true), (5, 8, false)]) c =
          some BlockCommentDelimiterType.singleColonForOpenTsComment ∨
       mapLookup (buildMap exDoubleX [(0, 8, true), (5, 8, false)]) c =
          some BlockCommentDelimiterType.doubleColonForOpenTsComment) ∧
      (∀ b, 0 < b → b ≤ c →
        mapLookup (buildMap exDoubleX [(0, 8, true), (5, 8, false)]) b ≠
          some BlockCommentDelimiterType.close)) ∧
    ({ openPos := some 0, colonPos := some 2, closePos := some 6,
        colonCount := some 2, containedInnerOpeningBlockComment := false } :
        TsCommentPosition) ∈
      getTSCommentPositions (buildMap exDoubleX [(0, 8, true), (5, 8, false)]) ∧
    SpanPopulated
      ({ openPos := some 0, colonPos := some 2, closePos := some 6,
          colonCount := some 2, containedInnerOpeningBlockComment := false } :
          TsCommentPosition) :=
  ⟨by decide,
   (delimMap_spans_populated exDoubleX [(0, 8, true), (5, 8, false)]).1 0 (by decide),
   by decide,
   (delimMap_spans_populated exDoubleX [(0, 8, true), (5, 8, false)]).2 _ (by decide)⟩

/-! ## The range classifier sweep (C1) -/

/-- `commentScan` never stops before its start offset. -/
theorem commentScan_start_le (text : Text) (start end_ : Nat) (stop : Bool) :
    start ≤ (commentScan text start end_ stop).1 := by
  by_cases h : start ≤ end_
  · obtain ⟨sp, evs, heq, hcs, hge, hstop⟩ := commentScan_terminates text start end_ stop h
    rw [hcs]
    exact hge
  · rw [commentScan_of_le text start end_ stop (by omega)]

/-- Unfolding equation of `mergeTsRanges` for a singleton list. -/
theorem mergeTsRanges_one (t : SyntaxRange) (e : Nat) :
    mergeTsRanges [t] e = (max e t.end_, []) := rfl

/-- Unfolding equation of `mergeTsRanges` for a list of two or more ranges. -/
theorem mergeTsRanges_two (t t2 : SyntaxRange) (rest : List SyntaxRange) (e : Nat) :
    mergeTsRanges (t :: t2 :: rest) e =
      if t2.start > max e t.end_ then (max e t.end_, t2 :: rest)
      else mergeTsRanges (t2 :: rest) (max e t.end_) := rfl

/-- Specification of the merge loop of `getSyntaxRanges`: it consumes a
nonempty prefix of the sorted range list, the merged end dominates the
accumulator and everything below it is below the accumulator or inside a
consumed range, the remaining ranges start strictly past the merged end,
and the merged end is the accumulator or the end of some consumed range. -/
theorem mergeTsRanges_spec :
    ∀ (L : List SyntaxRange) (e0 : Nat), L ≠ [] →
      L.Pairwise (fun a b => a.start ≤ b.start) →
      (∀ t0 ∈ L.head?, t0.start ≤ e0) →
      ∃ consumed,
        L = consumed ++ (mergeTsRanges L e0).2 ∧ consumed ≠ [] ∧
        e0 ≤ (mergeTsRanges L e0).1 ∧
        (∀ t' ∈ (mergeTsRanges L e0).2, (mergeTsRanges L e0).1 < t'.start) ∧
        (∀ p, p < (mergeTsRanges L e0).1 →
          p < e0 ∨ ∃ c ∈ consumed, c.start ≤ p ∧ p < c.end_) ∧
        ((mergeTsRanges L e0).1 = e0 ∨ ∃ c ∈ consumed, (mergeTsRanges L e0).1 = c.end_) := by
  intro L
  induction L with
  | nil => intro e0 h; exact absurd rfl h
  | cons t rest ih =>
    intro e0 _ hsort hhead
    have hts : t.start ≤ e0 := hhead t rfl
    match rest with
    | [] =>
      refine ⟨[t], by simp [mergeTsRanges_one], by simp, ?_, ?_, ?_, ?_⟩
      · simp only [mergeTsRanges_one]
        omega
      · intro t' ht'
        simp [mergeTsRanges_one] at ht'
      · intro p hp
        simp only [mergeTsRanges_one] at hp
        by_cases hpe : p < e0
        · exact Or.inl hpe
        · exact Or.inr ⟨t, by simp, by omega, by omega⟩
      · simp only [mergeTsRanges_one]
        rcases max_choice e0 t.end_ with h | h
        · exact Or.inl h
        · exact Or.inr ⟨t, by simp, h⟩
    | t2 :: rest' =>
      by_cases hbreak : t2.start > max e0 t.end_
      · refine ⟨[t], ?_, by simp, ?_, ?_, ?_, ?_⟩
        · rw [mergeTsRanges_two, if_pos hbreak]
          rfl
        · simp only [mergeTsRanges_two, if_pos hbreak]
          omega
        · intro t' ht'
          simp only [mergeTsRanges_two, if_pos hbreak] at ht' ⊢
          rcases List.mem_cons.mp ht' with h | h
          · subst h; exact hbreak
          · have h2 : t2.start ≤ t'.start :=
              (List.pairwise_cons.mp (List.pairwise_cons.mp hsort).2).1 t' h
            omega
        · intro p hp
          simp only [mergeTsRanges_two, if_pos hbreak] at hp
          by_cases hpe : p < e0
          · exact Or.inl hpe
          · exact Or.inr ⟨t, by simp, by omega, by omega⟩
        · simp only [mergeTsRanges_two, if_pos hbreak]
          rcases max_choice e0 t.end_ with h | h
          · exact Or.inl h
          · exact Or.inr ⟨t, by simp, h⟩
      · have hsort' : (t2 :: rest').Pairwise (fun a b => a.start ≤ b.start) :=
          (List.pairwise_cons.mp hsort).2
        have hhead' : ∀ t0 ∈ (t2 :: rest').head?, t0.start ≤ max e0 t.end_ := by
          intro t0 ht0
          simp only [List.head?_cons, Option.mem_def, Option.some.injEq] at ht0
          subst ht0
          omega
        obtain ⟨consumed', heqL, hne', hle', hafter', hcov', hends'⟩ :=
          ih (max e0 t.end_) (by simp) hsort' hhead'
        have hunfold : mergeTsRanges (t :: t2 :: rest') e0 =
            mergeTsRanges (t2 :: rest') (max e0 t.end_) := by
          rw [mergeTsRanges_two, if_neg hbreak]
        refine ⟨t :: consumed', ?_, by simp, by rw [hunfold]; omega, ?_, ?_, ?_⟩
        · rw [hunfold]
          exact congrArg (List.cons t) heqL
        · intro t' ht'
          rw [hunfold] at ht' ⊢
          exact hafter' t' ht'
        · intro p hp
          rw [hunfold] at hp
          rcases hcov' p hp with hcase | ⟨c, hc, hc1, hc2⟩
          · by_cases hpe : p < e0
            · exact Or.inl hpe
            · exact Or.inr ⟨t, List.mem_cons_self .., by omega, by omega⟩
          · exact Or.inr ⟨c, List.mem_cons_of_mem _ hc, hc1, hc2⟩
        · rw [hunfold]
          rcases hends' with h | ⟨c, hc, hcend⟩
          · rcases max_choice e0 t.end_ with h2 | h2
            · exact Or.inl (h.trans h2)
            · exact Or.inr ⟨t, List.mem_cons_self .., h.trans h2⟩
          · exact Or.inr ⟨c, List.mem_cons_of_mem _ hc, hcend⟩

/-- Unfolding: the sweep returns immediately at or past the end. -/
theorem syntaxRangesAux_stop (len fuel pos : Nat) (W T : List SyntaxRange)
    (h : ¬ pos < len) :
    syntaxRangesAux len (fuel + 1) pos W T = some [] := by
  simp only [syntaxRangesAux, if_neg h]

/-- Unfolding: the TS-merge branch of the sweep. -/
theorem syntaxRangesAux_ts (len fuel pos : Nat) (W : List SyntaxRange)
    (t : SyntaxRange) (rest : List SyntaxRange) (hlt : pos < len)
    (hts : t.start = pos) :
    syntaxRangesAux len (fuel + 1) pos W (t :: rest) =
      (syntaxRangesAux len fuel (mergeTsRanges (t :: rest) t.end_).1 W
          (mergeTsRanges (t :: rest) t.end_).2).map
        (fun l => ⟨t.start, (mergeTsRanges (t :: rest) t.end_).1,
          SyntaxRangeType.typeScript⟩ :: l) := by
  simp only [syntaxRangesAux, if_pos hlt, List.head?_cons, Option.map_some']
  rw [if_pos (congrArg some hts)]

/-- Unfolding: the whitespace-skip branch of the sweep. -/
theorem syntaxRangesAux_ws1 (len fuel pos : Nat) (w : SyntaxRange)
    (wsRest T : List SyntaxRange) (hlt : pos < len)
    (h1 : ¬ T.head?.map SyntaxRange.start = some pos)
    (h2 : atOrPast pos (some w.start) = true)
    (h3 : ltInf w.end_ (T.head?.map SyntaxRange.start) = true) :
    syntaxRangesAux len (fuel + 1) pos (w :: wsRest) T =
      syntaxRangesAux len fuel (max pos w.end_) wsRest T := by
  simp only [syntaxRangesAux, if_pos hlt, List.head?_cons, Option.map_some']
  rw [if_neg h1, if_pos h2, if_pos h3]

/-- Unfolding: the jump-to-the-next-TS-range branch of the sweep. -/
theorem syntaxRangesAux_ws2 (len fuel pos : Nat) (w : SyntaxRange)
    (wsRest : List SyntaxRange) (t : SyntaxRange) (rest : List SyntaxRange)
    (hlt : pos < len)
    (h1 : ¬ t.start = pos)
    (h2 : atOrPast pos (some w.start) = true)
    (h3 : ¬ w.end_ < t.start) :
    syntaxRangesAux len (fuel + 1) pos (w :: wsRest) (t :: rest) =
      syntaxRangesAux len fuel t.start (w :: wsRest) (t :: rest) := by
  simp only [syntaxRangesAux, if_pos hlt, List.head?_cons, Option.map_some']
  rw [if_neg (fun hc => h1 (Option.some.inj hc)), if_pos h2,
    if_neg (by simpa [ltInf] using h3)]

/-- Unfolding: the JavaScript-range branch of the sweep. -/
theorem syntaxRangesAux_js (len fuel pos : Nat) (W T : List SyntaxRange)
    (hlt : pos < len)
    (h1 : ¬ T.head?.map SyntaxRange.start = some pos)
    (h2 : ¬ atOrPast pos (W.head?.map SyntaxRange.start) = true) :
    syntaxRangesAux len (fuel + 1) pos W T =
      (syntaxRangesAux len fuel
          (minInf (T.head?.map SyntaxRange.start)
            (minInf (W.head?.map SyntaxRange.start) len)) W T).map
        (fun l => ⟨pos,
          minInf (T.head?.map SyntaxRange.start)
            (minInf (W.head?.map SyntaxRange.start) len),
          SyntaxRangeType.javaScript⟩ :: l) := by
  simp only [syntaxRangesAux, if_pos hlt]
  rw [if_neg h1, if_neg h2]

theorem minInf_le (a : Option Nat) (b : Nat) : minInf a b ≤ b := by
  cases a with
  | none => exact le_refl _
  | some x => exact min_le_right x b

theorem lt_minInf (a : Option Nat) (b pos : Nat) (ha : ∀ x, a = some x → pos < x)
    (hb : pos < b) : pos < minInf a b := by
  cases a with
  | none => exact hb
  | some x => exact lt_min (ha x rfl) hb

theorem minInf_le_some (a b : Nat) : minInf (some a) b ≤ a := min_le_left a b

/-- The invariant-carrying specification of the `getSyntaxRanges` sweep:
from a state whose whitespace list `W` and ts list `T` are sorted, whose
ts ranges are nonempty, start at or after `pos` and are disjoint from
every recorded whitespace range (`Wall`), and where every recorded
whitespace range is still pending (in `W`) or already passed
(`end <= pos`), the sweep completes and emits ranges that start at or
after `pos`, are nonempty, pairwise non-overlapping and sorted, and
together with `Wall` cover every offset of `[pos, len)` exactly once. -/
theorem syntaxRangesAux_spec (len C : Nat) (Wall : List SyntaxRange) :
    ∀ fuel pos W T,
      List.Pairwise (fun a b => a.start ≤ b.start) W →
      List.Pairwise (fun a b => a.start ≤ b.start) T →
      (∀ t ∈ T, t.start < t.end_) →
      (∀ w ∈ Wall, ∀ t ∈ T, w.end_ ≤ t.start ∨ t.end_ ≤ w.start) →
      (∀ w ∈ W, w ∈ Wall) →
      (∀ w ∈ Wall, w ∈ W ∨ w.end_ ≤ pos) →
      (∀ t ∈ T, pos ≤ t.start) →
      (∀ t ∈ T, t.end_ ≤ C) →
      (∀ w ∈ W, w.end_ ≤ C) →
      len ≤ C → pos ≤ C →
      2 * C * T.length + C * W.length + (C - pos) < fuel →
      ∃ l, syntaxRangesAux len fuel pos W T = some l ∧
        (∀ r ∈ l, pos ≤ r.start ∧ r.start < r.end_) ∧
        List.Pairwise (fun a b => a.end_ ≤ b.start) l ∧
        (∀ p, pos ≤ p → p < len → coverageCount l Wall p = 1) := by
  intro fuel
  induction fuel with
  | zero =>
    intro pos W T _ _ _ _ _ _ _ _ _ _ _ hfuel
    omega
  | succ fuel ih =>
    intro pos W T hWs hTs hTne hDisj hWsub hIW hposT hTC hWC hlenC hposC hfuel
    by_cases hlt : pos < len
    case neg =>
      exact ⟨[], syntaxRangesAux_stop len fuel pos W T hlt, by simp,
        List.Pairwise.nil, fun p hp1 hp2 => absurd (lt_of_le_of_lt hp1 hp2) hlt⟩
    case pos =>
    by_cases condTs : T.head?.map SyntaxRange.start = some pos
    · -- TypeScript-merge branch
      obtain ⟨t, rest, rfl⟩ : ∃ t rest, T = t :: rest := by
        cases T with
        | nil => simp at condTs
        | cons a b => exact ⟨a, b, rfl⟩
      have hts : t.start = pos := by simpa using condTs
      have htmem : t ∈ t :: rest := List.mem_cons_self ..
      obtain ⟨Cc, hCc, hCcne, hle, hafter, hcov, hends⟩ :=
        mergeTsRanges_spec (t :: rest) t.end_ (by simp) hTs
          (by intro t0 ht0
              simp only [List.head?_cons, Option.mem_def, Option.some.injEq] at ht0
              subst ht0
              exact le_of_lt (hTne t htmem))
      have hCcsub : ∀ c ∈ Cc, c ∈ t :: rest := by
        intro c hc
        rw [hCc]
        exact List.mem_append_left _ hc
      have hT'sub : ∀ t' ∈ (mergeTsRanges (t :: rest) t.end_).2, t' ∈ t :: rest := by
        intro t' ht'
        rw [hCc]
        exact List.mem_append_right _ ht'
      have hpe : pos < (mergeTsRanges (t :: rest) t.end_).1 :=
        lt_of_lt_of_le (hts ▸ hTne t htmem) hle
      have heC : (mergeTsRanges (t :: rest) t.end_).1 ≤ C := by
        rcases hends with h | ⟨c, hc, hcend⟩
        · rw [h]; exact hTC t htmem
        · rw [hcend]; exact hTC c (hCcsub c hc)
      have hT'sorted : List.Pairwise (fun a b => a.start ≤ b.start)
          (mergeTsRanges (t :: rest) t.end_).2 :=
        (List.pairwise_append.mp (hCc ▸ hTs)).2.1
      have hfuel' : 2 * C * (mergeTsRanges (t :: rest) t.end_).2.length +
          C * W.length + (C - (mergeTsRanges (t :: rest) t.end_).1) < fuel := by
        have hCc1 : 1 ≤ Cc.length := List.length_pos.mpr hCcne
        have hTlen : (t :: rest).length =
            Cc.length + (mergeTsRanges (t :: rest) t.end_).2.length := by
          conv_lhs => rw [hCc]
          exact List.length_append _ _
        have hmul : 2 * C * (t :: rest).length =
            2 * C * Cc.length + 2 * C * (mergeTsRanges (t :: rest) t.end_).2.length := by
          rw [hTlen, Nat.mul_add]
        have hmul2 : 2 * C * 1 ≤ 2 * C * Cc.length := Nat.mul_le_mul_left _ hCc1
        rw [hmul] at hfuel
        generalize 2 * C * (mergeTsRanges (t :: rest) t.end_).2.length = A at hfuel ⊢
        generalize C * W.length = B at hfuel ⊢
        generalize 2 * C * Cc.length = D at hfuel hmul2
        omega
      obtain ⟨l', hl', hB', hP', hC'⟩ :=
        ih (mergeTsRanges (t :: rest) t.end_).1 W (mergeTsRanges (t :: rest) t.end_).2
          hWs hT'sorted
          (fun t' ht' => hTne t' (hT'sub t' ht'))
          (fun w hw t' ht' => hDisj w hw t' (hT'sub t' ht'))
          hWsub
          (fun w hw => (hIW w hw).imp id (fun h => le_trans h (le_of_lt hpe)))
          (fun t' ht' => le_of_lt (hafter t' ht'))
          (fun t' ht' => hTC t' (hT'sub t' ht'))
          hWC hlenC heC hfuel'
      have hWallfree : ∀ p, pos ≤ p → p < (mergeTsRanges (t :: rest) t.end_).1 →
          Wall.any (inSyntaxRange p) = false := by
        intro p hp1 hp2
        rw [List.any_eq_false]
        intro w' hw'
        simp only [inSyntaxRange, decide_eq_true_eq, not_and, not_lt]
        intro hc1
        by_contra hc2
        push_neg at hc2
        rcases hcov p hp2 with hcase | ⟨c, hc, hcA, hcB⟩
        · rcases hDisj w' hw' t htmem with h | h <;> omega
        · rcases hDisj w' hw' c (hCcsub c hc) with h | h <;> omega
      refine ⟨⟨t.start, (mergeTsRanges (t :: rest) t.end_).1,
          SyntaxRangeType.typeScript⟩ :: l',
        by rw [syntaxRangesAux_ts len fuel pos W t rest hlt hts, hl']; rfl,
        ?_, ?_, ?_⟩
      · intro r hr
        rcases List.mem_cons.mp hr with rfl | hr
        · exact ⟨hts.ge, hts ▸ hpe⟩
        · have := hB' r hr
          omega
      · exact List.pairwise_cons.mpr ⟨fun r hr => (hB' r hr).1, hP'⟩
      · intro p hp1 hp2
        by_cases hcase : p < (mergeTsRanges (t :: rest) t.end_).1
        · have hin : inSyntaxRange p ⟨t.start, (mergeTsRanges (t :: rest) t.end_).1,
              SyntaxRangeType.typeScript⟩ = true := by
            simp only [inSyntaxRange, decide_eq_true_eq]
            exact ⟨hts ▸ hp1, hcase⟩
          have hcount : List.countP (inSyntaxRange p) l' = 0 :=
            List.countP_eq_zero.mpr (fun r' hr' => by
              simp only [inSyntaxRange, decide_eq_true_eq, not_and, not_lt]
              intro hc1
              exact absurd (lt_of_le_of_lt (le_trans (hB' r' hr').1 hc1) hcase)
                (lt_irrefl _))
          unfold coverageCount
          rw [List.countP_cons, hcount, hin, hWallfree p hp1 hcase]
          rfl
        · have hin : inSyntaxRange p ⟨t.start, (mergeTsRanges (t :: rest) t.end_).1,
              SyntaxRangeType.typeScript⟩ = false := by
            simp only [inSyntaxRange, decide_eq_false_iff_not, not_and, not_lt]
            intro _
            omega
          have := hC' p (by omega) hp2
          unfold coverageCount at this ⊢
          rw [List.countP_cons, hin]
          simpa using this
    · by_cases condWs : atOrPast pos (W.head?.map SyntaxRange.start) = true
      · -- pos is inside or past the next whitespace range
        obtain ⟨w, wsRest, rfl⟩ : ∃ w wsRest, W = w :: wsRest := by
          cases W with
          | nil => simp [atOrPast] at condWs
          | cons a b => exact ⟨a, b, rfl⟩
        have hwle : w.start ≤ pos := by simpa [atOrPast] using condWs
        have hwmem : w ∈ w :: wsRest := List.mem_cons_self ..
        by_cases hlti : ltInf w.end_ (T.head?.map SyntaxRange.start) = true
        · -- skip the whitespace range
          have hwT : ∀ t' ∈ T, w.end_ ≤ t'.start := by
            cases T with
            | nil => intro t' ht'; cases ht'
            | cons t0 T' =>
              intro t' ht'
              have h0 : w.end_ < t0.start := by simpa [ltInf] using hlti
              rcases List.mem_cons.mp ht' with rfl | h
              · omega
              · have := (List.pairwise_cons.mp hTs).1 t' h
                omega
          have hfuel' : 2 * C * T.length + C * wsRest.length +
              (C - max pos w.end_) < fuel := by
            have hWlen : C * (w :: wsRest).length = C * wsRest.length + C := by
              rw [List.length_cons, Nat.mul_succ]
            rw [hWlen] at hfuel
            have hC1 : 1 ≤ C := by omega
            generalize 2 * C * T.length = A at hfuel ⊢
            generalize C * wsRest.length = B at hfuel ⊢
            have hmax : pos ≤ max pos w.end_ := le_max_left _ _
            omega
          obtain ⟨l', hl', hB', hP', hC'⟩ :=
            ih (max pos w.end_) wsRest T
              (List.pairwise_cons.mp hWs).2 hTs hTne hDisj
              (fun w' hw' => hWsub w' (List.mem_cons_of_mem _ hw'))
              (by intro w' hw'
                  rcases hIW w' hw' with h | h
                  · rcases List.mem_cons.mp h with rfl | h
                    · exact Or.inr (le_max_right _ _)
                    · exact Or.inl h
                  · exact Or.inr (le_trans h (le_max_left _ _)))
              (fun t' ht' => max_le (hposT t' ht') (hwT t' ht'))
              hTC
              (fun w' hw' => hWC w' (List.mem_cons_of_mem _ hw'))
              hlenC
              (max_le hposC (hWC w hwmem))
              hfuel'
          refine ⟨l',
            by rw [syntaxRangesAux_ws1 len fuel pos w wsRest T hlt condTs condWs hlti,
              hl'],
            fun r hr => ⟨le_trans (le_max_left _ _) (hB' r hr).1, (hB' r hr).2⟩,
            hP', ?_⟩
          intro p hp1 hp2
          by_cases hcase : p < max pos w.end_
          · have hcount : List.countP (inSyntaxRange p) l' = 0 :=
              List.countP_eq_zero.mpr (fun r' hr' => by
                simp only [inSyntaxRange, decide_eq_true_eq, not_and, not_lt]
                intro hc1
                exact absurd (lt_of_le_of_lt (le_trans (hB' r' hr').1 hc1) hcase)
                  (lt_irrefl _))
            have hwin : Wall.any (inSyntaxRange p) = true := by
              rw [List.any_eq_true]
              refine ⟨w, hWsub w hwmem, ?_⟩
              simp only [inSyntaxRange, decide_eq_true_eq]
              constructor
              · omega
              · rcases max_choice pos w.end_ with h | h <;> omega
            unfold coverageCount
            rw [hcount, hwin]
            rfl
          · exact hC' p (by omega) hp2
        · -- jump to the start of the next TS range
          obtain ⟨t, rest, rfl⟩ : ∃ t rest, T = t :: rest := by
            cases T with
            | nil => simp [ltInf] at hlti
            | cons a b => exact ⟨a, b, rfl⟩
          have htw : t.start ≤ w.end_ := by
            by_contra hc
            exact hlti (by simpa [ltInf] using Nat.lt_of_not_le hc)
          have htmem : t ∈ t :: rest := List.mem_cons_self ..
          have htpos : pos < t.start := by
            have h1 : pos ≤ t.start := hposT t htmem
            have h2 : ¬ t.start = pos := fun h => condTs (by simp [h])
            omega
          have htC : t.start ≤ C := le_trans (le_of_lt (hTne t htmem)) (hTC t htmem)
          have hfuel' : 2 * C * (t :: rest).length + C * (w :: wsRest).length +
              (C - t.start) < fuel := by
            generalize 2 * C * (t :: rest).length = A at hfuel ⊢
            generalize C * (w :: wsRest).length = B at hfuel ⊢
            omega
          obtain ⟨l', hl', hB', hP', hC'⟩ :=
            ih t.start (w :: wsRest) (t :: rest)
              hWs hTs hTne hDisj hWsub
              (fun w' hw' => (hIW w' hw').imp id
                (fun h => le_trans h (le_of_lt htpos)))
              (by intro t' ht'
                  rcases List.mem_cons.mp ht' with rfl | h
                  · exact le_refl _
                  · exact (List.pairwise_cons.mp hTs).1 t' h)
              hTC hWC hlenC htC hfuel'
          refine ⟨l',
            by rw [syntaxRangesAux_ws2 len fuel pos w wsRest t rest hlt
                (fun h => condTs (by simp [h])) condWs (by omega), hl'],
            fun r hr => ⟨le_trans (le_of_lt htpos) (hB' r hr).1, (hB' r hr).2⟩,
            hP', ?_⟩
          intro p hp1 hp2
          by_cases hcase : p < t.start
          · have hcount : List.countP (inSyntaxRange p) l' = 0 :=
              List.countP_eq_zero.mpr (fun r' hr' => by
                simp only [inSyntaxRange, decide_eq_true_eq, not_and, not_lt]
                intro hc1
                exact absurd (lt_of_le_of_lt (le_trans (hB' r' hr').1 hc1) hcase)
                  (lt_irrefl _))
            have hwin : Wall.any (inSyntaxRange p) = true := by
              rw [List.any_eq_true]
              refine ⟨w, hWsub w hwmem, ?_⟩
              simp only [inSyntaxRange, decide_eq_true_eq]
              omega
            unfold coverageCount
            rw [hcount, hwin]
            rfl
          · exact hC' p (by omega) hp2
      · -- JavaScript-range branch
        have hjs := syntaxRangesAux_js len fuel pos W T hlt condTs condWs
        have hpe : pos < minInf (T.head?.map SyntaxRange.start)
            (minInf (W.head?.map SyntaxRange.start) len) := by
          refine lt_minInf _ _ _ ?_ (lt_minInf _ _ _ ?_ hlt)
          · intro x hx
            cases T with
            | nil => simp at hx
            | cons t0 T' =>
              simp only [List.head?_cons, Option.map_some', Option.some.injEq] at hx
              subst hx
              have h1 : pos ≤ t0.start := hposT t0 (List.mem_cons_self ..)
              have h2 : ¬ t0.start = pos := fun h => condTs (by simp [h])
              omega
          · intro x hx
            cases W with
            | nil => simp at hx
            | cons w0 W' =>
              simp only [List.head?_cons, Option.map_some', Option.some.injEq] at hx
              subst hx
              by_contra hc
              exact condWs (by simp [atOrPast]; omega)
        have heT : ∀ t' ∈ T, minInf (T.head?.map SyntaxRange.start)
            (minInf (W.head?.map SyntaxRange.start) len) ≤ t'.start := by
          cases T with
          | nil => intro t' ht'; cases ht'
          | cons t0 T' =>
            intro t' ht'
            have h1 : minInf ((t0 :: T').head?.map SyntaxRange.start)
                (minInf (W.head?.map SyntaxRange.start) len) ≤ t0.start := by
              simp only [List.head?_cons, Option.map_some']
              exact minInf_le_some _ _
            rcases List.mem_cons.mp ht' with rfl | h
            · exact h1
            · exact le_trans h1 ((List.pairwise_cons.mp hTs).1 t' h)
        have helen : minInf (T.head?.map SyntaxRange.start)
            (minInf (W.head?.map SyntaxRange.start) len) ≤ len :=
          le_trans (minInf_le _ _) (minInf_le _ _)
        have heW : ∀ w' ∈ W, minInf (T.head?.map SyntaxRange.start)
            (minInf (W.head?.map SyntaxRange.start) len) ≤ w'.start := by
          cases W with
          | nil => intro w' hw'; cases hw'
          | cons w0 W' =>
            intro w' hw'
            have h1 : minInf ((w0 :: W').head?.map SyntaxRange.start) len ≤ w0.start := by
              simp only [List.head?_cons, Option.map_some']
              exact minInf_le_some _ _
            have h2 : minInf (T.head?.map SyntaxRange.start)
                (minInf ((w0 :: W').head?.map SyntaxRange.start) len) ≤ w0.start :=
              le_trans (minInf_le _ _) h1
            rcases List.mem_cons.mp hw' with rfl | h
            · exact h2
            · exact le_trans h2 ((List.pairwise_cons.mp hWs).1 w' h)
        have hfuel' : 2 * C * T.length + C * W.length +
            (C - minInf (T.head?.map SyntaxRange.start)
              (minInf (W.head?.map SyntaxRange.start) len)) < fuel := by
          generalize 2 * C * T.length = A at hfuel ⊢
          generalize C * W.length = B at hfuel ⊢
          omega
        obtain ⟨l', hl', hB', hP', hC'⟩ :=
          ih (minInf (T.head?.map SyntaxRange.start)
              (minInf (W.head?.map SyntaxRange.start) len)) W T
            hWs hTs hTne hDisj hWsub
            (fun w' hw' => (hIW w' hw').imp id
              (fun h => le_trans h (le_of_lt hpe)))
            heT hTC hWC hlenC (le_trans helen hlenC) hfuel'
        refine ⟨⟨pos, minInf (T.head?.map SyntaxRange.start)
            (minInf (W.head?.map SyntaxRange.start) len),
            SyntaxRangeType.javaScript⟩ :: l',
          by rw [hjs, hl']; rfl, ?_, ?_, ?_⟩
        · intro r hr
          rcases List.mem_cons.mp hr with rfl | hr
          · exact ⟨le_refl _, hpe⟩
          · have := hB' r hr
            omega
        · exact List.pairwise_cons.mpr ⟨fun r hr => (hB' r hr).1, hP'⟩
        · intro p hp1 hp2
          by_cases hcase : p < minInf (T.head?.map SyntaxRange.start)
              (minInf (W.head?.map SyntaxRange.start) len)
          · have hin : inSyntaxRange p ⟨pos, minInf (T.head?.map SyntaxRange.start)
                (minInf (W.head?.map SyntaxRange.start) len),
                SyntaxRangeType.javaScript⟩ = true := by
              simp only [inSyntaxRange, decide_eq_true_eq]
              exact ⟨hp1, hcase⟩
            have hcount : List.countP (inSyntaxRange p) l' = 0 :=
              List.countP_eq_zero.mpr (fun r' hr' => by
                simp only [inSyntaxRange, decide_eq_true_eq, not_and, not_lt]
                intro hc1
                exact absurd (lt_of_le_of_lt (le_trans (hB' r' hr').1 hc1) hcase)
                  (lt_irrefl _))
            have hwfree : Wall.any (inSyntaxRange p) = false := by
              rw [List.any_eq_false]
              intro w' hw'
              simp only [inSyntaxRange, decide_eq_true_eq, not_and, not_lt]
              intro hc1
              rcases hIW w' hw' with h | h
              · have := heW w' h
                omega
              · omega
            unfold coverageCount
            rw [List.countP_cons, hcount, hin, hwfree]
            rfl
          · have hin : inSyntaxRange p ⟨pos, minInf (T.head?.map SyntaxRange.start)
                (minInf (W.head?.map SyntaxRange.start) len),
                SyntaxRangeType.javaScript⟩ = false := by
              simp only [inSyntaxRange, decide_eq_false_iff_not, not_and, not_lt]
              intro _
              omega
            have := hC' p (by omega) hp2
            unfold coverageCount at this ⊢
            rw [List.countP_cons, hin]
            simpa using this

/-! ## The recorded range lists of a declaration sequence (C1) -/

/-- Unfolding equation: the whitespace list after one
`skipWhitespaceThenMarkRangeAsTS` call. -/
theorem skipWs_ws_eq (text : Text) (tr : TsSyntaxTracker) (s e : Nat) :
    (skipWhitespaceThenMarkRangeAsTS text tr s e).whitespaceSyntaxRanges =
      if s < declRealStart text (s, e) then
        tr.whitespaceSyntaxRanges ++
          [⟨s, declRealStart text (s, e), SyntaxRangeType.whitespace⟩]
      else tr.whitespaceSyntaxRanges := rfl

/-- Unfolding equation: the ts list after one
`skipWhitespaceThenMarkRangeAsTS` call. -/
theorem skipWs_ts_eq (text : Text) (tr : TsSyntaxTracker) (s e : Nat) :
    (skipWhitespaceThenMarkRangeAsTS text tr s e).tsSyntaxRanges =
      if declRealStart text (s, e) < e then
        tr.tsSyntaxRanges ++
          [⟨declRealStart text (s, e), e, SyntaxRangeType.typeScript⟩]
      else tr.tsSyntaxRanges := rfl

/-- Characterisation of the ranges recorded by a sequence of
`skipWhitespaceThenMarkRangeAsTS` declarations: every recorded whitespace
range is the skipped prefix `[start, realStart)` of some declaration, and
every recorded ts range is the remainder `[realStart, end)` of some
declaration. -/
theorem markRanges_mem (text : Text) :
    ∀ (decls : List (Nat × Nat)) (tr : TsSyntaxTracker),
      (∀ w ∈ (decls.foldl
          (fun tr d => skipWhitespaceThenMarkRangeAsTS text tr d.1 d.2)
          tr).whitespaceSyntaxRanges,
        w ∈ tr.whitespaceSyntaxRanges ∨ ∃ d ∈ decls,
          d.1 < declRealStart text d ∧
          w = ⟨d.1, declRealStart text d, SyntaxRangeType.whitespace⟩) ∧
      (∀ t ∈ (decls.foldl
          (fun tr d => skipWhitespaceThenMarkRangeAsTS text tr d.1 d.2)
          tr).tsSyntaxRanges,
        t ∈ tr.tsSyntaxRanges ∨ ∃ d ∈ decls,
          declRealStart text d < d.2 ∧
          t = ⟨declRealStart text d, d.2, SyntaxRangeType.typeScript⟩) := by
  intro decls
  induction decls with
  | nil =>
    intro tr
    exact ⟨fun w hw => Or.inl hw, fun t ht => Or.inl ht⟩
  | cons d ds ih =>
    intro tr
    constructor
    · intro w hw
      rcases (ih (skipWhitespaceThenMarkRangeAsTS text tr d.1 d.2)).1 w hw with
        h | ⟨d', hd', h1, h2⟩
      · rw [skipWs_ws_eq] at h
        by_cases hc : d.1 < declRealStart text (d.1, d.2)
        · rw [if_pos hc] at h
          rcases List.mem_append.mp h with h2 | h2
          · exact Or.inl h2
          · exact Or.inr ⟨d, List.mem_cons_self .., hc, List.mem_singleton.mp h2⟩
        · rw [if_neg hc] at h
          exact Or.inl h
      · exact Or.inr ⟨d', List.mem_cons_of_mem _ hd', h1, h2⟩
    · intro t ht
      rcases (ih (skipWhitespaceThenMarkRangeAsTS text tr d.1 d.2)).2 t ht with
        h | ⟨d', hd', h1, h2⟩
      · rw [skipWs_ts_eq] at h
        by_cases hc : declRealStart text (d.1, d.2) < d.2
        · rw [if_pos hc] at h
          rcases List.mem_append.mp h with h2 | h2
          · exact Or.inl h2
          · exact Or.inr ⟨d, List.mem_cons_self .., hc, List.mem_singleton.mp h2⟩
        · rw [if_neg hc] at h
          exact Or.inl h
      · exact Or.inr ⟨d', List.mem_cons_of_mem _ hd', h1, h2⟩

/-- The sweep's fuel budget strictly exceeds its measure at the initial
state. -/
theorem syntaxRangesFuel_big (len : Nat) (W T : List SyntaxRange) :
    2 * len * T.length + len * W.length + len < syntaxRangesFuel len W T := by
  have key : ∀ Cp : Nat, len < Cp →
      2 * len * T.length + len * W.length + len <
        2 * Cp * T.length + Cp * W.length + Cp + 1 := by
    intro Cp hC
    have hA : 2 * len * T.length ≤ 2 * Cp * T.length :=
      Nat.mul_le_mul_right _ (by omega)
    have hB : len * W.length ≤ Cp * W.length :=
      Nat.mul_le_mul_right _ (by omega)
    omega
  exact key _ (by omega)

/-- C1 (amended): for every text and every sequence of
`skipWhitespaceThenMarkRangeAsTS(start, end)` declarations whose
`[start, end)` intervals are pairwise disjoint and lie within the text,
and whose whitespace skip stops at or before the declared end, the ranges
yielded by `getSyntaxRanges()` are nonempty, sorted by start, mutually
non-overlapping, and their union together with the recorded whitespace
gaps covers `[0, text.length)` exactly once (each offset of the text lies
in exactly one emitted range, or else inside some recorded whitespace gap
and no emitted range). -/
theorem getSyntaxRanges_partition (text : Text) (decls : List (Nat × Nat))
    (hdisj : decls.Pairwise (fun d1 d2 => d1.2 ≤ d2.1 ∨ d2.2 ≤ d1.1))
    (hbound : ∀ d ∈ decls, d.2 ≤ text.length)
    (hshoot : ∀ d ∈ decls, declRealStart text d ≤ d.2) :
    ∃ l, getSyntaxRanges text (markRanges text decls) = some l ∧
      (∀ r ∈ l, r.start < r.end_) ∧
      List.Pairwise (fun a b => a.start ≤ b.start) l ∧
      List.Pairwise (fun a b => a.end_ ≤ b.start) l ∧
      (∀ p, p < text.length →
        coverageCount l (markRanges text decls).whitespaceSyntaxRanges p = 1) := by
  have hws : ∀ w ∈ (markRanges text decls).whitespaceSyntaxRanges,
      ∃ d ∈ decls, d.1 < declRealStart text d ∧
        w = ⟨d.1, declRealStart text d, SyntaxRangeType.whitespace⟩ := by
    intro w hw
    rcases (markRanges_mem text decls createTSSyntaxTracker).1 w hw with h | h
    · cases h
    · exact h
  have hts : ∀ t ∈ (markRanges text decls).tsSyntaxRanges,
      ∃ d ∈ decls, declRealStart text d < d.2 ∧
        t = ⟨declRealStart text d, d.2, SyntaxRangeType.typeScript⟩ := by
    intro t ht
    rcases (markRanges_mem text decls createTSSyntaxTracker).2 t ht with h | h
    · cases h
    · exact h
  have hWperm : List.Perm
      (sortRanges (markRanges text decls).whitespaceSyntaxRanges)
      (markRanges text decls).whitespaceSyntaxRanges :=
    List.perm_insertionSort _ _
  have hTperm : List.Perm
      (sortRanges (markRanges text decls).tsSyntaxRanges)
      (markRanges text decls).tsSyntaxRanges :=
    List.perm_insertionSort _ _
  obtain ⟨l, hl, hB, hP, hCov⟩ :=
    syntaxRangesAux_spec text.length text.length
      (markRanges text decls).whitespaceSyntaxRanges
      (syntaxRangesFuel text.length
        (sortRanges (markRanges text decls).whitespaceSyntaxRanges)
        (sortRanges (markRanges text decls).tsSyntaxRanges))
      0
      (sortRanges (markRanges text decls).whitespaceSyntaxRanges)
      (sortRanges (markRanges text decls).tsSyntaxRanges)
      (List.sorted_insertionSort _ _)
      (List.sorted_insertionSort _ _)
      (by intro t ht
          obtain ⟨d, hd, h1, h2⟩ := hts t (hTperm.subset ht)
          rw [h2]
          exact h1)
      (by intro w hw t ht
          obtain ⟨d, hd, hw1, hw2⟩ := hws w hw
          obtain ⟨d', hd', ht1, ht2⟩ := hts t (hTperm.subset ht)
          rw [hw2, ht2]
          show declRealStart text d ≤ declRealStart text d' ∨ d'.2 ≤ d.1
          by_cases hdd : d = d'
          · subst hdd
            exact Or.inl (le_refl _)
          · have hs1 : declRealStart text d ≤ d.2 := hshoot d hd
            have hs2 : d'.1 ≤ declRealStart text d' :=
              commentScan_start_le text d'.1 d'.2 true
            rcases List.Pairwise.forall (fun _ _ h => h.symm) hdisj hd hd' hdd with
              h | h
            · exact Or.inl (by omega)
            · exact Or.inr h)
      (fun w hw => hWperm.subset hw)
      (fun w hw => Or.inl (hWperm.mem_iff.mpr hw))
      (fun t _ => Nat.zero_le _)
      (by intro t ht
          obtain ⟨d, hd, h1, h2⟩ := hts t (hTperm.subset ht)
          rw [h2]
          show d.2 ≤ text.length
          exact hbound d hd)
      (by intro w hw
          obtain ⟨d, hd, h1, h2⟩ := hws w (hWperm.subset hw)
          rw [h2]
          show declRealStart text d ≤ text.length
          exact le_trans (hshoot d hd) (hbound d hd))
      (le_refl _)
      (Nat.zero_le _)
      (syntaxRangesFuel_big text.length _ _)
  refine ⟨l, hl, fun r hr => (hB r hr).2, ?_, hP, fun p hp => hCov p (Nat.zero_le _) hp⟩
  exact hP.imp_of_mem (fun ha _ hr => le_trans (le_of_lt (hB _ ha).2) hr)

/-- C1 counterexample: two failures of the exact-coverage claim as
stated.  With nested declarations `[(0,19), (5,10)]` on `exTrackerText`,
the recorded whitespace gap `[5,8)` of the inner declaration lies inside
the emitted TS range `[0,19)`, so offset 5 is covered by both.  And with
pairwise-disjoint, in-bounds declarations `[(0,1), (1,6)]` on the shebang
text `exShebang`, the whitespace skip of the first declaration overshoots
its declared end (`realStart = 4 > 1`), the recorded gap `[0,4)` overlaps
the emitted TS range `[1,6)`, and offset 1 is covered by both. -/
theorem getSyntaxRanges_double_coverage :
    (getSyntaxRanges exTrackerText (markRanges exTrackerText [(0, 19), (5, 10)]) =
        some [⟨0, 19, SyntaxRangeType.typeScript⟩] ∧
      coverageCount [⟨0, 19, SyntaxRangeType.typeScript⟩]
        (markRanges exTrackerText [(0, 19), (5, 10)]).whitespaceSyntaxRanges 5 = 2 ∧
      exTrackerText.length = 19) ∧
    (List.Pairwise (fun d1 d2 : Nat × Nat => d1.2 ≤ d2.1 ∨ d2.2 ≤ d1.1)
        [(0, 1), (1, 6)] ∧
      declRealStart exShebang (0, 1) = 4 ∧
      getSyntaxRanges exShebang (markRanges exShebang [(0, 1), (1, 6)]) =
        some [⟨1, 6, SyntaxRangeType.typeScript⟩] ∧
      coverageCount [⟨1, 6, SyntaxRangeType.typeScript⟩]
        (markRanges exShebang [(0, 1), (1, 6)]).whitespaceSyntaxRanges 1 = 2 ∧
      exShebang.length = 6) := by
  refine ⟨⟨?_, ?_, ?_⟩, ?_, ?_, ?_, ?_, ?_⟩
  · decide
  · decide
  · decide
  · decide
  · decide
  · decide
  · decide
  · decide

/-- Witness: `getSyntaxRanges_partition` instantiated on `exTrackerText`
with the single declaration `[(0, 19)]`. -/
theorem getSyntaxRanges_partition_witness :
    ∃ l, getSyntaxRanges exTrackerText (markRanges exTrackerText [(0, 19)]) = some l ∧
      (∀ r ∈ l, r.start < r.end_) ∧
      List.Pairwise (fun a b => a.start ≤ b.start) l ∧
      List.Pairwise (fun a b => a.end_ ≤ b.start) l ∧
      (∀ p, p < exTrackerText.length →
        coverageCount l
          (markRanges exTrackerText [(0, 19)]).whitespaceSyntaxRanges p = 1) :=
  getSyntaxRanges_partition exTrackerText [(0, 19)]
    (by decide) (by decide) (by decide)

/-! ## Token scanning across marker delimiters (C2, C3) -/

/-- A code unit below the surrogate range is its own code point. -/
theorem codePointAt_of_charCodeAt (text : Text) (p c : Nat)
    (h : charCodeAt text p = some c) (hc : c < 0xD800) :
    codePointAt text p = some c := by
  unfold codePointAt
  rw [h]
  simp only
  rw [if_neg (by omega)]

/-- `scan` (with trivia skipping) reading a double-marker opener `/*`,
spaces, `::` continues scanning right after the two colons without
returning a token for the opener. -/
theorem scanAux_marker_step (text : Text) (pos cpos fuel : Nat)
    (h1 : charCodeAt text pos = some CharacterCodes.slash)
    (h2 : charCodeAt text (pos + 1) = some CharacterCodes.asterisk)
    (hlt : pos < text.length)
    (hff : pos = 0 → (text.take 256).contains 0xFFFD = false)
    (hcolon : tsColonScan text text.length (text.length - (pos + 2)) (pos + 2) =
      (cpos, true))
    (hc1 : charCodeAt text (cpos + 1) = some CharacterCodes.colon)
    (hc2 : charCodeAt text (cpos + 2) ≠ some CharacterCodes.colon) :
    scanAux text text.length (fuel + 1) pos =
      scanAux text text.length fuel (cpos + 2) := by
  have hcp : codePointAt text pos = some CharacterCodes.slash :=
    codePointAt_of_charCodeAt text pos _ h1 (by decide)
  have hcc : colonCountAt text cpos = 2 := by
    unfold colonCountAt
    rw [if_neg (not_not_intro hc1), if_pos hc2]
  have hff' : ¬ (pos = 0 ∧ ((text.take 256).contains 0xFFFD) = true) := by
    rintro ⟨hp0, hcont⟩
    rw [hff hp0] at hcont
    exact absurd hcont (by decide)
  simp only [scanAux]
  rw [if_neg (by omega : ¬ pos ≥ text.length)]
  simp [hcp, h2, hcolon, hcc, hff', commentScanWhitespaceCase, isDigitOpt,
    CharacterCodes.slash, CharacterCodes.lineFeed, CharacterCodes.carriageReturn,
    CharacterCodes.hash, CharacterCodes.exclamation, CharacterCodes.doubleQuote,
    CharacterCodes.singleQuote, CharacterCodes.backtick, CharacterCodes.percent,
    CharacterCodes.ampersand, CharacterCodes.openParen, CharacterCodes.closeParen,
    CharacterCodes.asterisk, CharacterCodes.plus, CharacterCodes.comma,
    CharacterCodes.minus, CharacterCodes.dot, CharacterCodes.tab,
    CharacterCodes.verticalTab, CharacterCodes.formFeed, CharacterCodes.space,
    CharacterCodes.nonBreakingSpace, CharacterCodes.ogham, CharacterCodes.enQuad,
    CharacterCodes.emQuad, CharacterCodes.enSpace, CharacterCodes.emSpace,
    CharacterCodes.threePerEmSpace, CharacterCodes.fourPerEmSpace,
    CharacterCodes.sixPerEmSpace, CharacterCodes.figureSpace,
    CharacterCodes.punctuationSpace, CharacterCodes.thinSpace,
    CharacterCodes.hairSpace, CharacterCodes.zeroWidthSpace,
    CharacterCodes.narrowNoBreakSpace, CharacterCodes.mathematicalSpace,
    CharacterCodes.ideographicSpace, CharacterCodes.byteOrderMark,
    CharacterCodes._0, CharacterCodes._9]
  intro h0 hm
  exact absurd hm (by simpa using hff h0)

/-- `scan` (with trivia skipping) reading `*/` continues scanning right
after it without returning a token. -/
theorem scanAux_closer_step (text : Text) (pos fuel : Nat)
    (h1 : charCodeAt text pos = some CharacterCodes.asterisk)
    (h2 : charCodeAt text (pos + 1) = some CharacterCodes.slash)
    (hlt : pos < text.length)
    (hff : pos = 0 → (text.take 256).contains 0xFFFD = false) :
    scanAux text text.length (fuel + 1) pos =
      scanAux text text.length fuel (pos + 2) := by
  have hcp : codePointAt text pos = some CharacterCodes.asterisk :=
    codePointAt_of_charCodeAt text pos _ h1 (by decide)
  have hff' : ¬ (pos = 0 ∧ ((text.take 256).contains 0xFFFD) = true) := by
    rintro ⟨hp0, hcont⟩
    rw [hff hp0] at hcont
    exact absurd hcont (by decide)
  simp only [scanAux]
  rw [if_neg (by omega : ¬ pos ≥ text.length)]
  simp [hcp, h2, hff', commentScanWhitespaceCase, isDigitOpt,
    CharacterCodes.slash, CharacterCodes.lineFeed, CharacterCodes.carriageReturn,
    CharacterCodes.hash, CharacterCodes.exclamation, CharacterCodes.doubleQuote,
    CharacterCodes.singleQuote, CharacterCodes.backtick, CharacterCodes.percent,
    CharacterCodes.ampersand, CharacterCodes.openParen, CharacterCodes.closeParen,
    CharacterCodes.asterisk, CharacterCodes.tab,
    CharacterCodes.verticalTab, CharacterCodes.formFeed, CharacterCodes.space,
    CharacterCodes.nonBreakingSpace, CharacterCodes.ogham, CharacterCodes.enQuad,
    CharacterCodes.emQuad, CharacterCodes.enSpace, CharacterCodes.emSpace,
    CharacterCodes.threePerEmSpace, CharacterCodes.fourPerEmSpace,
    CharacterCodes.sixPerEmSpace, CharacterCodes.figureSpace,
    CharacterCodes.punctuationSpace, CharacterCodes.thinSpace,
    CharacterCodes.hairSpace, CharacterCodes.zeroWidthSpace,
    CharacterCodes.narrowNoBreakSpace, CharacterCodes.mathematicalSpace,
    CharacterCodes.ideographicSpace, CharacterCodes.byteOrderMark,
    CharacterCodes._0, CharacterCodes._9]
  intro h0 hm
  exact absurd hm (by simpa using hff h0)

/-- C2 (amended): scan with trivia skipping emits no token for a
double-marker opener (`/*`, spaces, exactly two colons: it continues
right after the colons) and no token for a directly scanned closing
`*/` (it continues right after it).  The token sequence of the region
is, however, not always that of the body unwrapped at the same place —
see the counterexample `doubleMarker_tokens_not_unwrapped`, where the
body's last `*` merges with the closing delimiter. -/
theorem scan_skips_marker_delimiters (text : Text) :
    (∀ pos cpos fuel,
      charCodeAt text pos = some CharacterCodes.slash →
      charCodeAt text (pos + 1) = some CharacterCodes.asterisk →
      pos < text.length →
      (pos = 0 → (text.take 256).contains 0xFFFD = false) →
      tsColonScan text text.length (text.length - (pos + 2)) (pos + 2) =
        (cpos, true) →
      charCodeAt text (cpos + 1) = some CharacterCodes.colon →
      charCodeAt text (cpos + 2) ≠ some CharacterCodes.colon →
      scanAux text text.length (fuel + 1) pos =
        scanAux text text.length fuel (cpos + 2)) ∧
    (∀ pos fuel,
      charCodeAt text pos = some CharacterCodes.asterisk →
      charCodeAt text (pos + 1) = some CharacterCodes.slash →
      pos < text.length →
      (pos = 0 → (text.take 256).contains 0xFFFD = false) →
      scanAux text text.length (fuel + 1) pos =
        scanAux text text.length fuel (pos + 2)) :=
  ⟨fun pos cpos fuel h1 h2 hlt hff hcolon hc1 hc2 =>
      scanAux_marker_step text pos cpos fuel h1 h2 hlt hff hcolon hc1 hc2,
    fun pos fuel h1 h2 hlt hff =>
      scanAux_closer_step text pos fuel h1 h2 hlt hff⟩

/-- Witness for `scan_skips_marker_delimiters` on `exDoubleStar`
(`/*::a **/`): the scan step at the opener (offset 0, colon at 2)
continues at offset 4, and the scan step at the closer (offset 7)
continues at offset 9. -/
theorem scan_skips_marker_delimiters_witness :
    scanAux exDoubleStar exDoubleStar.length 11 0 =
      scanAux exDoubleStar exDoubleStar.length 10 (2 + 2) ∧
    scanAux exDoubleStar exDoubleStar.length 5 7 =
      scanAux exDoubleStar exDoubleStar.length 4 (7 + 2) :=
  ⟨(scan_skips_marker_delimiters exDoubleStar).1 0 2 10 (by decide) (by decide)
      (by decide) (fun _ => by decide) (by decide) (by decide) (by decide),
    (scan_skips_marker_delimiters exDoubleStar).2 7 4 (by decide) (by decide)
      (by decide) (fun h => absurd h (by decide))⟩

/-- C2 counterexample: in `/*::a **/` the token-kind sequence of the
region is not that of the body unwrapped at the same place
(`    a *  `): the body's final `*` merges with the closing delimiter
into an `**` token, and the closer's `/` becomes a slash token — so the
kinds differ and tokens are produced for the closing `*/` (offsets 7 and
8). -/
theorem doubleMarker_tokens_not_unwrapped :
    scanSeq exDoubleStar 6 0 = some [(4, 5, Token.identifier),
      (6, 8, Token.asteriskAsterisk), (8, 9, Token.slash),
      (9, 9, Token.endOfFile)] ∧
    scanSeq exDoubleStarUnwrapped 6 0 = some [(4, 5, Token.identifier),
      (6, 7, Token.asterisk), (9, 9, Token.endOfFile)] ∧
    Token.asteriskAsterisk ≠ Token.asterisk := by
  refine ⟨?_, ?_, ?_⟩ <;> decide

/-- `skipTrivia` reading a single-marker opener `/*`, spaces, a single
colon stops immediately, returning the offset of the colon. -/
theorem skipTriviaAux_marker_step (text : Text) (pos cpos fuel : Nat)
    (h1 : charCodeAt text pos = some CharacterCodes.slash)
    (h2 : charCodeAt text (pos + 1) = some CharacterCodes.asterisk)
    (hcolon : tsColonScan text text.length (text.length - (pos + 2)) (pos + 2) =
      (cpos, true))
    (hc1 : charCodeAt text (cpos + 1) ≠ some CharacterCodes.colon) :
    skipTriviaAux text (fuel + 1) pos = some cpos := by
  have hcc : colonCountAt text cpos = 1 := by
    unfold colonCountAt
    rw [if_pos hc1]
  simp only [skipTriviaAux]
  rw [h1]
  simp [h2, hcolon, hcc, CharacterCodes.slash, CharacterCodes.asterisk,
    CharacterCodes.colon, CharacterCodes.lineFeed,
    CharacterCodes.carriageReturn, CharacterCodes.tab, CharacterCodes.verticalTab,
    CharacterCodes.formFeed, CharacterCodes.space]

/-- `scan` at a colon produces a genuine colon token at that offset. -/
theorem scanAux_colon_step (text : Text) (pos fuel : Nat)
    (h1 : charCodeAt text pos = some CharacterCodes.colon)
    (hlt : pos < text.length)
    (hff : pos = 0 → (text.take 256).contains 0xFFFD = false) :
    scanAux text text.length (fuel + 1) pos =
      some (pos, pos + 1, Token.colon) := by
  have hcp : codePointAt text pos = some CharacterCodes.colon :=
    codePointAt_of_charCodeAt text pos _ h1 (by decide)
  have hff' : ¬ (pos = 0 ∧ ((text.take 256).contains 0xFFFD) = true) := by
    rintro ⟨hp0, hcont⟩
    rw [hff hp0] at hcont
    exact absurd hcont (by decide)
  simp only [scanAux]
  rw [if_neg (by omega : ¬ pos ≥ text.length)]
  simp [hcp, hff', commentScanWhitespaceCase, isDigitOpt,
    CharacterCodes.colon, CharacterCodes.lineFeed, CharacterCodes.carriageReturn,
    CharacterCodes.hash, CharacterCodes.exclamation, CharacterCodes.doubleQuote,
    CharacterCodes.singleQuote, CharacterCodes.backtick, CharacterCodes.percent,
    CharacterCodes.ampersand, CharacterCodes.openParen, CharacterCodes.closeParen,
    CharacterCodes.asterisk, CharacterCodes.plus, CharacterCodes.comma,
    CharacterCodes.minus, CharacterCodes.dot, CharacterCodes.slash,
    CharacterCodes.tab, CharacterCodes.verticalTab, CharacterCodes.formFeed,
    CharacterCodes.space, CharacterCodes.nonBreakingSpace, CharacterCodes.ogham,
    CharacterCodes.enQuad, CharacterCodes.emQuad, CharacterCodes.enSpace,
    CharacterCodes.emSpace, CharacterCodes.threePerEmSpace,
    CharacterCodes.fourPerEmSpace, CharacterCodes.sixPerEmSpace,
    CharacterCodes.figureSpace, CharacterCodes.punctuationSpace,
    CharacterCodes.thinSpace, CharacterCodes.hairSpace,
    CharacterCodes.zeroWidthSpace, CharacterCodes.narrowNoBreakSpace,
    CharacterCodes.mathematicalSpace, CharacterCodes.ideographicSpace,
    CharacterCodes.byteOrderMark, CharacterCodes._0, CharacterCodes._9]
  intro h0 hm
  exact absurd hm (by simpa using hff h0)

/-- C3 (amended): for a single-marker opener (`/*`, spaces, a colon not
followed by a second colon), trivia skipping stops immediately before
the colon — `skipTrivia` returns the colon's offset — and the next scan
lexes a genuine colon token at that offset.  The tokens that follow are,
however, not always the tokens of the body with nothing for the trailing
`*/` — see the counterexample `singleMarker_tokens_not_body`. -/
theorem singleMarker_trivia_stops_before_colon (text : Text) :
    (∀ pos cpos fuel,
      charCodeAt text pos = some CharacterCodes.slash →
      charCodeAt text (pos + 1) = some CharacterCodes.asterisk →
      tsColonScan text text.length (text.length - (pos + 2)) (pos + 2) =
        (cpos, true) →
      charCodeAt text (cpos + 1) ≠ some CharacterCodes.colon →
      skipTriviaAux text (fuel + 1) pos = some cpos ∧
      skipTriviaF text pos = some cpos) ∧
    (∀ pos fuel,
      charCodeAt text pos = some CharacterCodes.colon →
      pos < text.length →
      (pos = 0 → (text.take 256).contains 0xFFFD = false) →
      scanAux text text.length (fuel + 1) pos =
        some (pos, pos + 1, Token.colon)) :=
  ⟨fun pos cpos fuel h1 h2 hcolon hc1 =>
      ⟨skipTriviaAux_marker_step text pos cpos fuel h1 h2 hcolon hc1,
        skipTriviaAux_marker_step text pos cpos text.length h1 h2 hcolon hc1⟩,
    fun pos fuel h1 hlt hff => scanAux_colon_step text pos fuel h1 hlt hff⟩

/-- Witness for `singleMarker_trivia_stops_before_colon` on `exMarker1`
(`/*: number */`): trivia skipping from the opener at 0 stops at the
colon offset 2, and the scan at offset 2 returns a colon token `[2, 3)`. -/
theorem singleMarker_trivia_stops_before_colon_witness :
    (skipTriviaAux exMarker1 14 0 = some 2 ∧
      skipTriviaF exMarker1 0 = some 2) ∧
    scanAux exMarker1 exMarker1.length 14 2 = some (2, 3, Token.colon) :=
  ⟨(singleMarker_trivia_stops_before_colon exMarker1).1 0 2 13 (by decide)
      (by decide) (by decide) (by decide),
    (singleMarker_trivia_stops_before_colon exMarker1).2 2 13 (by decide)
      (by decide) (fun h => absurd h (by decide))⟩

/-- C3 counterexample: for `/*: a**/` trivia skipping stops before the
colon and the colon is lexed as its own token, but the tokens that
follow are not the tokens of the body `a*`: the body's `*` merges with
the trailing `*/` into an `**` token `[5, 7)` overlapping the closer at
`[6, 8)`, and the closer's `/` becomes a slash token. -/
theorem singleMarker_tokens_not_body :
    skipTriviaF exSingleStar 0 = some 2 ∧
    scanSeq exSingleStar 6 2 = some [(2, 3, Token.colon),
      (4, 5, Token.identifier), (5, 7, Token.asteriskAsterisk),
      (7, 8, Token.slash), (8, 8, Token.endOfFile)] ∧
    scanSeq exSingleStarBody 4 0 = some [(0, 1, Token.identifier),
      (1, 2, Token.asterisk), (2, 2, Token.endOfFile)] := by
  refine ⟨?_, ?_, ?_⟩ <;> decide

end Buildless
